import Mathlib

/-!
# Checkers bot: a shallow embedding of `checkersbot.c`

The C program keeps an 8x8 board of characters, validates typed moves,
enumerates the legal moves of the side to move, builds a game tree of fixed
depth and picks a move by minimax.

Conventions of the embedding

* `char` and `int` values are integers (`Int`); characters are their ASCII
  codes.  C's `%` and `/` truncate toward zero, so they are `Int.tmod` and
  `Int.tdiv`.  The only sum of the program that can leave the 32-bit range is
  the ply number `move + 1` of `recursive_addlayers`; it is reduced to the range
  of `int` by `wrap_int`.  Every other sum stays within the range and is left
  as it is.
* `board_t` (`char[8][8]`) is a function from row and column index to the
  cell character; only the indices `0..7` are cells of the board.
* A `decision_node_t` owns the list of its children: the C fields `options`
  and `next_move` (count and array) become one list, `options` its length.
* Output parameters (`capture`, `best_move`, `index`) are passed in and
  returned; text written to standard output is a list of `message`s.
* The array `possible_moves` of `calculate_options` is a list: its capacity of
  `TEAM_PIECES * MAX_POS_MOVES` slots is not part of the model.
* Memory that C leaves uninitialised is an argument of the function that
  allocates it, or a fixed value where the program writes it before reading.
* Reads of the board are not part of a function's value; where they matter the
  cells indexed are listed by a function of their own (`legal_input_reads`).
-/

namespace CheckersBot

/-! ## Constants -/

abbrev BOARD_SIZE : Int := 8
abbrev ROWS_WITH_PIECES : Int := 3
/-- The character `.` -/
abbrev CELL_EMPTY : Int := 46
/-- The character `b` -/
abbrev CELL_BPIECE : Int := 98
/-- The character `w` -/
abbrev CELL_WPIECE : Int := 119
/-- The character `B` -/
abbrev CELL_BTOWER : Int := 66
/-- The character `W` -/
abbrev CELL_WTOWER : Int := 87
abbrev COST_PIECE : Int := 1
abbrev COST_TOWER : Int := 3
abbrev TREE_DEPTH : Int := 3
abbrev COMP_ACTIONS : Int := 10
abbrev TEAM_PIECES : Int := 12
abbrev SENTINEL : Int := -1
abbrev CAPTURE_DIST : Int := 2
abbrev MOVE_DIST : Int := 1
abbrev INITIAL_DEPTH : Int := 0
abbrev BLACK_DIRECTION : Int := -1
abbrev WHITE_DIRECTION : Int := 1
abbrev MAX_POS_MOVES : Int := 4
abbrev MOVE_COMPUTED : Int := 1
abbrev MOVE_READ : Int := 0
abbrev CAPTURE_OCCURS : Int := 1
abbrev NO_CAPTURE : Int := 0
abbrev CHECK_ODDEVEN : Int := 2
abbrev BLACK_MOVE : Int := 1
abbrev WHITE_MOVE : Int := 0
abbrev DIRECTION_DISTANCE : Int := 2
abbrev CHECK_OVER : Int := 1
abbrev NO_OPTIONS : Int := 0
/-- The value of `INT_MAX` in `limits.h` for a 32-bit `int`. -/
abbrev INT_MAX : Int := 2147483647
/-- The value of `INT_MIN` in `limits.h` for a 32-bit `int`. -/
abbrev INT_MIN : Int := -2147483648
/-- The character `A` -/
abbrev CHAR_A : Int := 65
/-- The character `H` -/
abbrev CHAR_H : Int := 72
/-- The character `1` -/
abbrev CHAR_1 : Int := 49
/-- The character `8` -/
abbrev CHAR_8 : Int := 56

/-! ## Data model -/

/-- The type `board_t`: `board i j` is the character of `board[i][j]`. -/
abbrev board_t := Int → Int → Int

structure move_t where
  sourcecol : Int
  sourcerow : Int
  targetcol : Int
  targetrow : Int
  movenum : Int
deriving DecidableEq, Repr

structure direction_t where
  i : Int
  j : Int
  addi : Int
  addj : Int
deriving DecidableEq, Repr

/-- The type `struct node`: `next_move` is the array of the `options` children. -/
inductive decision_node_t where
  | mk (board : board_t) (minimax_cost : Int) (move : move_t)
      (next_move : List decision_node_t)

namespace decision_node_t

def board : decision_node_t → board_t
  | mk b _ _ _ => b

def minimax_cost : decision_node_t → Int
  | mk _ c _ _ => c

def move : decision_node_t → move_t
  | mk _ _ m _ => m

def next_move : decision_node_t → List decision_node_t
  | mk _ _ _ n => n

/-- The field `options`: the number of children in `next_move`. -/
def options (node : decision_node_t) : Int := node.next_move.length

end decision_node_t

/-- The lines the program can print. -/
inductive message where
  | BLACK_WIN
  | WHITE_WIN
  | ERROR_SOURCE_OUTSIDE
  | ERROR_TARGET_OUTSIDE
  | ERROR_SOURCE_EMPTY
  | ERROR_TARGET_NOT_EMPTY
  | ERROR_OPPONENT_PIECE
  | ERROR_ILLEGAL_ACTION
  | MOVE (programmove : Int) (curmove : move_t) (cost : Int)
deriving DecidableEq, Repr

/-- What a validation function hands back: its return value, the value of
`*capture` afterwards, and the lines it printed. -/
structure check_t where
  ret : Int
  capture : Int
  out : List message
deriving DecidableEq, Repr

/-- What `play_round` hands back: its return value, the board afterwards and
the lines it printed. -/
structure round_t where
  ret : Int
  board : board_t
  out : List message

/-- The row (and column) indices visited by `for (i = 0; i < BOARD_SIZE; i++)`. -/
def board_range : List Int := [0, 1, 2, 3, 4, 5, 6, 7]

/-- The assignment `board[r][c] = v`. -/
def set_cell (board : board_t) (r c v : Int) : board_t :=
  fun i j => if i = r ∧ j = c then v else board i j

/-- The function `abs` of `stdlib.h`. -/
def c_abs (x : Int) : Int := if x < 0 then -x else x

/-! ## Board updates and move validation -/

def convert_to_index (movenode : Int) : Int :=
  if CHAR_A ≤ movenode ∧ movenode ≤ CHAR_H then movenode - CHAR_A
  else if CHAR_1 ≤ movenode ∧ movenode ≤ CHAR_8 then movenode - CHAR_1
  else SENTINEL

def promote_piece (curpiece targetrow : Int) : Int :=
  if curpiece = CELL_BPIECE ∧ targetrow = CHAR_1 then 1
  else if curpiece = CELL_WPIECE ∧ targetrow = CHAR_8 then 1
  else 0

def update_board (board : board_t) (curmove : move_t) (capture : Int) : board_t :=
  let sourcerowi := convert_to_index curmove.sourcerow
  let sourcecoli := convert_to_index curmove.sourcecol
  let targetrowi := convert_to_index curmove.targetrow
  let targetcoli := convert_to_index curmove.targetcol
  let curpiece := board sourcerowi sourcecoli
  let board1 :=
    if promote_piece curpiece curmove.targetrow ≠ 0 then
      if curpiece = CELL_WPIECE then set_cell board targetrowi targetcoli CELL_WTOWER
      else set_cell board targetrowi targetcoli CELL_BTOWER
    else set_cell board targetrowi targetcoli curpiece
  let board2 := set_cell board1 sourcerowi sourcecoli CELL_EMPTY
  if capture ≠ 0 then
    set_cell board2 (Int.tdiv (sourcerowi + targetrowi) 2)
      (Int.tdiv (sourcecoli + targetcoli) 2) CELL_EMPTY
  else board2

def capture_opposition (board : board_t) (move : move_t) : Int :=
  let sourcerowi := convert_to_index move.sourcerow
  let sourcecoli := convert_to_index move.sourcecol
  let targetrowi := convert_to_index move.targetrow
  let targetcoli := convert_to_index move.targetcol
  let captured_piece :=
    board (Int.tdiv (sourcerowi + targetrowi) 2) (Int.tdiv (sourcecoli + targetcoli) 2)
  if Int.tmod move.movenum CHECK_ODDEVEN = BLACK_MOVE ∧
      (captured_piece = CELL_BTOWER ∨ captured_piece = CELL_BPIECE) then 0
  else if Int.tmod move.movenum CHECK_ODDEVEN = WHITE_MOVE ∧
      (captured_piece = CELL_WTOWER ∨ captured_piece = CELL_WPIECE) then 0
  else 1

def valid_move (board : board_t) (curmove : move_t) (capture : Int) : check_t :=
  let sourcerowi := convert_to_index curmove.sourcerow
  let sourcecoli := convert_to_index curmove.sourcecol
  let targetrowi := convert_to_index curmove.targetrow
  let targetcoli := convert_to_index curmove.targetcol
  if c_abs (sourcerowi - targetrowi) = CAPTURE_DIST ∧
      c_abs (sourcecoli - targetcoli) = CAPTURE_DIST then
    if capture_opposition board curmove = 0 then ⟨0, capture, [message.ERROR_ILLEGAL_ACTION]⟩
    else ⟨1, CAPTURE_OCCURS, []⟩
  else if c_abs (sourcerowi - targetrowi) = MOVE_DIST ∧
      c_abs (sourcecoli - targetcoli) = MOVE_DIST then ⟨1, NO_CAPTURE, []⟩
  else ⟨0, capture, [message.ERROR_ILLEGAL_ACTION]⟩

def legal_input (board : board_t) (curmove : move_t) (capture : Int) : check_t :=
  let sourcerowi := convert_to_index curmove.sourcerow
  let sourcecoli := convert_to_index curmove.sourcecol
  let targetrowi := convert_to_index curmove.targetrow
  let targetcoli := convert_to_index curmove.targetcol
  let sourcepiece := board sourcerowi sourcecoli
  let targetpiece := board targetrowi targetcoli
  if sourcerowi = SENTINEL ∨ sourcecoli = SENTINEL then
    ⟨0, capture, [message.ERROR_SOURCE_OUTSIDE]⟩
  else if targetrowi = SENTINEL ∨ targetcoli = SENTINEL then
    ⟨0, capture, [message.ERROR_TARGET_OUTSIDE]⟩
  else if sourcepiece = CELL_EMPTY then ⟨0, capture, [message.ERROR_SOURCE_EMPTY]⟩
  else if targetpiece ≠ CELL_EMPTY then ⟨0, capture, [message.ERROR_TARGET_NOT_EMPTY]⟩
  else if (Int.tmod curmove.movenum CHECK_ODDEVEN = WHITE_MOVE ∧
        (sourcepiece = CELL_BTOWER ∨ sourcepiece = CELL_BPIECE)) ∨
      (Int.tmod curmove.movenum CHECK_ODDEVEN = BLACK_MOVE ∧
        (sourcepiece = CELL_WTOWER ∨ sourcepiece = CELL_WPIECE)) then
    ⟨0, capture, [message.ERROR_OPPONENT_PIECE]⟩
  else if (valid_move board curmove capture).ret = 0 then valid_move board curmove capture
  else ⟨1, (valid_move board curmove capture).capture, (valid_move board curmove capture).out⟩

/-- The loop body of `calculate_cost`: the cost after visiting one cell. -/
def calculate_cost_cell (board : board_t) (cost i j : Int) : Int :=
  if board i j = CELL_WPIECE then cost - 1
  else if board i j = CELL_BPIECE then cost + 1
  else if board i j = CELL_WTOWER then cost - COST_TOWER
  else if board i j = CELL_BTOWER then cost + COST_TOWER
  else cost

def calculate_cost (board : board_t) : Int :=
  board_range.foldl
    (fun cost i => board_range.foldl (fun cost j => calculate_cost_cell board cost i j) cost) 0

/-! ## Move generation -/

/-- The loops of `copy_board` assign every cell of `board2` to `board1`; the
result is the new content of `board1`. -/
def copy_board (board2 : board_t) : board_t := fun i j => board2 i j

/-- A freshly allocated node's `minimax_cost` is not initialised in C; it is
written by `recur_fill_costs` before anything reads it, and is 0 here. -/
def create_move (board : board_t) (moves : move_t) : decision_node_t :=
  let capture :=
    if c_abs (moves.sourcecol - moves.targetcol) = CAPTURE_DIST ∧
        c_abs (moves.sourcerow - moves.targetrow) = CAPTURE_DIST then CAPTURE_OCCURS
    else NO_CAPTURE
  decision_node_t.mk (update_board (copy_board board) moves capture) 0 moves []

/-- The array `possible_moves` with its fill count `*index` is the list of the
nodes written so far; the result is the list after the call. -/
def test_direction (board : board_t) (possible_moves : List decision_node_t) (move : Int)
    (test : direction_t) : List decision_node_t :=
  if 0 ≤ test.i + test.addi ∧ test.i + test.addi < BOARD_SIZE ∧
      0 ≤ test.j + test.addj ∧ test.j + test.addj < BOARD_SIZE ∧
      board (test.i + test.addi) (test.j + test.addj) = CELL_EMPTY then
    possible_moves ++ [create_move board
      ⟨test.j + CHAR_A, test.i + CHAR_1, test.j + test.addj + CHAR_A,
        test.i + test.addi + CHAR_1, move⟩]
  else if 0 ≤ test.i + CAPTURE_DIST * test.addi ∧
      test.i + CAPTURE_DIST * test.addi < BOARD_SIZE ∧
      test.j + CAPTURE_DIST * test.addj < BOARD_SIZE ∧
      0 ≤ test.j + CAPTURE_DIST * test.addj ∧
      board (test.i + CAPTURE_DIST * test.addi) (test.j + CAPTURE_DIST * test.addj)
        = CELL_EMPTY then
    if capture_opposition board
        ⟨test.j + CHAR_A, test.i + CHAR_1, test.j + CAPTURE_DIST * test.addj + CHAR_A,
          test.i + CAPTURE_DIST * test.addi + CHAR_1, move⟩ = 0 then possible_moves
    else possible_moves ++ [create_move board
      ⟨test.j + CHAR_A, test.i + CHAR_1, test.j + CAPTURE_DIST * test.addj + CHAR_A,
        test.i + CAPTURE_DIST * test.addi + CHAR_1, move⟩]
  else possible_moves

/-- The values of `addj` in the loop
`for (addj = WHITE_DIRECTION; addj >= BLACK_DIRECTION; addj -= DIRECTION_DISTANCE)`. -/
def addj_range : List Int := [WHITE_DIRECTION, WHITE_DIRECTION - DIRECTION_DISTANCE]

/-- The values of `addi` in the loop
`for (addi = BLACK_DIRECTION; addi <= WHITE_DIRECTION; addi += DIRECTION_DISTANCE)`. -/
def addi_range : List Int := [BLACK_DIRECTION, BLACK_DIRECTION + DIRECTION_DISTANCE]

def w_move (board : board_t) (i j : Int) (possible_moves : List decision_node_t)
    (movenum : Int) : List decision_node_t :=
  addj_range.foldl
    (fun acc addj => test_direction board acc movenum ⟨i, j, WHITE_DIRECTION, addj⟩)
    possible_moves

def b_move (board : board_t) (i j : Int) (possible_moves : List decision_node_t)
    (movenum : Int) : List decision_node_t :=
  addj_range.foldl
    (fun acc addj => test_direction board acc movenum ⟨i, j, BLACK_DIRECTION, addj⟩)
    possible_moves

def WB_move (board : board_t) (i j : Int) (possible_moves : List decision_node_t)
    (movenum : Int) : List decision_node_t :=
  addj_range.foldl
    (fun acc addj => addi_range.foldl
      (fun acc addi => test_direction board acc movenum ⟨i, j, addi, addj⟩) acc)
    possible_moves

def add_options (board : board_t) (i j : Int) (possible_moves : List decision_node_t)
    (move : Int) : List decision_node_t :=
  if board i j = CELL_WPIECE then w_move board i j possible_moves move
  else if board i j = CELL_BPIECE then b_move board i j possible_moves move
  else if board i j = CELL_WTOWER ∨ board i j = CELL_BTOWER then
    WB_move board i j possible_moves move
  else possible_moves

/-- The loop body of `calculate_options`: the array after visiting cell `(i, j)`. -/
def calculate_options_cell (board : board_t) (movenum : Int)
    (possible_moves : List decision_node_t) (i j : Int) : List decision_node_t :=
  if Int.tmod movenum CHECK_ODDEVEN = BLACK_MOVE then
    if board i j = CELL_BPIECE ∨ board i j = CELL_BTOWER then
      add_options board i j possible_moves movenum
    else possible_moves
  else if board i j = CELL_WPIECE ∨ board i j = CELL_WTOWER then
    add_options board i j possible_moves movenum
  else possible_moves

/-- The array `possible_moves` that `calculate_options` fills for a node with this
board and move number. -/
def possible_moves (board : board_t) (movenum : Int) : List decision_node_t :=
  board_range.foldl
    (fun acc i => board_range.foldl
      (fun acc j => calculate_options_cell board movenum acc i j) acc) []

def calculate_options (node : decision_node_t) : decision_node_t :=
  decision_node_t.mk node.board node.minimax_cost node.move
    (possible_moves node.board node.move.movenum)

/-- The assignment `node->move.movenum = move`. -/
def set_movenum (node : decision_node_t) (move : Int) : decision_node_t :=
  decision_node_t.mk node.board node.minimax_cost
    ⟨node.move.sourcecol, node.move.sourcerow, node.move.targetcol, node.move.targetrow, move⟩
    node.next_move

/-- The assignment `node->options = NO_OPTIONS`. -/
def clear_options (node : decision_node_t) : decision_node_t :=
  decision_node_t.mk node.board node.minimax_cost node.move []

/-- The assignment of the children array after the recursive calls. -/
def set_next_move (node : decision_node_t) (next : List decision_node_t) : decision_node_t :=
  decision_node_t.mk node.board node.minimax_cost node.move next

/-- The assignment `node->minimax_cost = cost`. -/
def set_minimax_cost (node : decision_node_t) (cost : Int) : decision_node_t :=
  decision_node_t.mk node.board cost node.move node.next_move

/-- The value of an `int` expression whose exact value is `x`: the representative of `x`
modulo `2^32` in the range `INT_MIN..INT_MAX`, as the compiled program computes it. -/
def wrap_int (x : Int) : Int := (x + 2147483648) % 4294967296 - 2147483648

def recursive_addlayers (node : decision_node_t) (move : Int) (tree_depth : Int) :
    decision_node_t :=
  if h : tree_depth > TREE_DEPTH then clear_options (set_movenum node move)
  else
    set_next_move (calculate_options (clear_options (set_movenum node move)))
      ((calculate_options (clear_options (set_movenum node move))).next_move.map
        (fun child => recursive_addlayers child (wrap_int (move + 1)) (tree_depth + 1)))
termination_by (TREE_DEPTH + 1 - tree_depth).toNat
decreasing_by
  simp only [TREE_DEPTH] at h ⊢
  omega

/-! ## Minimax -/

def game_over (root : decision_node_t) : Int :=
  if root.options = NO_OPTIONS then
    if Int.tmod root.move.movenum CHECK_ODDEVEN = BLACK_MOVE then INT_MAX else INT_MIN
  else 0

/-- The loop body of the maximising branch of `propagate_cost`. -/
def propagate_max (propagated_cost : Int) (child : decision_node_t) : Int :=
  if child.minimax_cost > propagated_cost then child.minimax_cost else propagated_cost

/-- The loop body of the minimising branch of `propagate_cost`. -/
def propagate_min (propagated_cost : Int) (child : decision_node_t) : Int :=
  if child.minimax_cost < propagated_cost then child.minimax_cost else propagated_cost

def propagate_cost (root : decision_node_t) : decision_node_t :=
  if Int.tmod root.move.movenum CHECK_ODDEVEN = BLACK_MOVE then
    set_minimax_cost root (root.next_move.foldl propagate_max INT_MIN)
  else set_minimax_cost root (root.next_move.foldl propagate_min INT_MAX)

/-- The loop body of `recur_fill_costs` at depth `TREE_DEPTH - 1`: the child with
its cost filled in. -/
def fill_leaf_cost (child : decision_node_t) : decision_node_t :=
  if game_over child ≠ 0 then set_minimax_cost child (game_over child)
  else set_minimax_cost child (calculate_cost child.board)

mutual
def recur_fill_costs : decision_node_t → Int → decision_node_t
  | decision_node_t.mk board cost move next, depth =>
    if (decision_node_t.mk board cost move next).options = NO_OPTIONS then
      set_minimax_cost (decision_node_t.mk board cost move next)
        (game_over (decision_node_t.mk board cost move next))
    else if depth = TREE_DEPTH - 1 then
      propagate_cost (decision_node_t.mk board cost move (next.map fill_leaf_cost))
    else
      propagate_cost (decision_node_t.mk board cost move (recur_fill_children next (depth + 1)))
/-- The loop `for (i = 0; i < root->options; i++) recur_fill_costs(root->next_move + i, depth)`. -/
def recur_fill_children : List decision_node_t → Int → List decision_node_t
  | [], _ => []
  | child :: rest, depth => recur_fill_costs child depth :: recur_fill_children rest depth
end

/-- The scan of `find_move` for the first child whose cost is the root's; `best_move`
keeps its old value when the loop ends without a match. -/
def select_move (root : decision_node_t) (best_move : move_t) : move_t :=
  match root.next_move.find? (fun child => child.minimax_cost == root.minimax_cost) with
  | some child => child.move
  | none => best_move

/-- The result is the tree and the content of `*best_move` after the call. -/
def find_move (root : decision_node_t) (best_move : move_t) : decision_node_t × move_t :=
  if game_over root ≠ 0 then (set_movenum root (game_over root), best_move)
  else
    (propagate_cost (recur_fill_costs root INITIAL_DEPTH),
      select_move (propagate_cost (recur_fill_costs root INITIAL_DEPTH)) best_move)

/-- The function `print_move`, as the line it contributes to the output. -/
def print_move (board : board_t) (programmove : Int) (curmove : move_t) : List message :=
  [message.MOVE programmove curmove (calculate_cost board)]

/-- The freshly allocated root and `best_move` of `play_round` are not initialised
in C: `root_init` and `best_init` are whatever the memory holds. -/
def play_round (board : board_t) (move : Int) (check_gover : Int)
    (root_init : decision_node_t) (best_init : move_t) : round_t :=
  let capture := NO_CAPTURE
  let root0 := decision_node_t.mk (copy_board board) root_init.minimax_cost root_init.move
    root_init.next_move
  let root1 := recursive_addlayers root0 move INITIAL_DEPTH
  let found := find_move root1 best_init
  let root := found.1
  let best_move : move_t :=
    ⟨found.2.sourcecol, found.2.sourcerow, found.2.targetcol, found.2.targetrow, move⟩
  if game_over root = INT_MAX then ⟨0, board, [message.BLACK_WIN]⟩
  else if game_over root = INT_MAX then ⟨0, board, [message.WHITE_WIN]⟩
  else if check_gover ≠ 0 then ⟨0, board, []⟩
  else if (legal_input board best_move capture).ret = 0 then
    ⟨0, board, (legal_input board best_move capture).out ++ [message.ERROR_ILLEGAL_ACTION]⟩
  else
    ⟨1, update_board board best_move (legal_input board best_move capture).capture,
      (legal_input board best_move capture).out ++
        print_move (update_board board best_move (legal_input board best_move capture).capture)
          MOVE_COMPUTED best_move⟩

/-- The loop body of `fill_board`: the board and the variable `order` after
visiting cell `(i, j)`. -/
def fill_board_cell (state : board_t × Int) (i j : Int) : board_t × Int :=
  let order := if j = 0 then Int.tmod (state.2 + 1) CHECK_ODDEVEN else state.2
  if i < ROWS_WITH_PIECES then
    if Int.tmod j CHECK_ODDEVEN = order then (set_cell state.1 i j CELL_EMPTY, order)
    else (set_cell state.1 i j CELL_WPIECE, order)
  else if i ≥ BOARD_SIZE - ROWS_WITH_PIECES then
    if Int.tmod j CHECK_ODDEVEN = order then (set_cell state.1 i j CELL_EMPTY, order)
    else (set_cell state.1 i j CELL_BPIECE, order)
  else (set_cell state.1 i j CELL_EMPTY, order)

/-- The argument is the content of the array before the call. -/
def fill_board (board : board_t) : board_t :=
  (board_range.foldl
    (fun state i => board_range.foldl (fun state j => fill_board_cell state i j) state)
    (board, BLACK_MOVE)).1

/-! ## Vocabulary of the specification -/

/-- Every cell of the board is one of `.`, `b`, `w`, `B`, `W`. -/
def well_formed (board : board_t) : Prop :=
  ∀ i ∈ board_range, ∀ j ∈ board_range,
    board i j = CELL_EMPTY ∨ board i j = CELL_BPIECE ∨ board i j = CELL_WPIECE ∨
      board i j = CELL_BTOWER ∨ board i j = CELL_WTOWER

instance (board : board_t) : Decidable (well_formed board) := by
  unfold well_formed
  infer_instance

/-- Row `i` and column `j` are indices of a cell of the board. -/
def on_board (i j : Int) : Prop := 0 ≤ i ∧ i < BOARD_SIZE ∧ 0 ≤ j ∧ j < BOARD_SIZE

instance (i j : Int) : Decidable (on_board i j) := by
  unfold on_board
  infer_instance

/-- The cell holds a piece or tower of the side to move at ply `p`: black at an
odd ply, white at an even one. -/
def own_piece (p cell : Int) : Prop :=
  if p % 2 = 1 then cell = CELL_BPIECE ∨ cell = CELL_BTOWER
  else cell = CELL_WPIECE ∨ cell = CELL_WTOWER

instance (p cell : Int) : Decidable (own_piece p cell) := by
  unfold own_piece
  infer_instance

/-- The cell holds a piece or tower of the side that is not to move at ply `p`. -/
def opposing_piece (p cell : Int) : Prop :=
  if p % 2 = 1 then cell = CELL_WPIECE ∨ cell = CELL_WTOWER
  else cell = CELL_BPIECE ∨ cell = CELL_BTOWER

instance (p cell : Int) : Decidable (opposing_piece p cell) := by
  unfold opposing_piece
  infer_instance

/-- The empty board. -/
def empty_board : board_t := fun _ _ => CELL_EMPTY

/-- The value `v` is the greatest element of the list. -/
def is_maximum (v : Int) (l : List Int) : Prop := v ∈ l ∧ ∀ x ∈ l, x ≤ v

/-- The value `v` is the least element of the list. -/
def is_minimum (v : Int) (l : List Int) : Prop := v ∈ l ∧ ∀ x ∈ l, v ≤ x

/-- The greatest of `x` and the elements of the list. -/
def list_max : Int → List Int → Int
  | x, [] => x
  | x, y :: ys => max x (list_max y ys)

/-- The least of `x` and the elements of the list. -/
def list_min : Int → List Int → Int
  | x, [] => x
  | x, y :: ys => min x (list_min y ys)

/-- A node of ply `q` without options, as `game_over` sees it. -/
def stuck_node (board : board_t) (q : Int) : decision_node_t :=
  decision_node_t.mk board 0 ⟨0, 0, 0, 0, q⟩ []

/-- The minimax value `V(b, q, d)` of the specification: the sentinel of `game_over`
when the side to move at ply `q` has no option on `b`; otherwise `calculate_cost b`
when `d = 0`; otherwise the greatest (odd `q`, black) or least (even `q`, white) of
`V(c, q + 1, d - 1)` over the boards `c` of the options enumerated for `b` at ply `q`. -/
def V (board : board_t) (q : Int) (d : Nat) : Int :=
  match d with
  | 0 =>
    match possible_moves board q with
    | [] => game_over (stuck_node board q)
    | _ :: _ => calculate_cost board
  | d + 1 =>
    match (possible_moves board q).map (fun c => V c.board (q + 1) d) with
    | [] => game_over (stuck_node board q)
    | v :: vs => if q % 2 = 1 then list_max v vs else list_min v vs

/-- The move from cell `(i, j)` by `k` steps in direction `(addi, addj)` at move
number `p`, in the characters `test_direction` writes. -/
def move_from (i j addi addj k p : Int) : move_t :=
  ⟨j + CHAR_A, i + CHAR_1, j + k * addj + CHAR_A, i + k * addi + CHAR_1, p⟩

/-- The target is `k` rows and `k` columns away from the source. -/
def diagonal_distance (k sr sc tr tc : Int) : Prop :=
  (tr - sr = k ∨ tr - sr = -k) ∧ (tc - sc = k ∨ tc - sc = -k)

/-- The shape the specification requires of a recorded move. -/
def sound_move (board : board_t) (p : Int) (mv : move_t) : Prop :=
  on_board (convert_to_index mv.sourcerow) (convert_to_index mv.sourcecol) ∧
  on_board (convert_to_index mv.targetrow) (convert_to_index mv.targetcol) ∧
  own_piece p (board (convert_to_index mv.sourcerow) (convert_to_index mv.sourcecol)) ∧
  board (convert_to_index mv.targetrow) (convert_to_index mv.targetcol) = CELL_EMPTY ∧
  (diagonal_distance 1 (convert_to_index mv.sourcerow) (convert_to_index mv.sourcecol)
      (convert_to_index mv.targetrow) (convert_to_index mv.targetcol) ∨
    (diagonal_distance 2 (convert_to_index mv.sourcerow) (convert_to_index mv.sourcecol)
        (convert_to_index mv.targetrow) (convert_to_index mv.targetcol) ∧
      opposing_piece p
        (board ((convert_to_index mv.sourcerow + convert_to_index mv.targetrow) / 2)
          ((convert_to_index mv.sourcecol + convert_to_index mv.targetcol) / 2))))

/-- Direction `(addi, addj)` is one the piece may move in: the two diagonals toward
decreasing row index for `b`, the two toward increasing row index for `w`, all four
for `B` and `W`. -/
def allowed_direction (piece addi addj : Int) : Prop :=
  (addj = 1 ∨ addj = -1) ∧
    ((piece = CELL_BPIECE ∧ addi = -1) ∨ (piece = CELL_WPIECE ∧ addi = 1) ∨
      ((piece = CELL_BTOWER ∨ piece = CELL_WTOWER) ∧ (addi = 1 ∨ addi = -1)))

/-- The legal moves of the side to move at ply `p`, as the specification words them:
from a cell of that side, in an allowed direction, one simple step when the adjacent
cell is on the board and empty, one capture when the adjacent cell holds an opposing
piece or tower and the cell two steps away is on the board and empty. -/
def legal_move (board : board_t) (p : Int) (mv : move_t) : Prop :=
  ∃ i j addi addj, on_board i j ∧ own_piece p (board i j) ∧
    allowed_direction (board i j) addi addj ∧
    ((on_board (i + addi) (j + addj) ∧ board (i + addi) (j + addj) = CELL_EMPTY ∧
        mv = move_from i j addi addj 1 p) ∨
      (on_board (i + addi) (j + addj) ∧ opposing_piece p (board (i + addi) (j + addj)) ∧
        on_board (i + 2 * addi) (j + 2 * addj) ∧
        board (i + 2 * addi) (j + 2 * addj) = CELL_EMPTY ∧
        mv = move_from i j addi addj 2 p))

/-! ## Auxiliary definitions of the proofs -/

/-- The cost `propagate_cost` computes from a move number and a list of children. -/
def propagated (movenum : Int) (l : List decision_node_t) : Int :=
  if Int.tmod movenum CHECK_ODDEVEN = BLACK_MOVE then l.foldl propagate_max INT_MIN
  else l.foldl propagate_min INT_MAX

/-- The four diagonal directions `(addi, addj)` in the order in which `WB_move`
tries them. -/
def directions : List (Int × Int) := [(-1, 1), (1, 1), (-1, -1), (1, -1)]

/-- The dispatch of `calculate_options` and `add_options`: the piece on the cell belongs
to the side to move and that piece's loop tries row direction `addi`. -/
def tries_direction (movenum piece addi : Int) : Prop :=
  (Int.tmod movenum CHECK_ODDEVEN = BLACK_MOVE ∧
      ((piece = CELL_BPIECE ∧ addi = BLACK_DIRECTION) ∨ piece = CELL_BTOWER)) ∨
    (¬ Int.tmod movenum CHECK_ODDEVEN = BLACK_MOVE ∧
      ((piece = CELL_WPIECE ∧ addi = WHITE_DIRECTION) ∨ piece = CELL_WTOWER))

instance (movenum piece addi : Int) : Decidable (tries_direction movenum piece addi) := by
  unfold tries_direction
  infer_instance

/-- The options `calculate_options` adds for the cell `(i, j)`. -/
def cell_options (board : board_t) (movenum i j : Int) : List decision_node_t :=
  directions.flatMap (fun d =>
    if tries_direction movenum (board i j) d.1 then
      test_direction board [] movenum ⟨i, j, d.1, d.2⟩
    else [])

/-- The moves a cell contributes in one direction. -/
def direction_moves (board : board_t) (p i j : Int) (d : Int × Int) : List move_t :=
  (if tries_direction p (board i j) d.1 then test_direction board [] p ⟨i, j, d.1, d.2⟩
    else []).map decision_node_t.move

/-! ## Example positions -/

/-- A board with a single black piece, on B2 (row index 1, column index 1). -/
def board_b_at_B2 : board_t := set_cell empty_board 1 1 CELL_BPIECE

/-- A board with a single white piece, on B2 (row index 1, column index 1). -/
def board_w_at_B2 : board_t := set_cell empty_board 1 1 CELL_WPIECE

/-- A board with a single white piece, on A8 (row index 7, column index 0). -/
def board_w_at_A8 : board_t := set_cell empty_board 7 0 CELL_WPIECE

/-- A board with a black piece on C3 and a white piece on B2: black can step to D2 or
capture to A1. -/
def board_b_C3_w_B2 : board_t := set_cell (set_cell empty_board 2 2 CELL_BPIECE) 1 1 CELL_WPIECE

/-- A node with cleared fields, holding a board and a move number. -/
def blank_node (board : board_t) (movenum : Int) : decision_node_t :=
  decision_node_t.mk board 0 ⟨0, 0, 0, 0, movenum⟩ []

/-- A black-to-move root with two children of costs 5 and 7. -/
def example_root : decision_node_t :=
  decision_node_t.mk board_b_at_B2 0 ⟨0, 0, 0, 0, 1⟩
    [decision_node_t.mk empty_board 5 ⟨66, 50, 65, 49, 1⟩ [],
      decision_node_t.mk empty_board 7 ⟨66, 50, 67, 49, 1⟩ []]

/-- The piece as the specification has it arrive on a target in row `tr`: crowned on
the far row, unchanged otherwise. -/
def crowned (piece tr : Int) : Int :=
  if piece = CELL_BPIECE ∧ tr = 0 then CELL_BTOWER
  else if piece = CELL_WPIECE ∧ tr = 7 then CELL_WTOWER
  else piece

/-! ## Further vocabulary of the specification -/

/-- The 64 cells of the board as `(row, column)` pairs, in the row-major order of the
nested loops over the board. -/
def board_cells : List (Int × Int) :=
  board_range.flatMap (fun i => board_range.map (fun j => (i, j)))

/-- The number of cells of the board that hold the character `c`. -/
def count_cells (board : board_t) (c : Int) : Int :=
  (board_cells.countP (fun cell => decide (board cell.1 cell.2 = c)) : Nat)

/-- The character with the sides exchanged: `b` with `w` and `B` with `W`. -/
def swap_cell (c : Int) : Int :=
  if c = CELL_BPIECE then CELL_WPIECE
  else if c = CELL_WPIECE then CELL_BPIECE
  else if c = CELL_BTOWER then CELL_WTOWER
  else if c = CELL_WTOWER then CELL_BTOWER
  else c

/-- The board with the sides exchanged in every cell. -/
def swap_sides (board : board_t) : board_t := fun i j => swap_cell (board i j)

/-- The nodes at depth `d` below the node `t`, in the order of the children arrays. -/
def nodes_at : Nat → decision_node_t → List decision_node_t
  | 0, t => [t]
  | d + 1, t => t.next_move.flatMap (fun c => nodes_at d c)

/-- The capture flag `create_move` computes for a move. -/
def capture_flag (moves : move_t) : Int :=
  if c_abs (moves.sourcecol - moves.targetcol) = CAPTURE_DIST ∧
      c_abs (moves.sourcerow - moves.targetrow) = CAPTURE_DIST then CAPTURE_OCCURS
  else NO_CAPTURE

/-- The source cell of a move as `(row index, column index)`. -/
def source_cell (mv : move_t) : Int × Int :=
  (convert_to_index mv.sourcerow, convert_to_index mv.sourcecol)

/-- Row-major order of cells: lexicographic on `(row, column)`. -/
def row_major_le (a b : Int × Int) : Prop := a.1 < b.1 ∨ (a.1 = b.1 ∧ a.2 ≤ b.2)

/-- The cell holds a plain piece of the side to move at ply `p`. -/
def own_plain (p cell : Int) : Prop :=
  if p % 2 = 1 then cell = CELL_BPIECE else cell = CELL_WPIECE

instance (p cell : Int) : Decidable (own_plain p cell) := by
  unfold own_plain
  infer_instance

/-- The cell holds a tower of the side to move at ply `p`. -/
def own_tower (p cell : Int) : Prop :=
  if p % 2 = 1 then cell = CELL_BTOWER else cell = CELL_WTOWER

instance (p cell : Int) : Decidable (own_tower p cell) := by
  unfold own_tower
  infer_instance

/-- The number of cells that hold a plain piece of the side to move at ply `p`. -/
def count_own_plain (board : board_t) (p : Int) : Nat :=
  board_cells.countP (fun cell => decide (own_plain p (board cell.1 cell.2)))

/-- The number of cells that hold a tower of the side to move at ply `p`. -/
def count_own_tower (board : board_t) (p : Int) : Nat :=
  board_cells.countP (fun cell => decide (own_tower p (board cell.1 cell.2)))

/-- The number `n` of cells that hold a piece or tower of the side to move at ply `p`. -/
def count_own (board : board_t) (p : Int) : Nat :=
  board_cells.countP (fun cell => decide (own_piece p (board cell.1 cell.2)))

/-- The moves of black on the starting board, in the order A6-B5, C6-D5, C6-B5, E6-F5,
E6-D5, G6-H5, G6-F5, with move number `p`. -/
def start_moves_black (p : Int) : List move_t :=
  [⟨CHAR_A, CHAR_1 + 5, CHAR_A + 1, CHAR_1 + 4, p⟩,
    ⟨CHAR_A + 2, CHAR_1 + 5, CHAR_A + 3, CHAR_1 + 4, p⟩,
    ⟨CHAR_A + 2, CHAR_1 + 5, CHAR_A + 1, CHAR_1 + 4, p⟩,
    ⟨CHAR_A + 4, CHAR_1 + 5, CHAR_A + 5, CHAR_1 + 4, p⟩,
    ⟨CHAR_A + 4, CHAR_1 + 5, CHAR_A + 3, CHAR_1 + 4, p⟩,
    ⟨CHAR_A + 6, CHAR_1 + 5, CHAR_A + 7, CHAR_1 + 4, p⟩,
    ⟨CHAR_A + 6, CHAR_1 + 5, CHAR_A + 5, CHAR_1 + 4, p⟩]

/-- The moves of white on the starting board, in the order B3-C4, B3-A4, D3-E4, D3-C4,
F3-G4, F3-E4, H3-G4, with move number `p`. -/
def start_moves_white (p : Int) : List move_t :=
  [⟨CHAR_A + 1, CHAR_1 + 2, CHAR_A + 2, CHAR_1 + 3, p⟩,
    ⟨CHAR_A + 1, CHAR_1 + 2, CHAR_A, CHAR_1 + 3, p⟩,
    ⟨CHAR_A + 3, CHAR_1 + 2, CHAR_A + 4, CHAR_1 + 3, p⟩,
    ⟨CHAR_A + 3, CHAR_1 + 2, CHAR_A + 2, CHAR_1 + 3, p⟩,
    ⟨CHAR_A + 5, CHAR_1 + 2, CHAR_A + 6, CHAR_1 + 3, p⟩,
    ⟨CHAR_A + 5, CHAR_1 + 2, CHAR_A + 4, CHAR_1 + 3, p⟩,
    ⟨CHAR_A + 7, CHAR_1 + 2, CHAR_A + 6, CHAR_1 + 3, p⟩]

/-! ## Further auxiliary definitions of the proofs -/

/-- What one cell adds to the cost in the loop body of `calculate_cost`. -/
def cell_value (c : Int) : Int :=
  if c = CELL_WPIECE then -1
  else if c = CELL_BPIECE then 1
  else if c = CELL_WTOWER then -COST_TOWER
  else if c = CELL_BTOWER then COST_TOWER
  else 0

/-- The value of `cost` in `calculate_cost` after the first `n` cells of the scan. -/
def partial_cost (board : board_t) (n : Nat) : Int :=
  (board_cells.take n).foldl (fun cost cell => calculate_cost_cell board cost cell.1 cell.2) 0

/-! ## Further example positions -/

/-- A board with a black piece on A8 and a white piece on H1, far apart. -/
def board_far_apart : board_t :=
  set_cell (set_cell empty_board 7 0 CELL_BPIECE) 0 7 CELL_WPIECE

/-- The option A8-B7 of black on `board_far_apart`, the first of four plies A8-B7,
H1-G2, B7-C6, G2-H3. -/
def far_apart_1 : decision_node_t := create_move board_far_apart (move_from 7 0 (-1) 1 1 1)

/-- The option H1-G2 of white after `far_apart_1`. -/
def far_apart_2 : decision_node_t := create_move far_apart_1.board (move_from 0 7 1 (-1) 1 2)

/-- The option B7-C6 of black after `far_apart_2`. -/
def far_apart_3 : decision_node_t := create_move far_apart_2.board (move_from 6 1 (-1) 1 1 3)

/-- The option G2-H3 of white after `far_apart_3`. -/
def far_apart_4 : decision_node_t := create_move far_apart_3.board (move_from 1 6 1 1 1 4)

/-- A board with a single black tower, on D4 (row index 3, column index 3). -/
def board_B_at_D4 : board_t := set_cell empty_board 3 3 CELL_BTOWER

/-- A well-formed board with 16 black towers, on the cells of even row and even column
index. -/
def board_sixteen_towers : board_t :=
  fun i j => if i % 2 = 0 ∧ j % 2 = 0 then CELL_BTOWER else CELL_EMPTY

/-! ## Further auxiliary definitions of the proofs, continued -/

/-- The value of `order` in `fill_board` after the update at the start of a row. -/
def fill_order (order j : Int) : Int :=
  if j = 0 then Int.tmod (order + 1) CHECK_ODDEVEN else order

/-- The character `fill_board` writes to cell `(i, j)` when `order` has the given value. -/
def fill_value (order i j : Int) : Int :=
  if i < ROWS_WITH_PIECES then
    if Int.tmod j CHECK_ODDEVEN = order then CELL_EMPTY else CELL_WPIECE
  else if i ≥ BOARD_SIZE - ROWS_WITH_PIECES then
    if Int.tmod j CHECK_ODDEVEN = order then CELL_EMPTY else CELL_BPIECE
  else CELL_EMPTY

/-- The move with its move number replaced. -/
def with_movenum (p : Int) (mv : move_t) : move_t :=
  ⟨mv.sourcecol, mv.sourcerow, mv.targetcol, mv.targetrow, p⟩

/-! ## The cells read by the move validation -/

/-- The cell of `board` that `capture_opposition` indexes: the midpoint of the move. -/
def capture_opposition_reads (move : move_t) : List (Int × Int) :=
  [(Int.tdiv (convert_to_index move.sourcerow + convert_to_index move.targetrow) 2,
    Int.tdiv (convert_to_index move.sourcecol + convert_to_index move.targetcol) 2)]

/-- The cells of `board` that `valid_move` indexes, through `capture_opposition`. -/
def valid_move_reads (curmove : move_t) : List (Int × Int) :=
  if c_abs (convert_to_index curmove.sourcerow - convert_to_index curmove.targetrow)
        = CAPTURE_DIST ∧
      c_abs (convert_to_index curmove.sourcecol - convert_to_index curmove.targetcol)
        = CAPTURE_DIST then
    capture_opposition_reads curmove
  else []

/-- The cells `(row index, column index)` at which `legal_input` indexes `board`, in the
order of execution: the initialisers of `sourcepiece` and `targetpiece` come first,
before any test; `valid_move` is reached only when the five tests before it pass. -/
def legal_input_reads (board : board_t) (curmove : move_t) : List (Int × Int) :=
  let sourcerowi := convert_to_index curmove.sourcerow
  let sourcecoli := convert_to_index curmove.sourcecol
  let targetrowi := convert_to_index curmove.targetrow
  let targetcoli := convert_to_index curmove.targetcol
  let sourcepiece := board sourcerowi sourcecoli
  let targetpiece := board targetrowi targetcoli
  [(sourcerowi, sourcecoli), (targetrowi, targetcoli)] ++
    (if sourcerowi = SENTINEL ∨ sourcecoli = SENTINEL then []
    else if targetrowi = SENTINEL ∨ targetcoli = SENTINEL then []
    else if sourcepiece = CELL_EMPTY then []
    else if targetpiece ≠ CELL_EMPTY then []
    else if (Int.tmod curmove.movenum CHECK_ODDEVEN = WHITE_MOVE ∧
          (sourcepiece = CELL_BTOWER ∨ sourcepiece = CELL_BPIECE)) ∨
        (Int.tmod curmove.movenum CHECK_ODDEVEN = BLACK_MOVE ∧
          (sourcepiece = CELL_WTOWER ∨ sourcepiece = CELL_WPIECE)) then []
    else valid_move_reads curmove)

/-- The character `I`, the first letter after the columns of the board. -/
abbrev CHAR_I : Int := 73

/-! ## The cells the move generator touches -/

/-- The cells `update_board` touches, in order: the source read through `curpiece`, the
target written, the source cleared, and with the capture flag the midpoint cleared. -/
def update_board_cells (curmove : move_t) (capture : Int) : List (Int × Int) :=
  let sourcerowi := convert_to_index curmove.sourcerow
  let sourcecoli := convert_to_index curmove.sourcecol
  let targetrowi := convert_to_index curmove.targetrow
  let targetcoli := convert_to_index curmove.targetcol
  [(sourcerowi, sourcecoli), (targetrowi, targetcoli), (sourcerowi, sourcecoli)] ++
    (if capture ≠ 0 then
      [(Int.tdiv (sourcerowi + targetrowi) 2, Int.tdiv (sourcecoli + targetcoli) 2)]
    else [])

/-- The cells `create_move` touches: the 64 cells `copy_board` copies, then the cells
`update_board` touches on the copy. -/
def create_move_cells (moves : move_t) : List (Int × Int) :=
  board_cells ++ update_board_cells moves (capture_flag moves)

/-- The cells the `else if` branch of `test_direction` indexes: the landing cell, read
only when the four bounds tests before it hold, then the midpoint read by
`capture_opposition` and the cells of `create_move`. -/
def test_capture_cells (board : board_t) (move : Int) (test : direction_t) :
    List (Int × Int) :=
  if 0 ≤ test.i + CAPTURE_DIST * test.addi ∧
      test.i + CAPTURE_DIST * test.addi < BOARD_SIZE ∧
      test.j + CAPTURE_DIST * test.addj < BOARD_SIZE ∧
      0 ≤ test.j + CAPTURE_DIST * test.addj then
    (test.i + CAPTURE_DIST * test.addi, test.j + CAPTURE_DIST * test.addj) ::
      (if board (test.i + CAPTURE_DIST * test.addi) (test.j + CAPTURE_DIST * test.addj)
          = CELL_EMPTY then
        capture_opposition_reads
            ⟨test.j + CHAR_A, test.i + CHAR_1, test.j + CAPTURE_DIST * test.addj + CHAR_A,
              test.i + CAPTURE_DIST * test.addi + CHAR_1, move⟩ ++
          (if capture_opposition board
              ⟨test.j + CHAR_A, test.i + CHAR_1, test.j + CAPTURE_DIST * test.addj + CHAR_A,
                test.i + CAPTURE_DIST * test.addi + CHAR_1, move⟩ = 0 then []
          else create_move_cells
            ⟨test.j + CHAR_A, test.i + CHAR_1, test.j + CAPTURE_DIST * test.addj + CHAR_A,
              test.i + CAPTURE_DIST * test.addi + CHAR_1, move⟩)
      else [])
  else []

/-- The cells `test_direction` indexes, in the order of execution: the adjacent cell is
read only when the four bounds tests before it in the `&&` chain hold. -/
def test_direction_cells (board : board_t) (move : Int) (test : direction_t) :
    List (Int × Int) :=
  if 0 ≤ test.i + test.addi ∧ test.i + test.addi < BOARD_SIZE ∧
      0 ≤ test.j + test.addj ∧ test.j + test.addj < BOARD_SIZE then
    (test.i + test.addi, test.j + test.addj) ::
      (if board (test.i + test.addi) (test.j + test.addj) = CELL_EMPTY then
        create_move_cells
          ⟨test.j + CHAR_A, test.i + CHAR_1, test.j + test.addj + CHAR_A,
            test.i + test.addi + CHAR_1, move⟩
      else test_capture_cells board move test)
  else test_capture_cells board move test

/-- The cells `w_move` touches through its calls of `test_direction`. -/
def w_move_cells (board : board_t) (i j movenum : Int) : List (Int × Int) :=
  addj_range.flatMap (fun addj => test_direction_cells board movenum ⟨i, j, WHITE_DIRECTION, addj⟩)

/-- The cells `b_move` touches through its calls of `test_direction`. -/
def b_move_cells (board : board_t) (i j movenum : Int) : List (Int × Int) :=
  addj_range.flatMap (fun addj => test_direction_cells board movenum ⟨i, j, BLACK_DIRECTION, addj⟩)

/-- The cells `WB_move` touches through its calls of `test_direction`. -/
def WB_move_cells (board : board_t) (i j movenum : Int) : List (Int × Int) :=
  addj_range.flatMap (fun addj => addi_range.flatMap (fun addi =>
    test_direction_cells board movenum ⟨i, j, addi, addj⟩))

/-- The cells `add_options` touches: `board[i][j]` read into `curpiece`, then the cells
of the loop of the piece. -/
def add_options_cells (board : board_t) (i j move : Int) : List (Int × Int) :=
  (i, j) ::
    (if board i j = CELL_WPIECE then w_move_cells board i j move
    else if board i j = CELL_BPIECE then b_move_cells board i j move
    else if board i j = CELL_WTOWER ∨ board i j = CELL_BTOWER then WB_move_cells board i j move
    else [])

/-- The cells of the board that `calculate_options` reads or writes, on the node's board
or on a child's copy, in the order of execution. -/
def calculate_options_cells (board : board_t) (movenum : Int) : List (Int × Int) :=
  board_range.flatMap (fun i => board_range.flatMap (fun j =>
    (i, j) ::
      (if Int.tmod movenum CHECK_ODDEVEN = BLACK_MOVE then
        if board i j = CELL_BPIECE ∨ board i j = CELL_BTOWER then
          add_options_cells board i j movenum
        else []
      else if board i j = CELL_WPIECE ∨ board i j = CELL_WTOWER then
        add_options_cells board i j movenum
      else [])))

/-! ## Sums over the cells and material -/

/-- The sum of `g` over the contents of the 64 cells of the board. -/
def cells_sum (g : Int → Int) (board : board_t) : Int :=
  (board_cells.map (fun cell => g (board cell.1 cell.2))).sum

/-- The character `update_board` writes on the target for a piece and a target row
character. -/
def target_value (piece targetrow : Int) : Int :=
  if promote_piece piece targetrow ≠ 0 then
    if piece = CELL_WPIECE then CELL_WTOWER else CELL_BTOWER
  else piece

/-- The material value of a piece: 1 for a plain piece, 3 for a tower, 0 otherwise. -/
def piece_worth (c : Int) : Int :=
  if c = CELL_BPIECE ∨ c = CELL_WPIECE then COST_PIECE
  else if c = CELL_BTOWER ∨ c = CELL_WTOWER then COST_TOWER
  else 0

/-- The sign of the mover in `calculate_cost`: 1 for black (odd ply), -1 for white. -/
def mover_sign (p : Int) : Int := if p % 2 = 1 then 1 else -1

/-- The material a move gains for the mover on a board: 2 when the moved piece is
crowned, plus the value of the piece on the midpoint when the move is a capture. -/
def material_gain (board : board_t) (mv : move_t) : Int :=
  (if crowned (board (convert_to_index mv.sourcerow) (convert_to_index mv.sourcecol))
        (convert_to_index mv.targetrow) =
      board (convert_to_index mv.sourcerow) (convert_to_index mv.sourcecol) then 0
    else 2) +
  (if capture_flag mv = CAPTURE_OCCURS then
      piece_worth
        (board ((convert_to_index mv.sourcerow + convert_to_index mv.targetrow) / 2)
          ((convert_to_index mv.sourcecol + convert_to_index mv.targetcol) / 2))
    else 0)

/-! ## The computed round and the reachable boards -/

/-- The move `play_round` hands to `legal_input` in a computed round: the move written by
`find_move` on the tree built for the board, with the move number of the round. -/
def round_best_move (board : board_t) (move : Int) (root_init : decision_node_t)
    (best_init : move_t) : move_t :=
  let root0 := decision_node_t.mk (copy_board board) root_init.minimax_cost root_init.move
    root_init.next_move
  let root1 := recursive_addlayers root0 move INITIAL_DEPTH
  let found := find_move root1 best_init
  ⟨found.2.sourcecol, found.2.sourcerow, found.2.targetcol, found.2.targetrow, move⟩

/-- The number of cells that hold a piece or tower of the side not to move at ply `p`. -/
def count_opposing (board : board_t) (p : Int) : Nat :=
  board_cells.countP (fun cell => decide (opposing_piece p (board cell.1 cell.2)))

/-- The boards a game can reach: the starting board of `fill_board`, then any number of
moves, each accepted by `legal_input` at a move number `≥ 0` and applied by `update_board`
with the capture flag `legal_input` set, or generated by `calculate_options` at a ply
`≥ 0`. -/
inductive reachable (board0 : board_t) : board_t → Prop
  | start : reachable board0 (fill_board board0)
  | accepted (board : board_t) (mv : move_t) (capture : Int) :
      reachable board0 board → 0 ≤ mv.movenum → (legal_input board mv capture).ret ≠ 0 →
      reachable board0 (update_board board mv (legal_input board mv capture).capture)
  | generated (board : board_t) (p : Int) (opt : decision_node_t) :
      reachable board0 board → 0 ≤ p → opt ∈ possible_moves board p →
      reachable board0 opt.board

/-! ## The value of the tree in `int` arithmetic -/

/-- The cost the tree of depth `d` below a board receives from `recur_fill_costs`: as `V`,
with the ply number of the children computed in `int` as `recursive_addlayers` does and
the side to move tested as `propagate_cost` does. -/
def tree_cost (board : board_t) (q : Int) (d : Nat) : Int :=
  match d with
  | 0 =>
    match possible_moves board q with
    | [] => game_over (stuck_node board q)
    | _ :: _ => calculate_cost board
  | d + 1 =>
    match (possible_moves board q).map (fun c => tree_cost c.board (wrap_int (q + 1)) d) with
    | [] => game_over (stuck_node board q)
    | v :: vs =>
      if Int.tmod q CHECK_ODDEVEN = BLACK_MOVE then list_max v vs else list_min v vs

/-- The board with a black piece on A3 and a white piece on H1: black is two steps from
the crowning row and the pieces cannot meet within three plies. -/
def board_b_A3_w_H1 : board_t := set_cell (set_cell empty_board 2 0 CELL_BPIECE) 0 7 CELL_WPIECE

/-! ## Lemmas on the minimax loops and the evaluator -/

theorem tmod_two_of_nonneg (p : Int) (hp : 0 ≤ p) : Int.tmod p CHECK_ODDEVEN = p % 2 :=
  Int.tmod_eq_emod hp (by decide)

theorem foldl_propagate_max_ge (l : List decision_node_t) (acc : Int) :
    acc ≤ l.foldl propagate_max acc ∧ ∀ c ∈ l, c.minimax_cost ≤ l.foldl propagate_max acc := by
  induction l generalizing acc with
  | nil => simp
  | cons c cs ih =>
    simp only [List.foldl_cons, List.mem_cons, forall_eq_or_imp]
    have h1 := (ih (propagate_max acc c)).1
    have h2 := (ih (propagate_max acc c)).2
    have h3 : acc ≤ propagate_max acc c ∧ c.minimax_cost ≤ propagate_max acc c := by
      unfold propagate_max
      split <;> omega
    exact ⟨by omega, by omega, h2⟩

theorem foldl_propagate_max_mem (l : List decision_node_t) (acc : Int) :
    l.foldl propagate_max acc = acc ∨
      l.foldl propagate_max acc ∈ l.map decision_node_t.minimax_cost := by
  induction l generalizing acc with
  | nil => simp
  | cons c cs ih =>
    simp only [List.foldl_cons, List.map_cons, List.mem_cons]
    rcases ih (propagate_max acc c) with h | h
    · rw [h]
      unfold propagate_max
      split
      · right; left; rfl
      · left; rfl
    · right; right; exact h

theorem foldl_propagate_min_le (l : List decision_node_t) (acc : Int) :
    l.foldl propagate_min acc ≤ acc ∧ ∀ c ∈ l, l.foldl propagate_min acc ≤ c.minimax_cost := by
  induction l generalizing acc with
  | nil => simp
  | cons c cs ih =>
    simp only [List.foldl_cons, List.mem_cons, forall_eq_or_imp]
    have h1 := (ih (propagate_min acc c)).1
    have h2 := (ih (propagate_min acc c)).2
    have h3 : propagate_min acc c ≤ acc ∧ propagate_min acc c ≤ c.minimax_cost := by
      unfold propagate_min
      split <;> omega
    exact ⟨by omega, by omega, h2⟩

theorem foldl_propagate_min_mem (l : List decision_node_t) (acc : Int) :
    l.foldl propagate_min acc = acc ∨
      l.foldl propagate_min acc ∈ l.map decision_node_t.minimax_cost := by
  induction l generalizing acc with
  | nil => simp
  | cons c cs ih =>
    simp only [List.foldl_cons, List.map_cons, List.mem_cons]
    rcases ih (propagate_min acc c) with h | h
    · rw [h]
      unfold propagate_min
      split
      · right; left; rfl
      · left; rfl
    · right; right; exact h

/-- Over children whose costs are `int` values, the maximising loop of
`propagate_cost` ends with the greatest cost. -/
theorem foldl_propagate_max_is_maximum (l : List decision_node_t) (hne : l ≠ [])
    (hlow : ∀ c ∈ l, INT_MIN ≤ c.minimax_cost) :
    is_maximum (l.foldl propagate_max INT_MIN) (l.map decision_node_t.minimax_cost) := by
  refine ⟨?_, ?_⟩
  · rcases foldl_propagate_max_mem l INT_MIN with h | h
    · obtain ⟨c, cs, rfl⟩ := List.exists_cons_of_ne_nil hne
      have h1 := (foldl_propagate_max_ge (c :: cs) INT_MIN).2 c (List.mem_cons_self _ _)
      have h2 := hlow c (List.mem_cons_self _ _)
      have h3 : c.minimax_cost = List.foldl propagate_max INT_MIN (c :: cs) := by omega
      rw [← h3]
      simp
    · exact h
  · intro x hx
    obtain ⟨c, hc, rfl⟩ := List.mem_map.mp hx
    exact (foldl_propagate_max_ge l INT_MIN).2 c hc

theorem foldl_propagate_min_is_minimum (l : List decision_node_t) (hne : l ≠ [])
    (hhigh : ∀ c ∈ l, c.minimax_cost ≤ INT_MAX) :
    is_minimum (l.foldl propagate_min INT_MAX) (l.map decision_node_t.minimax_cost) := by
  refine ⟨?_, ?_⟩
  · rcases foldl_propagate_min_mem l INT_MAX with h | h
    · obtain ⟨c, cs, rfl⟩ := List.exists_cons_of_ne_nil hne
      have h1 := (foldl_propagate_min_le (c :: cs) INT_MAX).2 c (List.mem_cons_self _ _)
      have h2 := hhigh c (List.mem_cons_self _ _)
      have h3 : c.minimax_cost = List.foldl propagate_min INT_MAX (c :: cs) := by omega
      rw [← h3]
      simp
    · exact h
  · intro x hx
    obtain ⟨c, hc, rfl⟩ := List.mem_map.mp hx
    exact (foldl_propagate_min_le l INT_MAX).2 c hc

theorem propagate_cost_cost_eq (root : decision_node_t) :
    (propagate_cost root).minimax_cost =
      if Int.tmod root.move.movenum CHECK_ODDEVEN = BLACK_MOVE then
        root.next_move.foldl propagate_max INT_MIN
      else root.next_move.foldl propagate_min INT_MAX := by
  unfold propagate_cost
  split <;> rfl

theorem foldl_bounded_step {α : Type} (f : Int → α → Int) (k : Int)
    (hstep : ∀ acc x, acc - k ≤ f acc x ∧ f acc x ≤ acc + k) (l : List α) (acc : Int) :
    acc - k * l.length ≤ l.foldl f acc ∧ l.foldl f acc ≤ acc + k * l.length := by
  induction l generalizing acc with
  | nil => simp
  | cons x xs ih =>
    have h1 := ih (f acc x)
    have h2 := hstep acc x
    simp only [List.foldl_cons, List.length_cons, Nat.cast_add, Nat.cast_one]
    constructor <;> nlinarith [h1.1, h1.2, h2.1, h2.2]

theorem calculate_cost_cell_bounds (board : board_t) (cost i j : Int) :
    cost - 3 ≤ calculate_cost_cell board cost i j ∧
      calculate_cost_cell board cost i j ≤ cost + 3 := by
  unfold calculate_cost_cell
  simp only [COST_TOWER]
  split_ifs <;> constructor <;> omega

/-- The evaluator stays within 64 cells times the tower weight. -/
theorem calculate_cost_bounds (board : board_t) :
    -192 ≤ calculate_cost board ∧ calculate_cost board ≤ 192 := by
  have hinner : ∀ (acc i : Int),
      acc - 24 ≤ board_range.foldl (fun cost j => calculate_cost_cell board cost i j) acc ∧
        board_range.foldl (fun cost j => calculate_cost_cell board cost i j) acc ≤ acc + 24 := by
    intro acc i
    have h := foldl_bounded_step (fun cost j => calculate_cost_cell board cost i j) 3
      (fun a x => calculate_cost_cell_bounds board a i x) board_range acc
    simpa [board_range] using h
  have h := foldl_bounded_step
    (fun cost i => board_range.foldl (fun cost j => calculate_cost_cell board cost i j) cost) 24
    (fun a x => hinner a x) board_range 0
  unfold calculate_cost
  simpa [board_range] using h

theorem game_over_values (root : decision_node_t) :
    game_over root = INT_MAX ∨ game_over root = INT_MIN ∨ game_over root = 0 := by
  unfold game_over
  split_ifs <;> simp

theorem game_over_bounds (root : decision_node_t) :
    INT_MIN ≤ game_over root ∧ game_over root ≤ INT_MAX := by
  rcases game_over_values root with h | h | h <;> rw [h] <;> decide

/-! ## Lemmas on the game tree -/

theorem node_eta (t : decision_node_t) :
    decision_node_t.mk t.board t.minimax_cost t.move t.next_move = t := by
  cases t; rfl

theorem recur_fill_children_eq_map (l : List decision_node_t) (depth : Int) :
    recur_fill_children l depth = l.map (fun c => recur_fill_costs c depth) := by
  induction l with
  | nil => simp [recur_fill_children]
  | cons c cs ih => simp [recur_fill_children, ih]

theorem recur_fill_costs_unfold (t : decision_node_t) (depth : Int) :
    recur_fill_costs t depth =
      if t.options = NO_OPTIONS then set_minimax_cost t (game_over t)
      else if depth = TREE_DEPTH - 1 then
        propagate_cost (set_next_move t (t.next_move.map fill_leaf_cost))
      else
        propagate_cost
          (set_next_move t (t.next_move.map (fun c => recur_fill_costs c (depth + 1)))) := by
  cases t with
  | mk board cost move next =>
    rw [recur_fill_costs, recur_fill_children_eq_map]
    rfl

theorem wrap_int_eq (x : Int) (hlo : INT_MIN ≤ x) (hhi : x ≤ INT_MAX) : wrap_int x = x := by
  unfold wrap_int
  simp only [INT_MIN, INT_MAX] at hlo hhi
  omega

theorem wrap_int_range (x : Int) : INT_MIN ≤ wrap_int x ∧ wrap_int x ≤ INT_MAX := by
  unfold wrap_int
  simp only [INT_MIN, INT_MAX]
  omega

theorem recursive_addlayers_unfold (node : decision_node_t) (move tree_depth : Int) :
    recursive_addlayers node move tree_depth =
      if tree_depth > TREE_DEPTH then clear_options (set_movenum node move)
      else
        set_next_move (calculate_options (clear_options (set_movenum node move)))
          ((calculate_options (clear_options (set_movenum node move))).next_move.map
            (fun child => recursive_addlayers child (wrap_int (move + 1)) (tree_depth + 1))) := by
  rw [recursive_addlayers]
  split <;> rfl

theorem recursive_addlayers_board (node : decision_node_t) (move tree_depth : Int) :
    (recursive_addlayers node move tree_depth).board = node.board := by
  rw [recursive_addlayers_unfold]
  split <;> rfl

theorem recursive_addlayers_movenum (node : decision_node_t) (move tree_depth : Int) :
    (recursive_addlayers node move tree_depth).move.movenum = move := by
  rw [recursive_addlayers_unfold]
  split <;> rfl

theorem recursive_addlayers_next_move (node : decision_node_t) (move tree_depth : Int)
    (hdepth : tree_depth ≤ TREE_DEPTH) :
    (recursive_addlayers node move tree_depth).next_move =
      (possible_moves node.board move).map
        (fun child => recursive_addlayers child (wrap_int (move + 1)) (tree_depth + 1)) := by
  rw [recursive_addlayers_unfold, if_neg (by omega)]
  rfl

theorem recursive_addlayers_next_move_deep (node : decision_node_t) (move tree_depth : Int)
    (hdepth : tree_depth > TREE_DEPTH) :
    (recursive_addlayers node move tree_depth).next_move = [] := by
  rw [recursive_addlayers_unfold, if_pos hdepth]
  rfl

/-! ## The tree's costs against the specification's minimax value -/

theorem list_max_is_maximum (v : Int) (vs : List Int) : is_maximum (list_max v vs) (v :: vs) := by
  induction vs generalizing v with
  | nil => simp [list_max, is_maximum]
  | cons y ys ih =>
    obtain ⟨hmem, hle⟩ := ih y
    unfold list_max
    refine ⟨?_, ?_⟩
    · rcases max_cases v (list_max y ys) with ⟨h, _⟩ | ⟨h, _⟩
      · rw [h]; simp
      · rw [h]; exact List.mem_cons_of_mem _ hmem
    · intro x hx
      rcases List.mem_cons.mp hx with rfl | hx
      · exact le_max_left _ _
      · exact le_trans (hle x hx) (le_max_right _ _)

theorem list_min_is_minimum (v : Int) (vs : List Int) : is_minimum (list_min v vs) (v :: vs) := by
  induction vs generalizing v with
  | nil => simp [list_min, is_minimum]
  | cons y ys ih =>
    obtain ⟨hmem, hle⟩ := ih y
    unfold list_min
    refine ⟨?_, ?_⟩
    · rcases min_cases v (list_min y ys) with ⟨h, _⟩ | ⟨h, _⟩
      · rw [h]; simp
      · rw [h]; exact List.mem_cons_of_mem _ hmem
    · intro x hx
      rcases List.mem_cons.mp hx with rfl | hx
      · exact min_le_left _ _
      · exact le_trans (min_le_right _ _) (hle x hx)

theorem is_maximum_unique {a b : Int} {l : List Int} (ha : is_maximum a l) (hb : is_maximum b l) :
    a = b :=
  le_antisymm (hb.2 a ha.1) (ha.2 b hb.1)

theorem is_minimum_unique {a b : Int} {l : List Int} (ha : is_minimum a l) (hb : is_minimum b l) :
    a = b :=
  le_antisymm (ha.2 b hb.1) (hb.2 a ha.1)

theorem propagate_cost_eq (root : decision_node_t) :
    propagate_cost root =
      set_minimax_cost root (propagated root.move.movenum root.next_move) := by
  unfold propagate_cost propagated
  split <;> rfl

/-- On children with `int` costs the propagated cost is the spec's maximum or minimum. -/
theorem propagated_eq (q : Int) (hq : 0 ≤ q) (c : decision_node_t) (cs : List decision_node_t)
    (hrange : ∀ x ∈ c :: cs, INT_MIN ≤ x.minimax_cost ∧ x.minimax_cost ≤ INT_MAX) :
    propagated q (c :: cs) =
      if q % 2 = 1 then list_max c.minimax_cost (cs.map decision_node_t.minimax_cost)
      else list_min c.minimax_cost (cs.map decision_node_t.minimax_cost) := by
  unfold propagated
  rw [tmod_two_of_nonneg q hq]
  by_cases hodd : q % 2 = 1
  · rw [if_pos hodd, if_pos hodd]
    exact is_maximum_unique
      (foldl_propagate_max_is_maximum (c :: cs) (by simp) (fun x hx => (hrange x hx).1))
      (by simpa using list_max_is_maximum c.minimax_cost (cs.map decision_node_t.minimax_cost))
  · rw [if_neg hodd, if_neg hodd]
    exact is_minimum_unique
      (foldl_propagate_min_is_minimum (c :: cs) (by simp) (fun x hx => (hrange x hx).2))
      (by simpa using list_min_is_minimum c.minimax_cost (cs.map decision_node_t.minimax_cost))

theorem list_max_bounds (lo hi v : Int) (vs : List Int) (h : ∀ x ∈ v :: vs, lo ≤ x ∧ x ≤ hi) :
    lo ≤ list_max v vs ∧ list_max v vs ≤ hi :=
  h _ (list_max_is_maximum v vs).1

theorem list_min_bounds (lo hi v : Int) (vs : List Int) (h : ∀ x ∈ v :: vs, lo ≤ x ∧ x ≤ hi) :
    lo ≤ list_min v vs ∧ list_min v vs ≤ hi :=
  h _ (list_min_is_minimum v vs).1

theorem V_bounds (d : Nat) : ∀ (board : board_t) (q : Int),
    INT_MIN ≤ V board q d ∧ V board q d ≤ INT_MAX := by
  induction d with
  | zero =>
    intro board q
    unfold V
    split
    · exact game_over_bounds _
    · have := calculate_cost_bounds board
      constructor <;> simp only [INT_MIN, INT_MAX] <;> omega
  | succ d ih =>
    intro board q
    unfold V
    split
    · exact game_over_bounds _
    · rename_i v vs heq
      have hall : ∀ x ∈ v :: vs, INT_MIN ≤ x ∧ x ≤ INT_MAX := by
        intro x hx
        rw [← heq] at hx
        obtain ⟨c, _, rfl⟩ := List.mem_map.mp hx
        exact ih c.board (q + 1)
      split
      · exact list_max_bounds _ _ v vs hall
      · exact list_min_bounds _ _ v vs hall

theorem game_over_of_next_move_nil (t : decision_node_t) (h : t.next_move = []) :
    game_over t = game_over (stuck_node t.board t.move.movenum) := by
  unfold game_over decision_node_t.options
  rw [h]
  rfl

theorem game_over_of_next_move_cons (t : decision_node_t) (c : decision_node_t)
    (cs : List decision_node_t) (h : t.next_move = c :: cs) : game_over t = 0 := by
  unfold game_over decision_node_t.options
  rw [h, if_neg]
  simp only [List.length_cons, NO_OPTIONS]
  omega

theorem game_over_stuck_ne_zero (board : board_t) (q : Int) :
    game_over (stuck_node board q) ≠ 0 := by
  unfold game_over stuck_node decision_node_t.options decision_node_t.next_move
  simp only [List.length_nil, Nat.cast_zero, NO_OPTIONS, if_true]
  split <;> decide

/-- A node at tree depth 3 receives the value `V(b, q, 0)`. -/
theorem fill_leaf_cost_value (c : decision_node_t) (q : Int) :
    (fill_leaf_cost (recursive_addlayers c q TREE_DEPTH)).minimax_cost = V c.board q 0 := by
  have hnext := recursive_addlayers_next_move c q TREE_DEPTH (le_refl _)
  have hboard := recursive_addlayers_board c q TREE_DEPTH
  have hnum := recursive_addlayers_movenum c q TREE_DEPTH
  unfold V fill_leaf_cost
  cases hpm : possible_moves c.board q with
  | nil =>
    rw [hpm, List.map_nil] at hnext
    have hg := game_over_of_next_move_nil _ hnext
    rw [hboard, hnum] at hg
    rw [if_pos (by rw [hg]; exact game_over_stuck_ne_zero _ _), hg]
    rfl
  | cons x xs =>
    rw [hpm, List.map_cons] at hnext
    have hg := game_over_of_next_move_cons _ _ _ hnext
    rw [if_neg (by rw [hg]; simp)]
    show calculate_cost (recursive_addlayers c q TREE_DEPTH).board = _
    rw [hboard]

theorem propagated_map_eq (q : Int) (hq : 0 ≤ q) (h : decision_node_t → decision_node_t)
    (val : decision_node_t → Int) (hval : ∀ ch, (h ch).minimax_cost = val ch)
    (hb : ∀ ch, INT_MIN ≤ val ch ∧ val ch ≤ INT_MAX) (x : decision_node_t)
    (xs : List decision_node_t) :
    propagated q ((x :: xs).map h) =
      if q % 2 = 1 then list_max (val x) (xs.map val) else list_min (val x) (xs.map val) := by
  rw [List.map_cons, propagated_eq q hq]
  · rw [hval x, List.map_map]
    have hfun : decision_node_t.minimax_cost ∘ h = val := funext hval
    rw [hfun]
  · intro y hy
    rcases List.mem_cons.mp hy with rfl | hy
    · rw [hval]; exact hb x
    · obtain ⟨ch, _, rfl⟩ := List.mem_map.mp hy
      rw [hval]; exact hb ch

theorem V_succ_cons (board : board_t) (q : Int) (d : Nat) (x : decision_node_t)
    (xs : List decision_node_t) (hpm : possible_moves board q = x :: xs) :
    V board q (d + 1) =
      if q % 2 = 1 then
        list_max (V x.board (q + 1) d) (xs.map (fun c => V c.board (q + 1) d))
      else list_min (V x.board (q + 1) d) (xs.map (fun c => V c.board (q + 1) d)) := by
  rw [V, hpm]
  rfl

theorem V_nil (board : board_t) (q : Int) (d : Nat) (hpm : possible_moves board q = []) :
    V board q d = game_over (stuck_node board q) := by
  cases d with
  | zero => rw [V, hpm]
  | succ d => rw [V, hpm]; rfl

theorem set_next_move_movenum (t : decision_node_t) (l : List decision_node_t) :
    (set_next_move t l).move.movenum = t.move.movenum := rfl

theorem set_next_move_next_move (t : decision_node_t) (l : List decision_node_t) :
    (set_next_move t l).next_move = l := rfl

theorem set_minimax_cost_minimax_cost (t : decision_node_t) (v : Int) :
    (set_minimax_cost t v).minimax_cost = v := rfl

/-- On children with `int` costs the propagated cost is the maximum or minimum of the
children's costs, chosen by the test of `propagate_cost`. -/
theorem propagated_eq_tmod (q : Int) (c : decision_node_t) (cs : List decision_node_t)
    (hrange : ∀ x ∈ c :: cs, INT_MIN ≤ x.minimax_cost ∧ x.minimax_cost ≤ INT_MAX) :
    propagated q (c :: cs) =
      if Int.tmod q CHECK_ODDEVEN = BLACK_MOVE then
        list_max c.minimax_cost (cs.map decision_node_t.minimax_cost)
      else list_min c.minimax_cost (cs.map decision_node_t.minimax_cost) := by
  unfold propagated
  by_cases hodd : Int.tmod q CHECK_ODDEVEN = BLACK_MOVE
  · rw [if_pos hodd, if_pos hodd]
    exact is_maximum_unique
      (foldl_propagate_max_is_maximum (c :: cs) (by simp) (fun x hx => (hrange x hx).1))
      (by simpa using list_max_is_maximum c.minimax_cost (cs.map decision_node_t.minimax_cost))
  · rw [if_neg hodd, if_neg hodd]
    exact is_minimum_unique
      (foldl_propagate_min_is_minimum (c :: cs) (by simp) (fun x hx => (hrange x hx).2))
      (by simpa using list_min_is_minimum c.minimax_cost (cs.map decision_node_t.minimax_cost))

theorem propagated_map_eq_tmod (q : Int) (h : decision_node_t → decision_node_t)
    (val : decision_node_t → Int) (hval : ∀ ch, (h ch).minimax_cost = val ch)
    (hb : ∀ ch, INT_MIN ≤ val ch ∧ val ch ≤ INT_MAX) (x : decision_node_t)
    (xs : List decision_node_t) :
    propagated q ((x :: xs).map h) =
      if Int.tmod q CHECK_ODDEVEN = BLACK_MOVE then list_max (val x) (xs.map val)
      else list_min (val x) (xs.map val) := by
  rw [List.map_cons, propagated_eq_tmod q]
  · rw [hval x, List.map_map]
    have hfun : decision_node_t.minimax_cost ∘ h = val := funext hval
    rw [hfun]
  · intro y hy
    rcases List.mem_cons.mp hy with rfl | hy
    · rw [hval]; exact hb x
    · obtain ⟨ch, _, rfl⟩ := List.mem_map.mp hy
      rw [hval]; exact hb ch

theorem tree_cost_zero (board : board_t) (q : Int) : tree_cost board q 0 = V board q 0 := by
  unfold tree_cost V
  rfl

theorem tree_cost_bounds (d : Nat) : ∀ (board : board_t) (q : Int),
    INT_MIN ≤ tree_cost board q d ∧ tree_cost board q d ≤ INT_MAX := by
  induction d with
  | zero =>
    intro board q
    rw [tree_cost_zero]
    exact V_bounds 0 board q
  | succ d ih =>
    intro board q
    unfold tree_cost
    split
    · exact game_over_bounds _
    · rename_i v vs heq
      have hall : ∀ x ∈ v :: vs, INT_MIN ≤ x ∧ x ≤ INT_MAX := by
        intro x hx
        rw [← heq] at hx
        obtain ⟨c, _, rfl⟩ := List.mem_map.mp hx
        exact ih c.board (wrap_int (q + 1))
      split
      · exact list_max_bounds _ _ v vs hall
      · exact list_min_bounds _ _ v vs hall

theorem tree_cost_succ_cons (board : board_t) (q : Int) (d : Nat) (x : decision_node_t)
    (xs : List decision_node_t) (hpm : possible_moves board q = x :: xs) :
    tree_cost board q (d + 1) =
      if Int.tmod q CHECK_ODDEVEN = BLACK_MOVE then
        list_max (tree_cost x.board (wrap_int (q + 1)) d)
          (xs.map (fun c => tree_cost c.board (wrap_int (q + 1)) d))
      else
        list_min (tree_cost x.board (wrap_int (q + 1)) d)
          (xs.map (fun c => tree_cost c.board (wrap_int (q + 1)) d)) := by
  rw [tree_cost, hpm]
  rfl

theorem tree_cost_nil (board : board_t) (q : Int) (d : Nat) (hpm : possible_moves board q = []) :
    tree_cost board q d = game_over (stuck_node board q) := by
  cases d with
  | zero => rw [tree_cost, hpm]
  | succ d => rw [tree_cost, hpm]; rfl

/-- The node at tree depth `2 - n` receives the cost `tree_cost b q (n + 1)`, whatever
its ply number. -/
theorem recur_fill_costs_tree_cost (n : Nat) (hn : n ≤ 2) : ∀ (c : decision_node_t) (q : Int),
    (recur_fill_costs (recursive_addlayers c q (2 - (n : Int))) (2 - (n : Int))).minimax_cost =
      tree_cost c.board q (n + 1) := by
  induction n with
  | zero =>
    intro c q
    have hnext := recursive_addlayers_next_move c q (2 - ((0 : Nat) : Int))
      (by simp only [TREE_DEPTH]; omega)
    have hboard := recursive_addlayers_board c q (2 - ((0 : Nat) : Int))
    have hnum := recursive_addlayers_movenum c q (2 - ((0 : Nat) : Int))
    rw [recur_fill_costs_unfold]
    cases hpm : possible_moves c.board q with
    | nil =>
      rw [hpm, List.map_nil] at hnext
      rw [if_pos (by unfold decision_node_t.options; rw [hnext]; rfl), tree_cost_nil _ _ _ hpm,
        set_minimax_cost_minimax_cost, game_over_of_next_move_nil _ hnext, hboard, hnum]
    | cons x xs =>
      rw [hpm] at hnext
      rw [if_neg (by unfold decision_node_t.options; rw [hnext]; simp only [List.map_cons,
        List.length_cons, NO_OPTIONS]; omega), if_pos (by simp only [TREE_DEPTH]; omega),
        propagate_cost_eq, set_minimax_cost_minimax_cost, set_next_move_movenum,
        set_next_move_next_move, hnum, hnext, List.map_map, tree_cost_succ_cons _ _ _ x xs hpm]
      have hdepth : (2 - ((0 : Nat) : Int)) + 1 = TREE_DEPTH := by simp only [TREE_DEPTH]; omega
      rw [hdepth]
      exact propagated_map_eq_tmod q
        (fill_leaf_cost ∘ fun child => recursive_addlayers child (wrap_int (q + 1)) TREE_DEPTH)
        (fun ch => tree_cost ch.board (wrap_int (q + 1)) 0)
        (fun ch => (fill_leaf_cost_value ch (wrap_int (q + 1))).trans
          (tree_cost_zero ch.board (wrap_int (q + 1))).symm)
        (fun ch => tree_cost_bounds 0 ch.board (wrap_int (q + 1))) x xs
  | succ m ih =>
    intro c q
    have hnext := recursive_addlayers_next_move c q (2 - ((m + 1 : Nat) : Int))
      (by simp only [TREE_DEPTH]; omega)
    have hboard := recursive_addlayers_board c q (2 - ((m + 1 : Nat) : Int))
    have hnum := recursive_addlayers_movenum c q (2 - ((m + 1 : Nat) : Int))
    rw [recur_fill_costs_unfold]
    cases hpm : possible_moves c.board q with
    | nil =>
      rw [hpm, List.map_nil] at hnext
      rw [if_pos (by unfold decision_node_t.options; rw [hnext]; rfl), tree_cost_nil _ _ _ hpm,
        set_minimax_cost_minimax_cost, game_over_of_next_move_nil _ hnext, hboard, hnum]
    | cons x xs =>
      rw [hpm] at hnext
      rw [if_neg (by unfold decision_node_t.options; rw [hnext]; simp only [List.map_cons,
        List.length_cons, NO_OPTIONS]; omega),
        if_neg (by simp only [TREE_DEPTH]; push_cast; omega),
        propagate_cost_eq, set_minimax_cost_minimax_cost, set_next_move_movenum,
        set_next_move_next_move, hnum, hnext, List.map_map, tree_cost_succ_cons _ _ _ x xs hpm]
      have hdepth : (2 - ((m + 1 : Nat) : Int)) + 1 = 2 - (m : Int) := by push_cast; omega
      rw [hdepth]
      exact propagated_map_eq_tmod q
        ((fun ch => recur_fill_costs ch (2 - (m : Int))) ∘
          fun child => recursive_addlayers child (wrap_int (q + 1)) (2 - (m : Int)))
        (fun ch => tree_cost ch.board (wrap_int (q + 1)) (m + 1))
        (fun ch => ih (by omega) ch (wrap_int (q + 1)))
        (fun ch => tree_cost_bounds (m + 1) ch.board (wrap_int (q + 1))) x xs

theorem tmod_black_iff (q : Int) (hq : 0 ≤ q) :
    Int.tmod q CHECK_ODDEVEN = BLACK_MOVE ↔ q % 2 = 1 := by
  rw [tmod_two_of_nonneg q hq]

/-- While the ply numbers of the tree stay in the range of `int` and are not negative,
the cost of the tree is the minimax value of the specification. -/
theorem tree_cost_eq_V (d : Nat) : ∀ (board : board_t) (q : Int), 0 ≤ q →
    q + (d : Int) ≤ INT_MAX → tree_cost board q d = V board q d := by
  induction d with
  | zero =>
    intro board q _ _
    exact tree_cost_zero board q
  | succ d ih =>
    intro board q hq hhi
    have hwrap : wrap_int (q + 1) = q + 1 := by
      apply wrap_int_eq
      · simp only [INT_MIN]; omega
      · push_cast at hhi; omega
    cases hpm : possible_moves board q with
    | nil => rw [tree_cost_nil _ _ _ hpm, V_nil _ _ _ hpm]
    | cons x xs =>
      rw [tree_cost_succ_cons _ _ _ x xs hpm, V_succ_cons _ _ _ x xs hpm, hwrap]
      have hx := ih x.board (q + 1) (by omega) (by push_cast at hhi; omega)
      have hxs : xs.map (fun c => tree_cost c.board (q + 1) d) =
          xs.map (fun c => V c.board (q + 1) d) :=
        List.map_congr_left
          (fun c _ => ih c.board (q + 1) (by omega) (by push_cast at hhi; omega))
      rw [hx, hxs]
      by_cases hodd : q % 2 = 1
      · rw [if_pos ((tmod_black_iff q hq).mpr hodd), if_pos hodd]
      · rw [if_neg (fun h => hodd ((tmod_black_iff q hq).mp h)), if_neg hodd]

/-- The node at tree depth `2 - n` receives the value `V(b, q, n + 1)`, while the ply
numbers below it stay in the range of `int`. -/
theorem recur_fill_costs_value (n : Nat) (hn : n ≤ 2) (c : decision_node_t) (q : Int)
    (hq : 0 ≤ q) (hhi : q + ((n + 1 : Nat) : Int) ≤ INT_MAX) :
    (recur_fill_costs (recursive_addlayers c q (2 - (n : Int))) (2 - (n : Int))).minimax_cost =
      V c.board q (n + 1) := by
  rw [recur_fill_costs_tree_cost n hn c q]
  exact tree_cost_eq_V (n + 1) c.board q hq hhi

theorem propagate_cost_idem (root : decision_node_t) :
    propagate_cost (propagate_cost root) = propagate_cost root := by
  rw [propagate_cost_eq root, propagate_cost_eq]
  rfl

theorem recur_fill_costs_propagated (t : decision_node_t) (depth : Int)
    (hopt : t.options ≠ NO_OPTIONS) :
    propagate_cost (recur_fill_costs t depth) = recur_fill_costs t depth := by
  rw [recur_fill_costs_unfold, if_neg hopt]
  split <;> exact propagate_cost_idem _

/-! ## Lemmas on `find_move` -/

theorem propagated_bounds (q : Int) (l : List decision_node_t)
    (h : ∀ x ∈ l, INT_MIN ≤ x.minimax_cost ∧ x.minimax_cost ≤ INT_MAX) :
    INT_MIN ≤ propagated q l ∧ propagated q l ≤ INT_MAX := by
  unfold propagated
  split
  · rcases foldl_propagate_max_mem l INT_MIN with h1 | h1
    · rw [h1]; decide
    · obtain ⟨c, hc, hcc⟩ := List.mem_map.mp h1
      rw [← hcc]; exact h c hc
  · rcases foldl_propagate_min_mem l INT_MAX with h1 | h1
    · rw [h1]; decide
    · obtain ⟨c, hc, hcc⟩ := List.mem_map.mp h1
      rw [← hcc]; exact h c hc

theorem fill_leaf_cost_bounds (c : decision_node_t) :
    INT_MIN ≤ (fill_leaf_cost c).minimax_cost ∧ (fill_leaf_cost c).minimax_cost ≤ INT_MAX := by
  unfold fill_leaf_cost
  split
  · exact game_over_bounds c
  · have := calculate_cost_bounds c.board
    show INT_MIN ≤ calculate_cost c.board ∧ calculate_cost c.board ≤ INT_MAX
    constructor <;> simp only [INT_MIN, INT_MAX] <;> omega

theorem sizeOf_child_lt (t c : decision_node_t) (hc : c ∈ t.next_move) : sizeOf c < sizeOf t := by
  cases t with
  | mk board cost move next =>
    have h1 : sizeOf c < sizeOf next := List.sizeOf_lt_of_mem hc
    simp only [decision_node_t.mk.sizeOf_spec]
    omega

theorem recur_fill_costs_bounds_aux (n : Nat) : ∀ (t : decision_node_t), sizeOf t = n →
    ∀ (depth : Int), INT_MIN ≤ (recur_fill_costs t depth).minimax_cost ∧
      (recur_fill_costs t depth).minimax_cost ≤ INT_MAX := by
  induction n using Nat.strong_induction_on with
  | _ n ih =>
    intro t hsize depth
    rw [recur_fill_costs_unfold]
    split
    · exact game_over_bounds t
    · split
      · rw [propagate_cost_eq]
        apply propagated_bounds
        intro x hx
        obtain ⟨c, _, rfl⟩ := List.mem_map.mp hx
        exact fill_leaf_cost_bounds c
      · rw [propagate_cost_eq]
        apply propagated_bounds
        intro x hx
        obtain ⟨c, hc, rfl⟩ := List.mem_map.mp hx
        exact ih (sizeOf c) (by rw [← hsize]; exact sizeOf_child_lt t c hc) c rfl (depth + 1)

/-- Every cost `recur_fill_costs` stores is an `int` value. -/
theorem recur_fill_costs_bounds (t : decision_node_t) (depth : Int) :
    INT_MIN ≤ (recur_fill_costs t depth).minimax_cost ∧
      (recur_fill_costs t depth).minimax_cost ≤ INT_MAX :=
  recur_fill_costs_bounds_aux (sizeOf t) t rfl depth

theorem recur_fill_costs_move (t : decision_node_t) (depth : Int) :
    (recur_fill_costs t depth).move = t.move := by
  rw [recur_fill_costs_unfold]
  split
  · rfl
  · split <;> rw [propagate_cost_eq] <;> rfl

/-- With at least one option, `find_move` leaves the root with its children filled by
`recur_fill_costs` at depth 1 and with the cost propagated from them. -/
theorem find_move_root (root : decision_node_t) (best_move : move_t)
    (hopt : root.options ≠ NO_OPTIONS) :
    (find_move root best_move).1.next_move =
        root.next_move.map (fun c => recur_fill_costs c (INITIAL_DEPTH + 1)) ∧
      (find_move root best_move).1.minimax_cost =
        propagated root.move.movenum
          (root.next_move.map (fun c => recur_fill_costs c (INITIAL_DEPTH + 1))) ∧
      (find_move root best_move).2 = select_move (find_move root best_move).1 best_move := by
  have hgo : game_over root = 0 := by
    unfold game_over
    rw [if_neg hopt]
  have hfm : find_move root best_move =
      (recur_fill_costs root INITIAL_DEPTH,
        select_move (recur_fill_costs root INITIAL_DEPTH) best_move) := by
    unfold find_move
    rw [if_neg (by rw [hgo]; simp), recur_fill_costs_propagated _ _ hopt]
  have hrf : recur_fill_costs root INITIAL_DEPTH =
      set_minimax_cost
        (set_next_move root (root.next_move.map (fun c => recur_fill_costs c (INITIAL_DEPTH + 1))))
        (propagated root.move.movenum
          (root.next_move.map (fun c => recur_fill_costs c (INITIAL_DEPTH + 1)))) := by
    rw [recur_fill_costs_unfold, if_neg hopt, if_neg (by decide), propagate_cost_eq]
    rfl
  refine ⟨?_, ?_, ?_⟩
  · rw [hfm]
    show (recur_fill_costs root INITIAL_DEPTH).next_move = _
    rw [hrf]
    rfl
  · rw [hfm]
    show (recur_fill_costs root INITIAL_DEPTH).minimax_cost = _
    rw [hrf]
    rfl
  · rw [hfm]

/-! ## Lemmas on the move generator -/

theorem test_direction_append (board : board_t) (acc : List decision_node_t) (move : Int)
    (test : direction_t) :
    test_direction board acc move test = acc ++ test_direction board [] move test := by
  unfold test_direction
  split_ifs <;> simp

theorem foldl_append_flatMap {α β : Type} (f : List α → β → List α) (g : β → List α)
    (h : ∀ acc x, f acc x = acc ++ g x) (l : List β) (acc : List α) :
    l.foldl f acc = acc ++ l.flatMap g := by
  induction l generalizing acc with
  | nil => simp
  | cons x xs ih => rw [List.foldl_cons, ih, h, List.flatMap_cons, List.append_assoc]

theorem b_move_eq (board : board_t) (i j : Int) (acc : List decision_node_t) (movenum : Int) :
    b_move board i j acc movenum =
      acc ++ (test_direction board [] movenum ⟨i, j, -1, 1⟩ ++
        test_direction board [] movenum ⟨i, j, -1, -1⟩) := by
  unfold b_move addj_range
  simp only [List.foldl_cons, List.foldl_nil]
  rw [test_direction_append board (test_direction _ _ _ _), test_direction_append board acc,
    List.append_assoc]
  rfl

theorem w_move_eq (board : board_t) (i j : Int) (acc : List decision_node_t) (movenum : Int) :
    w_move board i j acc movenum =
      acc ++ (test_direction board [] movenum ⟨i, j, 1, 1⟩ ++
        test_direction board [] movenum ⟨i, j, 1, -1⟩) := by
  unfold w_move addj_range
  simp only [List.foldl_cons, List.foldl_nil]
  rw [test_direction_append board (test_direction _ _ _ _), test_direction_append board acc,
    List.append_assoc]
  rfl

theorem WB_move_eq (board : board_t) (i j : Int) (acc : List decision_node_t) (movenum : Int) :
    WB_move board i j acc movenum =
      acc ++ (test_direction board [] movenum ⟨i, j, -1, 1⟩ ++
        (test_direction board [] movenum ⟨i, j, 1, 1⟩ ++
          (test_direction board [] movenum ⟨i, j, -1, -1⟩ ++
            test_direction board [] movenum ⟨i, j, 1, -1⟩))) := by
  unfold WB_move addj_range addi_range
  simp only [List.foldl_cons, List.foldl_nil]
  rw [test_direction_append board (test_direction _ _ _ _),
    test_direction_append board (test_direction _ _ _ _),
    test_direction_append board (test_direction _ _ _ _), test_direction_append board acc]
  simp only [List.append_assoc]
  rfl

theorem calculate_options_cell_eq (board : board_t) (movenum : Int)
    (acc : List decision_node_t) (i j : Int) :
    calculate_options_cell board movenum acc i j = acc ++ cell_options board movenum i j := by
  unfold calculate_options_cell add_options cell_options tries_direction directions
  rw [b_move_eq, w_move_eq, WB_move_eq]
  simp only [List.flatMap_cons, List.flatMap_nil, List.append_nil, BLACK_DIRECTION,
    WHITE_DIRECTION, CELL_BPIECE, CELL_WPIECE, CELL_BTOWER, CELL_WTOWER, BLACK_MOVE,
    CHECK_ODDEVEN]
  by_cases hb : Int.tmod movenum 2 = 1
  · by_cases h1 : board i j = 98
    · simp [hb, h1]
    · by_cases h2 : board i j = 66
      · simp [hb, h2]
      · simp [hb, h1, h2]
  · by_cases h1 : board i j = 119
    · simp [hb, h1]
    · by_cases h2 : board i j = 87
      · simp [hb, h2]
      · simp [hb, h1, h2]

theorem possible_moves_eq (board : board_t) (movenum : Int) :
    possible_moves board movenum =
      board_range.flatMap (fun i => board_range.flatMap (fun j =>
        cell_options board movenum i j)) := by
  unfold possible_moves
  rw [foldl_append_flatMap _ (fun i => board_range.flatMap (fun j =>
    cell_options board movenum i j))]
  · rfl
  · intro acc i
    rw [foldl_append_flatMap _ (fun j => cell_options board movenum i j)]
    intro acc j
    exact calculate_options_cell_eq board movenum acc i j

theorem mem_board_range (i : Int) : i ∈ board_range ↔ 0 ≤ i ∧ i < 8 := by
  unfold board_range
  simp only [List.mem_cons, List.mem_nil_iff, or_false]
  omega

theorem mem_directions (d : Int × Int) :
    d ∈ directions ↔ (d.1 = 1 ∨ d.1 = -1) ∧ (d.2 = 1 ∨ d.2 = -1) := by
  obtain ⟨a, b⟩ := d
  unfold directions
  simp only [List.mem_cons, List.mem_nil_iff, or_false, Prod.mk.injEq]
  omega

theorem convert_to_index_col (j : Int) (h0 : 0 ≤ j) (h8 : j < 8) :
    convert_to_index (j + CHAR_A) = j := by
  unfold convert_to_index
  simp only [CHAR_A, CHAR_H, CHAR_1, CHAR_8, SENTINEL]
  rw [if_pos (by omega)]
  omega

theorem convert_to_index_row (i : Int) (h0 : 0 ≤ i) (h8 : i < 8) :
    convert_to_index (i + CHAR_1) = i := by
  unfold convert_to_index
  simp only [CHAR_A, CHAR_H, CHAR_1, CHAR_8, SENTINEL]
  rw [if_neg (by omega), if_pos (by omega)]
  omega

theorem create_move_move (board : board_t) (moves : move_t) :
    (create_move board moves).move = moves := rfl

theorem mem_test_direction (board : board_t) (p i j addi addj : Int) (n : decision_node_t) :
    n ∈ test_direction board [] p ⟨i, j, addi, addj⟩ ↔
      (on_board (i + addi) (j + addj) ∧ board (i + addi) (j + addj) = CELL_EMPTY ∧
        n = create_move board (move_from i j addi addj 1 p)) ∨
      (¬ (on_board (i + addi) (j + addj) ∧ board (i + addi) (j + addj) = CELL_EMPTY) ∧
        on_board (i + 2 * addi) (j + 2 * addj) ∧
        board (i + 2 * addi) (j + 2 * addj) = CELL_EMPTY ∧
        capture_opposition board (move_from i j addi addj 2 p) ≠ 0 ∧
        n = create_move board (move_from i j addi addj 2 p)) := by
  unfold test_direction on_board move_from
  simp only [CAPTURE_DIST, BOARD_SIZE, one_mul, List.nil_append]
  by_cases h1 : 0 ≤ i + addi ∧ i + addi < 8 ∧ 0 ≤ j + addj ∧ j + addj < 8 ∧
      board (i + addi) (j + addj) = CELL_EMPTY
  · rw [if_pos h1]
    simp only [List.mem_singleton]
    constructor
    · intro h
      exact Or.inl ⟨⟨h1.1, h1.2.1, h1.2.2.1, h1.2.2.2.1⟩, h1.2.2.2.2, h⟩
    · rintro (⟨_, _, h⟩ | ⟨hn, _⟩)
      · exact h
      · exact absurd ⟨⟨h1.1, h1.2.1, h1.2.2.1, h1.2.2.2.1⟩, h1.2.2.2.2⟩ hn
  · rw [if_neg h1]
    have h1' : ¬ ((0 ≤ i + addi ∧ i + addi < 8 ∧ 0 ≤ j + addj ∧ j + addj < 8) ∧
        board (i + addi) (j + addj) = CELL_EMPTY) := by
      rintro ⟨⟨a, b, c, d⟩, e⟩
      exact h1 ⟨a, b, c, d, e⟩
    by_cases h2 : 0 ≤ i + 2 * addi ∧ i + 2 * addi < 8 ∧ j + 2 * addj < 8 ∧ 0 ≤ j + 2 * addj ∧
        board (i + 2 * addi) (j + 2 * addj) = CELL_EMPTY
    · rw [if_pos h2]
      by_cases h3 : capture_opposition board
          ⟨j + CHAR_A, i + CHAR_1, j + 2 * addj + CHAR_A, i + 2 * addi + CHAR_1, p⟩ = 0
      · rw [if_pos h3]
        simp only [List.not_mem_nil, false_iff]
        rintro (⟨a, b, _⟩ | ⟨_, _, _, hc, _⟩)
        · exact h1' ⟨a, b⟩
        · exact hc h3
      · rw [if_neg h3]
        simp only [List.mem_singleton]
        constructor
        · intro h
          exact Or.inr ⟨h1', ⟨h2.1, h2.2.1, h2.2.2.2.1, h2.2.2.1⟩, h2.2.2.2.2, h3, h⟩
        · rintro (⟨a, b, _⟩ | ⟨_, _, _, _, h⟩)
          · exact absurd ⟨a, b⟩ h1'
          · exact h
    · rw [if_neg h2]
      simp only [List.not_mem_nil, false_iff]
      rintro (⟨a, b, _⟩ | ⟨_, ⟨a, b, c, d⟩, e, _⟩)
      · exact h1' ⟨a, b⟩
      · exact h2 ⟨a, b, d, c, e⟩

theorem mem_possible_moves (board : board_t) (p : Int) (n : decision_node_t) :
    n ∈ possible_moves board p ↔
      ∃ i j addi addj, (0 ≤ i ∧ i < 8) ∧ (0 ≤ j ∧ j < 8) ∧
        ((addi = 1 ∨ addi = -1) ∧ (addj = 1 ∨ addj = -1)) ∧
        tries_direction p (board i j) addi ∧
        n ∈ test_direction board [] p ⟨i, j, addi, addj⟩ := by
  rw [possible_moves_eq]
  simp only [List.mem_flatMap, cell_options, mem_board_range, mem_directions]
  constructor
  · rintro ⟨i, hi, j, hj, d, hd, hn⟩
    by_cases ht : tries_direction p (board i j) d.1
    · rw [if_pos ht] at hn
      exact ⟨i, j, d.1, d.2, hi, hj, hd, ht, hn⟩
    · rw [if_neg ht] at hn
      simp at hn
  · rintro ⟨i, j, addi, addj, hi, hj, hd, ht, hn⟩
    refine ⟨i, hi, j, hj, (addi, addj), hd, ?_⟩
    rw [if_pos ht]
    exact hn

theorem capture_opposition_move_from (board : board_t) (p i j addi addj : Int)
    (hi : 0 ≤ i ∧ i < 8) (hj : 0 ≤ j ∧ j < 8)
    (htwo : on_board (i + 2 * addi) (j + 2 * addj)) :
    capture_opposition board (move_from i j addi addj 2 p) =
      if Int.tmod p CHECK_ODDEVEN = BLACK_MOVE ∧
          (board (i + addi) (j + addj) = CELL_BTOWER ∨
            board (i + addi) (j + addj) = CELL_BPIECE) then 0
      else if Int.tmod p CHECK_ODDEVEN = WHITE_MOVE ∧
          (board (i + addi) (j + addj) = CELL_WTOWER ∨
            board (i + addi) (j + addj) = CELL_WPIECE) then 0
      else 1 := by
  unfold on_board at htwo
  simp only [BOARD_SIZE] at htwo
  unfold capture_opposition move_from
  simp only
  rw [convert_to_index_row i hi.1 hi.2, convert_to_index_col j hj.1 hj.2,
    convert_to_index_row (i + 2 * addi) htwo.1 htwo.2.1,
    convert_to_index_col (j + 2 * addj) htwo.2.2.1 htwo.2.2.2]
  have h1 : Int.tdiv (i + (i + 2 * addi)) 2 = i + addi := by
    rw [Int.tdiv_eq_ediv (by omega) (by decide)]
    omega
  have h2 : Int.tdiv (j + (j + 2 * addj)) 2 = j + addj := by
    rw [Int.tdiv_eq_ediv (by omega) (by decide)]
    omega
  rw [h1, h2]

theorem tries_direction_own_piece (p piece addi : Int) (hp : 0 ≤ p)
    (h : tries_direction p piece addi) : own_piece p piece := by
  unfold tries_direction at h
  unfold own_piece
  rw [tmod_two_of_nonneg p hp] at h
  simp only [BLACK_MOVE] at h
  rcases h with ⟨hb, h⟩ | ⟨hb, h⟩
  · rw [if_pos hb]
    rcases h with ⟨h, _⟩ | h
    · exact Or.inl h
    · exact Or.inr h
  · rw [if_neg hb]
    rcases h with ⟨h, _⟩ | h
    · exact Or.inl h
    · exact Or.inr h

theorem well_formed_cell (board : board_t) (hwf : well_formed board) (i j : Int)
    (hi : 0 ≤ i ∧ i < 8) (hj : 0 ≤ j ∧ j < 8) :
    board i j = CELL_EMPTY ∨ board i j = CELL_BPIECE ∨ board i j = CELL_WPIECE ∨
      board i j = CELL_BTOWER ∨ board i j = CELL_WTOWER :=
  hwf i ((mem_board_range i).mpr hi) j ((mem_board_range j).mpr hj)

theorem sound_move_of_mem (board : board_t) (p : Int) (hwf : well_formed board) (hp : 0 ≤ p)
    (n : decision_node_t) (hn : n ∈ possible_moves board p) : sound_move board p n.move := by
  obtain ⟨i, j, addi, addj, hi, hj, hd, ht, hmem⟩ := (mem_possible_moves board p n).mp hn
  have hown := tries_direction_own_piece p _ _ hp ht
  rcases (mem_test_direction board p i j addi addj n).mp hmem with
    ⟨hon, hempty, rfl⟩ | ⟨hnot, hon, hempty, hcap, rfl⟩
  · have hon' := hon
    unfold on_board at hon'
    simp only [BOARD_SIZE] at hon'
    rw [create_move_move]
    unfold sound_move move_from
    simp only [one_mul]
    rw [convert_to_index_row i hi.1 hi.2, convert_to_index_col j hj.1 hj.2,
      convert_to_index_row (i + addi) hon'.1 hon'.2.1,
      convert_to_index_col (j + addj) hon'.2.2.1 hon'.2.2.2]
    refine ⟨?_, hon, hown, hempty, Or.inl ?_⟩
    · unfold on_board; simp only [BOARD_SIZE]; omega
    · unfold diagonal_distance; omega
  · have hon' := hon
    unfold on_board at hon'
    simp only [BOARD_SIZE] at hon'
    have hadj : on_board (i + addi) (j + addj) := by
      unfold on_board; simp only [BOARD_SIZE]; omega
    have hadj' : (0 ≤ i + addi ∧ i + addi < 8) ∧ (0 ≤ j + addj ∧ j + addj < 8) := by omega
    have hne : board (i + addi) (j + addj) ≠ CELL_EMPTY := fun h => hnot ⟨hadj, h⟩
    rw [capture_opposition_move_from board p i j addi addj hi hj hon,
      tmod_two_of_nonneg p hp] at hcap
    have hopp : opposing_piece p (board (i + addi) (j + addj)) := by
      have hcell := well_formed_cell board hwf _ _ hadj'.1 hadj'.2
      unfold opposing_piece
      simp only [BLACK_MOVE, WHITE_MOVE] at hcap
      by_cases hodd : p % 2 = 1
      · rw [if_pos hodd]
        rcases hcell with h | h | h | h | h
        · exact absurd h hne
        · rw [if_pos ⟨hodd, Or.inr h⟩] at hcap; exact absurd rfl hcap
        · exact Or.inl h
        · rw [if_pos ⟨hodd, Or.inl h⟩] at hcap; exact absurd rfl hcap
        · exact Or.inr h
      · rw [if_neg hodd]
        have heven : p % 2 = 0 := by omega
        rw [if_neg (fun h => hodd h.1)] at hcap
        rcases hcell with h | h | h | h | h
        · exact absurd h hne
        · exact Or.inl h
        · rw [if_pos ⟨heven, Or.inr h⟩] at hcap; exact absurd rfl hcap
        · exact Or.inr h
        · rw [if_pos ⟨heven, Or.inl h⟩] at hcap; exact absurd rfl hcap
    rw [create_move_move]
    unfold sound_move move_from
    simp only
    rw [convert_to_index_row i hi.1 hi.2, convert_to_index_col j hj.1 hj.2,
      convert_to_index_row (i + 2 * addi) hon'.1 hon'.2.1,
      convert_to_index_col (j + 2 * addj) hon'.2.2.1 hon'.2.2.2]
    have h1 : (i + (i + 2 * addi)) / 2 = i + addi := by omega
    have h2 : (j + (j + 2 * addj)) / 2 = j + addj := by omega
    rw [h1, h2]
    refine ⟨?_, hon, hown, hempty, Or.inr ⟨?_, hopp⟩⟩
    · unfold on_board; simp only [BOARD_SIZE]; omega
    · unfold diagonal_distance; omega

theorem capture_opposition_iff_opposing (board : board_t) (p i j addi addj : Int)
    (hp : 0 ≤ p) (hi : 0 ≤ i ∧ i < 8) (hj : 0 ≤ j ∧ j < 8)
    (htwo : on_board (i + 2 * addi) (j + 2 * addj))
    (hcell : board (i + addi) (j + addj) = CELL_BPIECE ∨
      board (i + addi) (j + addj) = CELL_WPIECE ∨ board (i + addi) (j + addj) = CELL_BTOWER ∨
      board (i + addi) (j + addj) = CELL_WTOWER) :
    capture_opposition board (move_from i j addi addj 2 p) ≠ 0 ↔
      opposing_piece p (board (i + addi) (j + addj)) := by
  rw [capture_opposition_move_from board p i j addi addj hi hj htwo, tmod_two_of_nonneg p hp]
  unfold opposing_piece
  simp only [BLACK_MOVE, WHITE_MOVE, CELL_BPIECE, CELL_WPIECE, CELL_BTOWER, CELL_WTOWER] at hcell ⊢
  by_cases hodd : p % 2 = 1
  · have hne : ¬ p % 2 = 0 := by omega
    rcases hcell with h | h | h | h <;> simp [hodd, h]
  · have heven : p % 2 = 0 := by omega
    rcases hcell with h | h | h | h <;> simp [heven, h]

theorem opposing_piece_cell (p cell : Int) (h : opposing_piece p cell) :
    cell ≠ CELL_EMPTY ∧
      (cell = CELL_BPIECE ∨ cell = CELL_WPIECE ∨ cell = CELL_BTOWER ∨ cell = CELL_WTOWER) := by
  unfold opposing_piece at h
  simp only [CELL_BPIECE, CELL_WPIECE, CELL_BTOWER, CELL_WTOWER, CELL_EMPTY] at h ⊢
  split at h <;> rcases h with h | h <;> subst h <;> simp

theorem tries_direction_iff (p piece addi addj : Int) (hp : 0 ≤ p)
    (hd : (addi = 1 ∨ addi = -1) ∧ (addj = 1 ∨ addj = -1)) :
    tries_direction p piece addi ↔ own_piece p piece ∧ allowed_direction piece addi addj := by
  unfold tries_direction own_piece allowed_direction
  rw [tmod_two_of_nonneg p hp]
  simp only [BLACK_MOVE, BLACK_DIRECTION, WHITE_DIRECTION, CELL_BPIECE, CELL_WPIECE,
    CELL_BTOWER, CELL_WTOWER]
  by_cases hodd : p % 2 = 1
  · simp only [hodd, if_true, true_and, not_true_eq_false, false_and, or_false]
    constructor
    · rintro (⟨h, ha⟩ | h)
      · exact ⟨Or.inl h, hd.2, Or.inl ⟨h, ha⟩⟩
      · exact ⟨Or.inr h, hd.2, Or.inr (Or.inr ⟨Or.inl h, hd.1⟩)⟩
    · rintro ⟨h | h, _, h2⟩
      · rcases h2 with ⟨_, ha⟩ | ⟨hw, _⟩ | ⟨ht, _⟩
        · exact Or.inl ⟨h, ha⟩
        · omega
        · omega
      · exact Or.inr h
  · simp only [hodd, if_false, false_and, false_or, not_false_eq_true, true_and]
    constructor
    · rintro (⟨h, ha⟩ | h)
      · exact ⟨Or.inl h, hd.2, Or.inr (Or.inl ⟨h, ha⟩)⟩
      · exact ⟨Or.inr h, hd.2, Or.inr (Or.inr ⟨Or.inr h, hd.1⟩)⟩
    · rintro ⟨h | h, _, h2⟩
      · rcases h2 with ⟨hb, _⟩ | ⟨_, ha⟩ | ⟨ht, _⟩
        · omega
        · exact Or.inl ⟨h, ha⟩
        · omega
      · exact Or.inr h

theorem allowed_direction_unit (piece addi addj : Int) (h : allowed_direction piece addi addj) :
    (addi = 1 ∨ addi = -1) ∧ (addj = 1 ∨ addj = -1) := by
  unfold allowed_direction at h
  obtain ⟨hj, h | h | h⟩ := h
  · exact ⟨Or.inr h.2, hj⟩
  · exact ⟨Or.inl h.2, hj⟩
  · exact ⟨h.2, hj⟩

/-- The recorded moves are exactly the legal moves. -/
theorem mem_possible_moves_iff_legal (board : board_t) (p : Int) (hwf : well_formed board)
    (hp : 0 ≤ p) (mv : move_t) :
    mv ∈ (possible_moves board p).map decision_node_t.move ↔ legal_move board p mv := by
  constructor
  · intro h
    obtain ⟨n, hn, rfl⟩ := List.mem_map.mp h
    obtain ⟨i, j, addi, addj, hi, hj, hd, ht, hmem⟩ := (mem_possible_moves board p n).mp hn
    obtain ⟨hown, hallowed⟩ := (tries_direction_iff p _ addi addj hp hd).mp ht
    have hon : on_board i j := by unfold on_board; simp only [BOARD_SIZE]; omega
    refine ⟨i, j, addi, addj, hon, hown, hallowed, ?_⟩
    rcases (mem_test_direction board p i j addi addj n).mp hmem with
      ⟨hadj, hempty, rfl⟩ | ⟨hnot, htwo, hempty, hcap, rfl⟩
    · exact Or.inl ⟨hadj, hempty, rfl⟩
    · have htwo' := htwo
      unfold on_board at htwo'
      simp only [BOARD_SIZE] at htwo'
      have hadj : on_board (i + addi) (j + addj) := by
        unfold on_board; simp only [BOARD_SIZE]; omega
      have hadj' : (0 ≤ i + addi ∧ i + addi < 8) ∧ (0 ≤ j + addj ∧ j + addj < 8) := by omega
      have hne : board (i + addi) (j + addj) ≠ CELL_EMPTY := fun h => hnot ⟨hadj, h⟩
      have hcell : board (i + addi) (j + addj) = CELL_BPIECE ∨
          board (i + addi) (j + addj) = CELL_WPIECE ∨
          board (i + addi) (j + addj) = CELL_BTOWER ∨
          board (i + addi) (j + addj) = CELL_WTOWER := by
        rcases well_formed_cell board hwf _ _ hadj'.1 hadj'.2 with h | h
        · exact absurd h hne
        · exact h
      exact Or.inr ⟨hadj,
        (capture_opposition_iff_opposing board p i j addi addj hp hi hj htwo hcell).mp hcap,
        htwo, hempty, rfl⟩
  · rintro ⟨i, j, addi, addj, hon, hown, hallowed, hkind⟩
    have hd := allowed_direction_unit _ _ _ hallowed
    have ht := (tries_direction_iff p _ addi addj hp hd).mpr ⟨hown, hallowed⟩
    unfold on_board at hon
    simp only [BOARD_SIZE] at hon
    have hi : 0 ≤ i ∧ i < 8 := ⟨hon.1, hon.2.1⟩
    have hj : 0 ≤ j ∧ j < 8 := ⟨hon.2.2.1, hon.2.2.2⟩
    rcases hkind with ⟨hadj, hempty, rfl⟩ | ⟨hadj, hopp, htwo, hempty, rfl⟩
    · refine List.mem_map.mpr ⟨create_move board (move_from i j addi addj 1 p), ?_, rfl⟩
      exact (mem_possible_moves board p _).mpr ⟨i, j, addi, addj, hi, hj, hd, ht,
        (mem_test_direction board p i j addi addj _).mpr (Or.inl ⟨hadj, hempty, rfl⟩)⟩
    · refine List.mem_map.mpr ⟨create_move board (move_from i j addi addj 2 p), ?_, rfl⟩
      obtain ⟨hne, hcell⟩ := opposing_piece_cell _ _ hopp
      exact (mem_possible_moves board p _).mpr ⟨i, j, addi, addj, hi, hj, hd, ht,
        (mem_test_direction board p i j addi addj _).mpr (Or.inr ⟨fun h => hne h.2, htwo, hempty,
          (capture_opposition_iff_opposing board p i j addi addj hp hi hj htwo hcell).mpr hopp,
          rfl⟩)⟩

theorem nodup_flatMap_of_key {κ β : Type} (l : List κ) (f : κ → List β) (key : β → κ)
    (hl : l.Nodup) (hkey : ∀ k ∈ l, ∀ b ∈ f k, key b = k) (hf : ∀ k ∈ l, (f k).Nodup) :
    (l.flatMap f).Nodup := by
  rw [List.nodup_flatMap]
  refine ⟨hf, hl.pairwise_of_forall_ne ?_⟩
  intro a ha b hb hab
  show List.Disjoint (f a) (f b)
  intro x hxa hxb
  exact hab ((hkey a ha x hxa).symm.trans (hkey b hb x hxb))

theorem test_direction_length (board : board_t) (p : Int) (test : direction_t) :
    (test_direction board [] p test).length ≤ 1 := by
  unfold test_direction
  split_ifs <;> simp

theorem move_of_mem_test_direction (board : board_t) (p i j addi addj : Int)
    (n : decision_node_t) (hn : n ∈ test_direction board [] p ⟨i, j, addi, addj⟩) :
    n.move = move_from i j addi addj 1 p ∨ n.move = move_from i j addi addj 2 p := by
  rcases (mem_test_direction board p i j addi addj n).mp hn with
    ⟨_, _, rfl⟩ | ⟨_, _, _, _, rfl⟩
  · exact Or.inl rfl
  · exact Or.inr rfl

theorem mem_direction_moves (board : board_t) (p i j : Int) (d : Int × Int) (mv : move_t)
    (h : mv ∈ direction_moves board p i j d) :
    mv = move_from i j d.1 d.2 1 p ∨ mv = move_from i j d.1 d.2 2 p := by
  unfold direction_moves at h
  obtain ⟨n, hn, rfl⟩ := List.mem_map.mp h
  split at hn
  · exact move_of_mem_test_direction board p i j d.1 d.2 n hn
  · simp at hn

theorem direction_moves_nodup (board : board_t) (p i j : Int) (d : Int × Int) :
    (direction_moves board p i j d).Nodup := by
  unfold direction_moves
  split
  · have h := test_direction_length board p ⟨i, j, d.1, d.2⟩
    match hl : test_direction board [] p ⟨i, j, d.1, d.2⟩ with
    | [] => simp
    | [x] => simp
    | x :: y :: rest => rw [hl] at h; simp at h
  · simp

theorem possible_moves_map_move (board : board_t) (p : Int) :
    (possible_moves board p).map decision_node_t.move =
      board_range.flatMap (fun i => board_range.flatMap (fun j =>
        directions.flatMap (fun d => direction_moves board p i j d))) := by
  rw [possible_moves_eq, List.map_flatMap]
  congr 1
  funext i
  rw [List.map_flatMap]
  congr 1
  funext j
  unfold cell_options
  rw [List.map_flatMap]
  rfl

/-- No move is recorded twice. -/
theorem possible_moves_nodup (board : board_t) (p : Int) :
    ((possible_moves board p).map decision_node_t.move).Nodup := by
  rw [possible_moves_map_move]
  apply nodup_flatMap_of_key board_range _ (fun mv => mv.sourcerow - CHAR_1) (by decide)
  · intro i _ mv hmv
    simp only [List.mem_flatMap] at hmv
    obtain ⟨j, _, d, _, hd⟩ := hmv
    rcases mem_direction_moves board p i j d mv hd with rfl | rfl <;>
      simp [move_from]
  · intro i _
    apply nodup_flatMap_of_key board_range _ (fun mv => mv.sourcecol - CHAR_A) (by decide)
    · intro j _ mv hmv
      simp only [List.mem_flatMap] at hmv
      obtain ⟨d, _, hd⟩ := hmv
      rcases mem_direction_moves board p i j d mv hd with rfl | rfl <;>
        simp [move_from]
    · intro j _
      apply nodup_flatMap_of_key directions _
        (fun mv => (Int.sign (mv.targetrow - mv.sourcerow),
          Int.sign (mv.targetcol - mv.sourcecol))) (by decide)
      · intro d hd mv hmv
        obtain ⟨a, b⟩ := d
        have hab := (mem_directions (a, b)).mp hd
        simp only at hab
        rcases mem_direction_moves board p i j (a, b) mv hmv with rfl | rfl <;>
          rcases hab with ⟨rfl | rfl, rfl | rfl⟩ <;>
          simp [move_from, (by decide : Int.sign 2 = 1)]
      · intro d _
        exact direction_moves_nodup board p i j d

/-! ## Lemmas on `play_round` -/

theorem recursive_addlayers_stuck (root : decision_node_t) (p : Int)
    (hno : (possible_moves root.board p).length = 0) :
    (recursive_addlayers root p INITIAL_DEPTH).next_move = [] := by
  rw [recursive_addlayers_next_move root p INITIAL_DEPTH (by decide),
    List.length_eq_zero.mp hno]
  rfl

theorem game_over_of_nil (t : decision_node_t) (h : t.next_move = []) :
    game_over t =
      if Int.tmod t.move.movenum CHECK_ODDEVEN = BLACK_MOVE then INT_MAX else INT_MIN := by
  unfold game_over decision_node_t.options
  rw [h]
  rfl

/-- When the root has no option, `play_round` answers from the parity of the move number
alone: black to move gives the line for a black win, white to move gives no line about
the winner. -/
theorem play_round_stuck (board : board_t) (p check_gover : Int) (root_init : decision_node_t)
    (best_init : move_t) (hp : 0 ≤ p) (hno : (possible_moves board p).length = 0) :
    (p % 2 = 1 →
      (play_round board p check_gover root_init best_init).out = [message.BLACK_WIN] ∧
      (play_round board p check_gover root_init best_init).ret = 0) ∧
    (p % 2 = 0 → check_gover ≠ 0 →
      (play_round board p check_gover root_init best_init).out = [] ∧
      (play_round board p check_gover root_init best_init).ret = 0) ∧
    (p % 2 = 0 → check_gover = 0 →
      (play_round board p check_gover root_init best_init).ret =
        if (legal_input board
          ⟨best_init.sourcecol, best_init.sourcerow, best_init.targetcol, best_init.targetrow, p⟩
          NO_CAPTURE).ret = 0 then 0 else 1) := by
  have hnext := recursive_addlayers_stuck
    (decision_node_t.mk (copy_board board) root_init.minimax_cost root_init.move
      root_init.next_move) p hno
  have hnum := recursive_addlayers_movenum
    (decision_node_t.mk (copy_board board) root_init.minimax_cost root_init.move
      root_init.next_move) p INITIAL_DEPTH
  have hgo1 := game_over_of_nil _ hnext
  rw [hnum, tmod_two_of_nonneg p hp] at hgo1
  have hfind : find_move (recursive_addlayers
      (decision_node_t.mk (copy_board board) root_init.minimax_cost root_init.move
        root_init.next_move) p INITIAL_DEPTH) best_init =
      (set_movenum (recursive_addlayers
        (decision_node_t.mk (copy_board board) root_init.minimax_cost root_init.move
          root_init.next_move) p INITIAL_DEPTH)
        (if p % 2 = BLACK_MOVE then INT_MAX else INT_MIN), best_init) := by
    unfold find_move
    rw [hgo1, if_pos (by split <;> decide)]
  have hgo2 : ∀ v, game_over (set_movenum (recursive_addlayers
      (decision_node_t.mk (copy_board board) root_init.minimax_cost root_init.move
        root_init.next_move) p INITIAL_DEPTH) v) =
      if Int.tmod v CHECK_ODDEVEN = BLACK_MOVE then INT_MAX else INT_MIN :=
    fun v => game_over_of_nil _ hnext
  refine ⟨?_, ?_, ?_⟩
  · intro hodd
    rw [if_pos hodd] at hfind
    simp only [play_round, hfind, hgo2]
    constructor <;> rfl
  · intro heven hcheck
    rw [if_neg (by simp only [BLACK_MOVE]; omega)] at hfind
    simp only [play_round, hfind, hgo2]
    rw [if_neg (by decide), if_neg (by decide), if_pos hcheck]
    constructor <;> rfl
  · intro heven hcheck
    rw [if_neg (by simp only [BLACK_MOVE]; omega)] at hfind
    simp only [play_round, hfind, hgo2]
    rw [if_neg (by decide), if_neg (by decide), if_neg (by simp [hcheck])]
    split <;> rfl

/-! ## Lemmas on `update_board` -/

theorem set_cell_same (board : board_t) (r c v : Int) : set_cell board r c v r c = v := by
  unfold set_cell
  simp

theorem set_cell_other (board : board_t) (r c v i j : Int) (h : ¬ (i = r ∧ j = c)) :
    set_cell board r c v i j = board i j := by
  unfold set_cell
  rw [if_neg h]

/-- The cell `update_board` writes on the target. -/
theorem update_board_target_value (piece tr : Int) (htr : 0 ≤ tr ∧ tr < 8) :
    (if promote_piece piece (tr + CHAR_1) ≠ 0 then
        if piece = CELL_WPIECE then CELL_WTOWER else CELL_BTOWER
      else piece) = crowned piece tr := by
  unfold promote_piece crowned
  simp only [CHAR_1, CHAR_8, CELL_BPIECE, CELL_WPIECE, CELL_BTOWER, CELL_WTOWER]
  by_cases hb : piece = 98
  · subst hb
    by_cases h0 : tr = 0
    · subst h0; decide
    · have h1 : ¬ tr + 49 = 49 := by omega
      simp [h0, h1]
  · by_cases hw : piece = 119
    · subst hw
      by_cases h7 : tr = 7
      · subst h7; decide
      · have h1 : ¬ tr + 49 = 56 := by omega
        simp [h7, h1]
    · simp [hb, hw]

theorem update_board_eq (board : board_t) (sr sc tr tc movenum capture : Int)
    (hs : on_board sr sc) (ht : on_board tr tc) :
    update_board board ⟨sc + CHAR_A, sr + CHAR_1, tc + CHAR_A, tr + CHAR_1, movenum⟩ capture =
      if capture ≠ 0 then
        set_cell (set_cell (set_cell board tr tc (crowned (board sr sc) tr)) sr sc CELL_EMPTY)
          ((sr + tr) / 2) ((sc + tc) / 2) CELL_EMPTY
      else set_cell (set_cell board tr tc (crowned (board sr sc) tr)) sr sc CELL_EMPTY := by
  unfold on_board at hs ht
  simp only [BOARD_SIZE] at hs ht
  unfold update_board
  simp only
  rw [convert_to_index_row sr hs.1 hs.2.1, convert_to_index_col sc hs.2.2.1 hs.2.2.2,
    convert_to_index_row tr ht.1 ht.2.1, convert_to_index_col tc ht.2.2.1 ht.2.2.2,
    Int.tdiv_eq_ediv (by omega) (by decide), Int.tdiv_eq_ediv (by omega) (by decide)]
  have hval := update_board_target_value (board sr sc) tr ⟨ht.1, ht.2.1⟩
  have hb1 : (if promote_piece (board sr sc) (tr + CHAR_1) ≠ 0 then
        if board sr sc = CELL_WPIECE then set_cell board tr tc CELL_WTOWER
        else set_cell board tr tc CELL_BTOWER
      else set_cell board tr tc (board sr sc)) =
      set_cell board tr tc (crowned (board sr sc) tr) := by
    rw [← hval]
    split_ifs <;> rfl
  rw [hb1]

/-! ## Lemmas on `calculate_cost` -/

theorem foldl_flatMap_map {α β γ : Type} (h : α → γ → α) (l : List β) (m : List β)
    (g : β → β → γ) (a : α) :
    (l.flatMap (fun i => m.map (fun j => g i j))).foldl h a =
      l.foldl (fun acc i => m.foldl (fun acc j => h acc (g i j)) acc) a := by
  induction l generalizing a with
  | nil => rfl
  | cons x xs ih =>
    rw [List.flatMap_cons, List.foldl_append, List.foldl_cons, ih, List.foldl_map]

theorem calculate_cost_eq_foldl_cells (board : board_t) :
    calculate_cost board =
      board_cells.foldl (fun cost cell => calculate_cost_cell board cost cell.1 cell.2) 0 := by
  unfold calculate_cost board_cells
  rw [foldl_flatMap_map]

theorem calculate_cost_cell_eq (board : board_t) (cost i j : Int) :
    calculate_cost_cell board cost i j = cost + cell_value (board i j) := by
  unfold calculate_cost_cell cell_value
  split_ifs <;> omega

theorem foldl_cost_eq_sum (board : board_t) (l : List (Int × Int)) (a : Int) :
    l.foldl (fun cost cell => calculate_cost_cell board cost cell.1 cell.2) a =
      a + (l.map (fun cell => cell_value (board cell.1 cell.2))).sum := by
  induction l generalizing a with
  | nil => simp
  | cons x xs ih =>
    rw [List.foldl_cons, ih, calculate_cost_cell_eq, List.map_cons, List.sum_cons]
    omega

theorem calculate_cost_eq_sum (board : board_t) :
    calculate_cost board = (board_cells.map (fun cell => cell_value (board cell.1 cell.2))).sum := by
  rw [calculate_cost_eq_foldl_cells, foldl_cost_eq_sum]
  omega

theorem sum_cell_value_eq_counts (board : board_t) (l : List (Int × Int)) :
    (l.map (fun cell => cell_value (board cell.1 cell.2))).sum =
      ((l.countP (fun cell => decide (board cell.1 cell.2 = CELL_BPIECE)) : Nat) -
        (l.countP (fun cell => decide (board cell.1 cell.2 = CELL_WPIECE)) : Nat)) +
      3 * ((l.countP (fun cell => decide (board cell.1 cell.2 = CELL_BTOWER)) : Nat) -
        (l.countP (fun cell => decide (board cell.1 cell.2 = CELL_WTOWER)) : Nat)) := by
  induction l with
  | nil => simp
  | cons x xs ih =>
    rw [List.map_cons, List.sum_cons, ih]
    simp only [List.countP_cons, decide_eq_true_eq, cell_value, CELL_BPIECE, CELL_WPIECE,
      CELL_BTOWER, CELL_WTOWER, COST_TOWER]
    by_cases h1 : board x.1 x.2 = 119
    · simp [h1]; omega
    · by_cases h2 : board x.1 x.2 = 98
      · simp [h2]; omega
      · by_cases h3 : board x.1 x.2 = 87
        · simp [h3]; omega
        · by_cases h4 : board x.1 x.2 = 66
          · simp [h4]; omega
          · simp [h1, h2, h3, h4]

theorem mem_board_cells (cell : Int × Int) :
    cell ∈ board_cells ↔ on_board cell.1 cell.2 := by
  obtain ⟨i, j⟩ := cell
  unfold board_cells on_board
  simp only [List.mem_flatMap, List.mem_map, mem_board_range, Prod.mk.injEq, BOARD_SIZE]
  constructor
  · rintro ⟨a, ha, b, hb, rfl, rfl⟩
    omega
  · intro h
    exact ⟨i, by omega, j, by omega, rfl, rfl⟩

theorem board_cells_length : board_cells.length = 64 := by decide

theorem partial_cost_bounds (board : board_t) (n : Nat) :
    -192 ≤ partial_cost board n ∧ partial_cost board n ≤ 192 := by
  have h := foldl_bounded_step
    (fun cost (cell : Int × Int) => calculate_cost_cell board cost cell.1 cell.2) 3
    (fun a x => calculate_cost_cell_bounds board a x.1 x.2) (board_cells.take n) 0
  have hlen : ((board_cells.take n).length : Int) ≤ 64 := by
    rw [List.length_take, board_cells_length]
    omega
  unfold partial_cost
  omega

theorem partial_cost_all (board : board_t) : partial_cost board 64 = calculate_cost board := by
  unfold partial_cost
  rw [calculate_cost_eq_foldl_cells, List.take_of_length_le (by rw [board_cells_length])]

theorem cell_value_swap_cell (c : Int) : cell_value (swap_cell c) = -cell_value c := by
  unfold cell_value swap_cell
  simp only [CELL_BPIECE, CELL_WPIECE, CELL_BTOWER, CELL_WTOWER, COST_TOWER]
  by_cases h1 : c = 98
  · subst h1; decide
  · by_cases h2 : c = 119
    · subst h2; decide
    · by_cases h3 : c = 66
      · subst h3; decide
      · by_cases h4 : c = 87
        · subst h4; decide
        · simp [h1, h2, h3, h4]

theorem sum_map_neg (l : List (Int × Int)) (f : Int × Int → Int) :
    (l.map (fun x => -f x)).sum = -(l.map f).sum := by
  induction l with
  | nil => simp
  | cons x xs ih =>
    rw [List.map_cons, List.sum_cons, ih, List.map_cons, List.sum_cons]
    omega

/-! ## Lemmas on the levels of the tree -/

theorem nodes_at_zero (t : decision_node_t) : nodes_at 0 t = [t] := rfl

theorem nodes_at_succ (d : Nat) (t : decision_node_t) :
    nodes_at (d + 1) t = t.next_move.flatMap (fun c => nodes_at d c) := rfl

/-- The nodes one level further down are the children of the nodes of a level. -/
theorem nodes_at_succ_children (d : Nat) : ∀ (t : decision_node_t),
    nodes_at (d + 1) t = (nodes_at d t).flatMap decision_node_t.next_move := by
  induction d with
  | zero =>
    intro t
    rw [nodes_at_succ, nodes_at_zero]
    simp [nodes_at_zero]
  | succ d ih =>
    intro t
    rw [nodes_at_succ, nodes_at_succ d t, List.flatMap_assoc]
    congr 1
    funext c
    exact ih c

/-- Every node at depth `k` below a tree built at depth `d` was itself built by
`recursive_addlayers` at depth `d + k`, with move number `q + k` while that sum stays in
the range of `int`. -/
theorem nodes_at_recursive_addlayers (k : Nat) : ∀ (root : decision_node_t) (q d : Int)
    (n : decision_node_t), n ∈ nodes_at k (recursive_addlayers root q d) →
    ∃ x q', n = recursive_addlayers x q' (d + k) ∧
      (INT_MIN ≤ q → q + (k : Int) ≤ INT_MAX → q' = q + k) := by
  induction k with
  | zero =>
    intro root q d n hn
    rw [nodes_at_zero, List.mem_singleton] at hn
    exact ⟨root, q, by simpa using hn, fun _ _ => by simp⟩
  | succ k ih =>
    intro root q d n hn
    rw [nodes_at_succ, List.mem_flatMap] at hn
    obtain ⟨c, hc, hnc⟩ := hn
    by_cases hd : d ≤ TREE_DEPTH
    · rw [recursive_addlayers_next_move root q d hd] at hc
      obtain ⟨ch, _, rfl⟩ := List.mem_map.mp hc
      obtain ⟨x, q', hx, hq'⟩ := ih ch (wrap_int (q + 1)) (d + 1) n hnc
      refine ⟨x, q', ?_, ?_⟩
      · rw [hx]
        push_cast
        congr 1
        omega
      · intro hlo hhi
        push_cast at hhi ⊢
        have hwrap : wrap_int (q + 1) = q + 1 :=
          wrap_int_eq (q + 1) (by omega) (by omega)
        rw [hwrap] at hq'
        rw [hq' (by omega) (by omega)]
        omega
    · rw [recursive_addlayers_next_move_deep root q d (by omega)] at hc
      simp at hc

theorem mem_nodes_at_succ_of_option (k : Nat) (root c n : decision_node_t) (q q' d : Int)
    (hc : c ∈ possible_moves root.board q) (hd : d ≤ TREE_DEPTH) (hq : wrap_int (q + 1) = q')
    (hn : n ∈ nodes_at k (recursive_addlayers c q' (d + 1))) :
    n ∈ nodes_at (k + 1) (recursive_addlayers root q d) := by
  rw [nodes_at_succ, List.mem_flatMap]
  refine ⟨recursive_addlayers c q' (d + 1), ?_, hn⟩
  rw [recursive_addlayers_next_move root q d hd, hq]
  exact List.mem_map.mpr ⟨c, hc, rfl⟩

theorem step_option_mem (board : board_t) (p i j addi addj : Int)
    (hi : 0 ≤ i ∧ i < 8) (hj : 0 ≤ j ∧ j < 8)
    (hd : (addi = 1 ∨ addi = -1) ∧ (addj = 1 ∨ addj = -1))
    (ht : tries_direction p (board i j) addi) (hon : on_board (i + addi) (j + addj))
    (hempty : board (i + addi) (j + addj) = CELL_EMPTY) :
    create_move board (move_from i j addi addj 1 p) ∈ possible_moves board p :=
  (mem_possible_moves board p _).mpr ⟨i, j, addi, addj, hi, hj, hd, ht,
    (mem_test_direction board p i j addi addj _).mpr (Or.inl ⟨hon, hempty, rfl⟩)⟩

theorem far_apart_1_mem : far_apart_1 ∈ possible_moves board_far_apart 1 :=
  step_option_mem board_far_apart 1 7 0 (-1) 1 (by decide) (by decide) (by decide) (by decide)
    (by decide) (by decide)

theorem far_apart_2_mem : far_apart_2 ∈ possible_moves far_apart_1.board 2 :=
  step_option_mem far_apart_1.board 2 0 7 1 (-1) (by decide) (by decide) (by decide) (by decide)
    (by decide) (by decide)

theorem far_apart_3_mem : far_apart_3 ∈ possible_moves far_apart_2.board 3 :=
  step_option_mem far_apart_2.board 3 6 1 (-1) 1 (by decide) (by decide) (by decide) (by decide)
    (by decide) (by decide)

theorem far_apart_4_mem : far_apart_4 ∈ possible_moves far_apart_3.board 4 :=
  step_option_mem far_apart_3.board 4 1 6 1 1 (by decide) (by decide) (by decide) (by decide)
    (by decide) (by decide)

/-- The node reached by the four first options is at depth 4 of the tree. -/
theorem far_apart_depth_four :
    recursive_addlayers far_apart_4 5 4 ∈
      nodes_at 4 (recursive_addlayers (blank_node board_far_apart 0) 1 INITIAL_DEPTH) := by
  apply mem_nodes_at_succ_of_option 3 (blank_node board_far_apart 0) far_apart_1 _ 1 2 0
    far_apart_1_mem (by decide) (by decide)
  apply mem_nodes_at_succ_of_option 2 far_apart_1 far_apart_2 _ 2 3 1 far_apart_2_mem
    (by decide) (by decide)
  apply mem_nodes_at_succ_of_option 1 far_apart_2 far_apart_3 _ 3 4 2 far_apart_3_mem
    (by decide) (by decide)
  apply mem_nodes_at_succ_of_option 0 far_apart_3 far_apart_4 _ 4 5 3 far_apart_4_mem
    (by decide) (by decide)
  rw [nodes_at_zero]
  exact List.mem_singleton.mpr rfl

theorem possible_moves_board (board : board_t) (p : Int) (opt : decision_node_t)
    (hopt : opt ∈ possible_moves board p) :
    opt.board = update_board board opt.move (capture_flag opt.move) := by
  obtain ⟨i, j, addi, addj, _, _, _, _, hmem⟩ := (mem_possible_moves board p opt).mp hopt
  rcases (mem_test_direction board p i j addi addj opt).mp hmem with
    ⟨_, _, rfl⟩ | ⟨_, _, _, _, rfl⟩ <;> rfl

theorem recursive_addlayers_coords (node : decision_node_t) (move tree_depth : Int) :
    (recursive_addlayers node move tree_depth).move.sourcecol = node.move.sourcecol ∧
    (recursive_addlayers node move tree_depth).move.sourcerow = node.move.sourcerow ∧
    (recursive_addlayers node move tree_depth).move.targetcol = node.move.targetcol ∧
    (recursive_addlayers node move tree_depth).move.targetrow = node.move.targetrow := by
  rw [recursive_addlayers_unfold]
  split <;> exact ⟨rfl, rfl, rfl, rfl⟩

/-! ## Lemmas on the order of the options -/

theorem source_cell_of_mem_cell_options (board : board_t) (p i j : Int)
    (hi : 0 ≤ i ∧ i < 8) (hj : 0 ≤ j ∧ j < 8) (n : decision_node_t)
    (hn : n ∈ cell_options board p i j) : source_cell n.move = (i, j) := by
  unfold cell_options at hn
  rw [List.mem_flatMap] at hn
  obtain ⟨d, _, hd⟩ := hn
  split at hd
  · unfold source_cell
    rcases move_of_mem_test_direction board p i j d.1 d.2 n hd with h | h <;>
      rw [h] <;> unfold move_from <;> simp only <;>
      rw [convert_to_index_row i hi.1 hi.2, convert_to_index_col j hj.1 hj.2]
  · simp at hd

theorem board_range_sorted : board_range.Pairwise (fun a b => a < b) := by decide

/-- The options are listed in row-major order of their source cells. -/
theorem possible_moves_row_major (board : board_t) (p : Int) :
    (possible_moves board p).Pairwise
      (fun a b => row_major_le (source_cell a.move) (source_cell b.move)) := by
  rw [possible_moves_eq, List.pairwise_flatMap]
  constructor
  · intro i hi
    have hi' := (mem_board_range i).mp hi
    rw [List.pairwise_flatMap]
    constructor
    · intro j hj
      have hj' := (mem_board_range j).mp hj
      rw [List.pairwise_iff_forall_sublist]
      intro a b hab
      have ha := source_cell_of_mem_cell_options board p i j hi' hj' a (hab.subset (by simp))
      have hb := source_cell_of_mem_cell_options board p i j hi' hj' b (hab.subset (by simp))
      rw [ha, hb]
      exact Or.inr ⟨rfl, le_refl _⟩
    · apply board_range_sorted.imp_of_mem
      intro j1 j2 hj1 hj2 hlt x hx y hy
      rw [source_cell_of_mem_cell_options board p i j1 hi' ((mem_board_range j1).mp hj1) x hx,
        source_cell_of_mem_cell_options board p i j2 hi' ((mem_board_range j2).mp hj2) y hy]
      exact Or.inr ⟨rfl, le_of_lt hlt⟩
  · apply board_range_sorted.imp_of_mem
    intro i1 i2 hi1 hi2 hlt x hx y hy
    rw [List.mem_flatMap] at hx hy
    obtain ⟨j1, hj1, hx⟩ := hx
    obtain ⟨j2, hj2, hy⟩ := hy
    rw [source_cell_of_mem_cell_options board p i1 j1 ((mem_board_range i1).mp hi1)
        ((mem_board_range j1).mp hj1) x hx,
      source_cell_of_mem_cell_options board p i2 j2 ((mem_board_range i2).mp hi2)
        ((mem_board_range j2).mp hj2) y hy]
    exact Or.inl hlt

theorem row_major_le_antisymm (a b : Int × Int) (hab : row_major_le a b)
    (hba : row_major_le b a) : a = b := by
  obtain ⟨a1, a2⟩ := a
  obtain ⟨b1, b2⟩ := b
  unfold row_major_le at hab hba
  simp only at hab hba
  rw [Prod.mk.injEq]
  omega

/-! ## Lemmas on the number of options -/

theorem cell_options_length (board : board_t) (p i j : Int) (hp : 0 ≤ p) :
    ((cell_options board p i j).length : Int) ≤
      2 * (if own_plain p (board i j) then 1 else 0) +
        4 * (if own_tower p (board i j) then 1 else 0) := by
  have h1 := test_direction_length board p ⟨i, j, -1, 1⟩
  have h2 := test_direction_length board p ⟨i, j, 1, 1⟩
  have h3 := test_direction_length board p ⟨i, j, -1, -1⟩
  have h4 := test_direction_length board p ⟨i, j, 1, -1⟩
  unfold cell_options directions
  simp only [List.flatMap_cons, List.flatMap_nil, List.append_nil, List.length_append]
  unfold tries_direction own_plain own_tower
  simp only [tmod_two_of_nonneg p hp, BLACK_MOVE, BLACK_DIRECTION, WHITE_DIRECTION, CELL_BPIECE, CELL_WPIECE,
    CELL_BTOWER, CELL_WTOWER]
  by_cases hodd : p % 2 = 1
  · by_cases hb : board i j = 98
    · simp [hodd, hb]; omega
    · by_cases ht : board i j = 66
      · simp [hodd, ht]; omega
      · simp [hodd, hb, ht]
  · by_cases hw : board i j = 119
    · simp [hodd, hw]; omega
    · by_cases ht : board i j = 87
      · simp [hodd, ht]; omega
      · simp [hodd, hw, ht]

theorem possible_moves_eq_cells (board : board_t) (p : Int) :
    possible_moves board p =
      board_cells.flatMap (fun cell => cell_options board p cell.1 cell.2) := by
  rw [possible_moves_eq]
  unfold board_cells
  rw [List.flatMap_assoc]
  simp only [List.flatMap_map]

theorem flatMap_length_le_counts (board : board_t) (p : Int) (hp : 0 ≤ p)
    (l : List (Int × Int)) :
    ((l.flatMap (fun cell => cell_options board p cell.1 cell.2)).length : Int) ≤
      2 * (l.countP (fun cell => decide (own_plain p (board cell.1 cell.2))) : Nat) +
        4 * (l.countP (fun cell => decide (own_tower p (board cell.1 cell.2))) : Nat) := by
  induction l with
  | nil => simp
  | cons x xs ih =>
    have hx := cell_options_length board p x.1 x.2 hp
    rw [List.flatMap_cons, List.length_append, List.countP_cons, List.countP_cons]
    simp only [decide_eq_true_eq]
    push_cast
    omega

theorem countP_own_split (board : board_t) (p : Int) (l : List (Int × Int)) :
    l.countP (fun cell => decide (own_piece p (board cell.1 cell.2))) =
      l.countP (fun cell => decide (own_plain p (board cell.1 cell.2))) +
        l.countP (fun cell => decide (own_tower p (board cell.1 cell.2))) := by
  induction l with
  | nil => simp
  | cons x xs ih =>
    rw [List.countP_cons, List.countP_cons, List.countP_cons, ih]
    simp only [decide_eq_true_eq]
    unfold own_piece own_plain own_tower
    simp only [CELL_BPIECE, CELL_WPIECE, CELL_BTOWER, CELL_WTOWER]
    by_cases hodd : p % 2 = 1
    · by_cases hb : board x.1 x.2 = 98
      · simp [hodd, hb]; omega
      · by_cases ht : board x.1 x.2 = 66
        · simp [hodd, ht]; omega
        · simp [hodd, hb, ht]
    · by_cases hw : board x.1 x.2 = 119
      · simp [hodd, hw]; omega
      · by_cases ht : board x.1 x.2 = 87
        · simp [hodd, ht]; omega
        · simp [hodd, hw, ht]

theorem test_direction_length_acc (board : board_t) (acc : List decision_node_t) (p : Int)
    (test : direction_t) : (test_direction board acc p test).length ≤ acc.length + 1 := by
  rw [test_direction_append, List.length_append]
  have := test_direction_length board p test
  omega

set_option maxRecDepth 100000 in
/-- With more than 12 pieces the bound of 48 options can fail: 16 towers of the side to
move have 49 options between them. -/
theorem sixteen_towers_options :
    well_formed board_sixteen_towers ∧ count_own board_sixteen_towers 1 = 16 ∧
      (calculate_options (blank_node board_sixteen_towers 1)).options = 49 := by
  decide

/-! ## Lemmas on the starting board -/

theorem fill_board_cell_eq (state : board_t × Int) (i j : Int) :
    fill_board_cell state i j =
      (set_cell state.1 i j (fill_value (fill_order state.2 j) i j), fill_order state.2 j) := by
  unfold fill_board_cell fill_value fill_order
  simp only
  split_ifs <;> rfl

theorem fill_board_eq_foldl_cells (board0 : board_t) :
    fill_board board0 =
      (board_cells.foldl (fun state cell => fill_board_cell state cell.1 cell.2)
        (board0, BLACK_MOVE)).1 := by
  unfold fill_board board_cells
  rw [foldl_flatMap_map]

/-- Two runs of the loops of `fill_board` from arrays of different content agree on
`order` and on every cell written so far. -/
theorem fill_board_foldl_agree (l : List (Int × Int)) :
    ∀ (s1 s2 : board_t × Int) (written : Int → Int → Prop), s1.2 = s2.2 →
      (∀ i j, written i j → s1.1 i j = s2.1 i j) →
      (l.foldl (fun state cell => fill_board_cell state cell.1 cell.2) s1).2 =
        (l.foldl (fun state cell => fill_board_cell state cell.1 cell.2) s2).2 ∧
      ∀ i j, (written i j ∨ (i, j) ∈ l) →
        (l.foldl (fun state cell => fill_board_cell state cell.1 cell.2) s1).1 i j =
          (l.foldl (fun state cell => fill_board_cell state cell.1 cell.2) s2).1 i j := by
  induction l with
  | nil =>
    intro s1 s2 written horder hcells
    refine ⟨horder, ?_⟩
    intro i j h
    rcases h with h | h
    · exact hcells i j h
    · simp at h
  | cons c cs ih =>
    intro s1 s2 written horder hcells
    rw [List.foldl_cons, List.foldl_cons]
    have hstep := ih (fill_board_cell s1 c.1 c.2) (fill_board_cell s2 c.1 c.2)
      (fun i j => written i j ∨ (i, j) = c)
      (by rw [fill_board_cell_eq, fill_board_cell_eq, horder])
      (by
        intro i j h
        rw [fill_board_cell_eq, fill_board_cell_eq, horder]
        simp only
        unfold set_cell
        by_cases hc : i = c.1 ∧ j = c.2
        · rw [if_pos hc, if_pos hc]
        · rw [if_neg hc, if_neg hc]
          rcases h with h | h
          · exact hcells i j h
          · exact absurd ⟨congrArg Prod.fst h, congrArg Prod.snd h⟩ hc)
    refine ⟨hstep.1, ?_⟩
    intro i j h
    apply hstep.2
    rcases h with h | h
    · exact Or.inl (Or.inl h)
    · rcases List.mem_cons.mp h with h | h
      · exact Or.inl (Or.inr h)
      · exact Or.inr h

/-- The cells `fill_board` writes do not depend on the content of the array before. -/
theorem fill_board_cells (board0 : board_t) (i j : Int) (hon : on_board i j) :
    fill_board board0 i j = fill_board empty_board i j := by
  rw [fill_board_eq_foldl_cells, fill_board_eq_foldl_cells]
  exact (fill_board_foldl_agree board_cells (board0, BLACK_MOVE) (empty_board, BLACK_MOVE)
    (fun _ _ => False) rfl (fun _ _ h => absurd h id)).2 i j
    (Or.inr ((mem_board_cells (i, j)).mpr hon))

/-- The moves `test_direction` records, as a case distinction. -/
theorem test_direction_moves (board : board_t) (p i j addi addj : Int) :
    (test_direction board [] p ⟨i, j, addi, addj⟩).map decision_node_t.move =
      if on_board (i + addi) (j + addj) ∧ board (i + addi) (j + addj) = CELL_EMPTY then
        [move_from i j addi addj 1 p]
      else if on_board (i + 2 * addi) (j + 2 * addj) ∧
          board (i + 2 * addi) (j + 2 * addj) = CELL_EMPTY ∧
          capture_opposition board (move_from i j addi addj 2 p) ≠ 0 then
        [move_from i j addi addj 2 p]
      else [] := by
  have hmem := mem_test_direction board p i j addi addj
  have hlen := test_direction_length board p ⟨i, j, addi, addj⟩
  match hl : test_direction board [] p ⟨i, j, addi, addj⟩ with
  | [] =>
    rw [hl] at hmem
    rw [List.map_nil]
    by_cases h1 : on_board (i + addi) (j + addj) ∧ board (i + addi) (j + addj) = CELL_EMPTY
    · exact absurd ((hmem _).mpr (Or.inl ⟨h1.1, h1.2, rfl⟩)) (List.not_mem_nil _)
    · rw [if_neg h1]
      by_cases h2 : on_board (i + 2 * addi) (j + 2 * addj) ∧
          board (i + 2 * addi) (j + 2 * addj) = CELL_EMPTY ∧
          capture_opposition board (move_from i j addi addj 2 p) ≠ 0
      · exact absurd ((hmem _).mpr (Or.inr ⟨h1, h2.1, h2.2.1, h2.2.2, rfl⟩)) (List.not_mem_nil _)
      · rw [if_neg h2]
  | [x] =>
    rw [hl] at hmem
    rw [List.map_cons, List.map_nil]
    rcases (hmem x).mp (List.mem_singleton.mpr rfl) with
      ⟨h1, h2, rfl⟩ | ⟨h1, h2, h3, h4, rfl⟩
    · rw [if_pos ⟨h1, h2⟩]
      rfl
    · rw [if_neg h1, if_pos ⟨h2, h3, h4⟩]
      rfl
  | x :: y :: rest =>
    rw [hl] at hlen
    simp at hlen

theorem capture_opposition_congr (b1 b2 : board_t) (p q i j addi addj : Int)
    (hboard : ∀ i j, on_board i j → b1 i j = b2 i j)
    (hparity : Int.tmod p CHECK_ODDEVEN = Int.tmod q CHECK_ODDEVEN)
    (hi : 0 ≤ i ∧ i < 8) (hj : 0 ≤ j ∧ j < 8)
    (htwo : on_board (i + 2 * addi) (j + 2 * addj)) :
    capture_opposition b1 (move_from i j addi addj 2 p) =
      capture_opposition b2 (move_from i j addi addj 2 q) := by
  rw [capture_opposition_move_from b1 p i j addi addj hi hj htwo,
    capture_opposition_move_from b2 q i j addi addj hi hj htwo, hparity]
  have hadj : on_board (i + addi) (j + addj) := by
    unfold on_board at htwo ⊢
    simp only [BOARD_SIZE] at htwo ⊢
    omega
  rw [hboard _ _ hadj]

/-- The moves recorded in one direction depend on the board through its 64 cells only
and on the move number through its parity only. -/
theorem direction_moves_congr (b1 b2 : board_t) (p q i j : Int) (d : Int × Int)
    (hboard : ∀ i j, on_board i j → b1 i j = b2 i j)
    (hparity : Int.tmod p CHECK_ODDEVEN = Int.tmod q CHECK_ODDEVEN)
    (hi : 0 ≤ i ∧ i < 8) (hj : 0 ≤ j ∧ j < 8) (hd : d ∈ directions) :
    direction_moves b1 p i j d = (direction_moves b2 q i j d).map (with_movenum p) := by
  have hd' := (mem_directions d).mp hd
  have hij : on_board i j := by
    unfold on_board; simp only [BOARD_SIZE]; omega
  unfold direction_moves
  have htries : tries_direction p (b1 i j) d.1 ↔ tries_direction q (b2 i j) d.1 := by
    unfold tries_direction
    rw [hboard i j hij, hparity]
  by_cases ht : tries_direction q (b2 i j) d.1
  · rw [if_pos (htries.mpr ht), if_pos ht, test_direction_moves, test_direction_moves]
    by_cases h1 : on_board (i + d.1) (j + d.2) ∧ b2 (i + d.1) (j + d.2) = CELL_EMPTY
    · rw [if_pos h1, if_pos ⟨h1.1, by rw [hboard _ _ h1.1]; exact h1.2⟩]
      rfl
    · rw [if_neg h1, if_neg (fun h => h1 ⟨h.1, by rw [← hboard _ _ h.1]; exact h.2⟩)]
      by_cases h2 : on_board (i + 2 * d.1) (j + 2 * d.2)
      · rw [hboard _ _ h2, capture_opposition_congr b1 b2 p q i j d.1 d.2 hboard hparity hi hj h2]
        split <;> rfl
      · rw [if_neg (fun h => h2 h.1), if_neg (fun h => h2 h.1)]
        rfl
  · rw [if_neg (fun h => ht (htries.mp h)), if_neg ht]
    rfl

theorem possible_moves_congr (b1 b2 : board_t) (p q : Int)
    (hboard : ∀ i j, on_board i j → b1 i j = b2 i j)
    (hparity : Int.tmod p CHECK_ODDEVEN = Int.tmod q CHECK_ODDEVEN) :
    (possible_moves b1 p).map decision_node_t.move =
      ((possible_moves b2 q).map decision_node_t.move).map (with_movenum p) := by
  rw [possible_moves_map_move, possible_moves_map_move, List.map_flatMap]
  apply List.flatMap_congr
  intro i hi
  rw [List.map_flatMap]
  apply List.flatMap_congr
  intro j hj
  rw [List.map_flatMap]
  apply List.flatMap_congr
  intro d hd
  exact direction_moves_congr b1 b2 p q i j d hboard hparity ((mem_board_range i).mp hi)
    ((mem_board_range j).mp hj) hd

set_option maxRecDepth 100000 in
theorem possible_moves_start_black :
    (possible_moves (fill_board empty_board) 1).map decision_node_t.move =
      start_moves_black 1 := by
  decide

set_option maxRecDepth 100000 in
theorem possible_moves_start_white :
    (possible_moves (fill_board empty_board) 0).map decision_node_t.move =
      start_moves_white 0 := by
  decide

theorem capture_flag_start_black (p : Int) (mv : move_t) (h : mv ∈ start_moves_black p) :
    capture_flag mv = NO_CAPTURE := by
  unfold start_moves_black at h
  simp only [List.mem_cons, List.mem_nil_iff, or_false] at h
  rcases h with rfl | rfl | rfl | rfl | rfl | rfl | rfl <;> rfl

theorem capture_flag_start_white (p : Int) (mv : move_t) (h : mv ∈ start_moves_white p) :
    capture_flag mv = NO_CAPTURE := by
  unfold start_moves_white at h
  simp only [List.mem_cons, List.mem_nil_iff, or_false] at h
  rcases h with rfl | rfl | rfl | rfl | rfl | rfl | rfl <;> rfl

theorem possible_moves_start_odd (board0 : board_t) :
    (possible_moves (fill_board board0) 1).map decision_node_t.move = start_moves_black 1 := by
  rw [possible_moves_congr (fill_board board0) (fill_board empty_board) 1 1
    (fill_board_cells board0) rfl, possible_moves_start_black]
  rfl

theorem possible_moves_start_even (board0 : board_t) (k : Nat) :
    (possible_moves (fill_board board0) (2 * (k : Int))).map decision_node_t.move =
      start_moves_white (2 * (k : Int)) := by
  have hparity : Int.tmod (2 * (k : Int)) CHECK_ODDEVEN = Int.tmod 0 CHECK_ODDEVEN := by
    rw [tmod_two_of_nonneg _ (by omega), tmod_two_of_nonneg _ (by omega)]
    omega
  rw [possible_moves_congr (fill_board board0) (fill_board empty_board) (2 * (k : Int)) 0
    (fill_board_cells board0) hparity, possible_moves_start_white]
  rfl

theorem calculate_options_blank_next_move (board : board_t) (p : Int) :
    (calculate_options (blank_node board p)).next_move = possible_moves board p := rfl

theorem calculate_options_blank_options (board : board_t) (p : Int) :
    (calculate_options (blank_node board p)).options =
      (((possible_moves board p).map decision_node_t.move).length : Int) := by
  unfold decision_node_t.options
  rw [calculate_options_blank_next_move, List.length_map]

/-! ## Lemmas on the cells the move generator touches -/

theorem create_move_cells_step (i j addi addj p : Int) (hi : 0 ≤ i ∧ i < 8)
    (hj : 0 ≤ j ∧ j < 8) (hd : (addi = 1 ∨ addi = -1) ∧ (addj = 1 ∨ addj = -1))
    (hadj : (0 ≤ i + addi ∧ i + addi < 8) ∧ (0 ≤ j + addj ∧ j + addj < 8)) :
    ∀ cell ∈ create_move_cells
      ⟨j + CHAR_A, i + CHAR_1, j + addj + CHAR_A, i + addi + CHAR_1, p⟩,
      on_board cell.1 cell.2 := by
  intro cell hcell
  unfold create_move_cells at hcell
  rcases List.mem_append.mp hcell with h | h
  · exact (mem_board_cells cell).mp h
  · unfold update_board_cells capture_flag at h
    simp only at h
    rw [convert_to_index_row i hi.1 hi.2, convert_to_index_col j hj.1 hj.2,
      convert_to_index_row (i + addi) hadj.1.1 hadj.1.2,
      convert_to_index_col (j + addj) hadj.2.1 hadj.2.2] at h
    have hflag : ¬ (c_abs (j + CHAR_A - (j + addj + CHAR_A)) = CAPTURE_DIST ∧
        c_abs (i + CHAR_1 - (i + addi + CHAR_1)) = CAPTURE_DIST) := by
      unfold c_abs
      simp only [CAPTURE_DIST]
      intro hc
      have h1 := hc.1
      split at h1 <;> omega
    rw [if_neg hflag] at h
    simp only [NO_CAPTURE, ne_eq, not_true_eq_false, if_false, List.append_nil, List.mem_cons,
      List.mem_nil_iff, or_false] at h
    unfold on_board
    simp only [BOARD_SIZE]
    rcases h with h | h | h <;> rw [h] <;> simp only <;> omega

theorem create_move_cells_capture (i j addi addj p : Int) (hi : 0 ≤ i ∧ i < 8)
    (hj : 0 ≤ j ∧ j < 8) (_hd : (addi = 1 ∨ addi = -1) ∧ (addj = 1 ∨ addj = -1))
    (htwo : (0 ≤ i + 2 * addi ∧ i + 2 * addi < 8) ∧ (0 ≤ j + 2 * addj ∧ j + 2 * addj < 8)) :
    ∀ cell ∈ create_move_cells
      ⟨j + CHAR_A, i + CHAR_1, j + 2 * addj + CHAR_A, i + 2 * addi + CHAR_1, p⟩,
      on_board cell.1 cell.2 := by
  intro cell hcell
  unfold create_move_cells at hcell
  rcases List.mem_append.mp hcell with h | h
  · exact (mem_board_cells cell).mp h
  · unfold update_board_cells at h
    simp only at h
    rw [convert_to_index_row i hi.1 hi.2, convert_to_index_col j hj.1 hj.2,
      convert_to_index_row (i + 2 * addi) htwo.1.1 htwo.1.2,
      convert_to_index_col (j + 2 * addj) htwo.2.1 htwo.2.2,
      Int.tdiv_eq_ediv (by omega) (by decide), Int.tdiv_eq_ediv (by omega) (by decide)] at h
    have hmid : ∀ x ∈ (if capture_flag
          ⟨j + CHAR_A, i + CHAR_1, j + 2 * addj + CHAR_A, i + 2 * addi + CHAR_1, p⟩ ≠ 0 then
          [((i + (i + 2 * addi)) / 2, (j + (j + 2 * addj)) / 2)] else []),
        x = (i + addi, j + addj) := by
      intro x hx
      split at hx
      · rw [List.mem_singleton] at hx
        rw [hx, Prod.mk.injEq]
        omega
      · simp at hx
    unfold on_board
    simp only [BOARD_SIZE]
    rcases List.mem_append.mp h with h | h
    · simp only [List.mem_cons, List.mem_nil_iff, or_false] at h
      rcases h with h | h | h <;> rw [h] <;> simp only <;> omega
    · rw [hmid cell h]
      simp only
      omega

theorem capture_opposition_reads_on_board (i j addi addj p : Int) (hi : 0 ≤ i ∧ i < 8)
    (hj : 0 ≤ j ∧ j < 8) (_hd : (addi = 1 ∨ addi = -1) ∧ (addj = 1 ∨ addj = -1))
    (htwo : (0 ≤ i + 2 * addi ∧ i + 2 * addi < 8) ∧ (0 ≤ j + 2 * addj ∧ j + 2 * addj < 8)) :
    ∀ cell ∈ capture_opposition_reads
      ⟨j + CHAR_A, i + CHAR_1, j + 2 * addj + CHAR_A, i + 2 * addi + CHAR_1, p⟩,
      on_board cell.1 cell.2 := by
  intro cell hcell
  unfold capture_opposition_reads at hcell
  simp only at hcell
  rw [convert_to_index_row i hi.1 hi.2, convert_to_index_col j hj.1 hj.2,
    convert_to_index_row (i + 2 * addi) htwo.1.1 htwo.1.2,
    convert_to_index_col (j + 2 * addj) htwo.2.1 htwo.2.2,
    Int.tdiv_eq_ediv (by omega) (by decide), Int.tdiv_eq_ediv (by omega) (by decide),
    List.mem_singleton] at hcell
  rw [hcell]
  unfold on_board
  simp only [BOARD_SIZE]
  omega

theorem test_capture_cells_on_board (board : board_t) (p i j addi addj : Int)
    (hi : 0 ≤ i ∧ i < 8) (hj : 0 ≤ j ∧ j < 8)
    (hd : (addi = 1 ∨ addi = -1) ∧ (addj = 1 ∨ addj = -1)) :
    ∀ cell ∈ test_capture_cells board p ⟨i, j, addi, addj⟩, on_board cell.1 cell.2 := by
  intro cell hcell
  unfold test_capture_cells at hcell
  simp only [CAPTURE_DIST, BOARD_SIZE] at hcell
  split at hcell
  · rename_i hb
    have htwo : (0 ≤ i + 2 * addi ∧ i + 2 * addi < 8) ∧ (0 ≤ j + 2 * addj ∧ j + 2 * addj < 8) :=
      ⟨⟨hb.1, hb.2.1⟩, ⟨hb.2.2.2, hb.2.2.1⟩⟩
    rcases List.mem_cons.mp hcell with h | h
    · rw [h]
      unfold on_board
      simp only [BOARD_SIZE]
      omega
    · split at h
      · rcases List.mem_append.mp h with h | h
        · exact capture_opposition_reads_on_board i j addi addj p hi hj hd htwo cell h
        · split at h
          · simp at h
          · exact create_move_cells_capture i j addi addj p hi hj hd htwo cell h
      · simp at h
  · simp at hcell

theorem test_direction_cells_on_board (board : board_t) (p i j addi addj : Int)
    (hi : 0 ≤ i ∧ i < 8) (hj : 0 ≤ j ∧ j < 8)
    (hd : (addi = 1 ∨ addi = -1) ∧ (addj = 1 ∨ addj = -1)) :
    ∀ cell ∈ test_direction_cells board p ⟨i, j, addi, addj⟩, on_board cell.1 cell.2 := by
  intro cell hcell
  unfold test_direction_cells at hcell
  simp only [BOARD_SIZE] at hcell
  split at hcell
  · rename_i hb
    rcases List.mem_cons.mp hcell with h | h
    · rw [h]
      unfold on_board
      simp only [BOARD_SIZE]
      omega
    · split at h
      · exact create_move_cells_step i j addi addj p hi hj hd
          ⟨⟨hb.1, hb.2.1⟩, ⟨hb.2.2.1, hb.2.2.2⟩⟩ cell h
      · exact test_capture_cells_on_board board p i j addi addj hi hj hd cell h
  · exact test_capture_cells_on_board board p i j addi addj hi hj hd cell hcell

theorem add_options_cells_on_board (board : board_t) (p i j : Int)
    (hi : 0 ≤ i ∧ i < 8) (hj : 0 ≤ j ∧ j < 8) :
    ∀ cell ∈ add_options_cells board i j p, on_board cell.1 cell.2 := by
  intro cell hcell
  unfold add_options_cells at hcell
  rcases List.mem_cons.mp hcell with h | h
  · rw [h]
    unfold on_board
    simp only [BOARD_SIZE]
    omega
  · unfold w_move_cells b_move_cells WB_move_cells addj_range addi_range at h
    simp only [List.flatMap_cons, List.flatMap_nil, List.append_nil, WHITE_DIRECTION,
      BLACK_DIRECTION, DIRECTION_DISTANCE] at h
    split at h
    · rcases List.mem_append.mp h with h | h <;>
        exact test_direction_cells_on_board board p i j _ _ hi hj (by omega) cell h
    · split at h
      · rcases List.mem_append.mp h with h | h <;>
          exact test_direction_cells_on_board board p i j _ _ hi hj (by omega) cell h
      · split at h
        · rcases List.mem_append.mp h with h | h
          · rcases List.mem_append.mp h with h | h <;>
              exact test_direction_cells_on_board board p i j _ _ hi hj (by omega) cell h
          · rcases List.mem_append.mp h with h | h <;>
              exact test_direction_cells_on_board board p i j _ _ hi hj (by omega) cell h
        · simp at h

/-! ## Lemmas on sums over the cells -/

theorem board_cells_nodup : board_cells.Nodup := by decide

theorem sum_map_set_cell (g : Int → Int) (board : board_t) (r c v : Int)
    (l : List (Int × Int)) (hnd : l.Nodup) :
    (l.map (fun cell => g (set_cell board r c v cell.1 cell.2))).sum =
      (l.map (fun cell => g (board cell.1 cell.2))).sum +
        (if (r, c) ∈ l then g v - g (board r c) else 0) := by
  induction l with
  | nil => simp
  | cons x xs ih =>
    obtain ⟨hx, hxs⟩ := List.nodup_cons.mp hnd
    rw [List.map_cons, List.sum_cons, List.map_cons, List.sum_cons, ih hxs]
    by_cases hxe : x = (r, c)
    · subst hxe
      rw [if_neg hx, if_pos (List.mem_cons_self _ _), set_cell_same]
      simp only
      omega
    · have hne : ¬ (x.1 = r ∧ x.2 = c) := fun h => hxe (Prod.ext h.1 h.2)
      rw [set_cell_other _ _ _ _ _ _ hne]
      by_cases hmem : (r, c) ∈ xs
      · rw [if_pos hmem, if_pos (List.mem_cons_of_mem _ hmem)]
        omega
      · rw [if_neg hmem, if_neg (fun h => by
          rcases List.mem_cons.mp h with h | h
          · exact hxe h.symm
          · exact hmem h)]
        omega

theorem cells_sum_set_cell (g : Int → Int) (board : board_t) (r c v : Int)
    (h : on_board r c) :
    cells_sum g (set_cell board r c v) = cells_sum g board - g (board r c) + g v := by
  unfold cells_sum
  rw [sum_map_set_cell g board r c v board_cells board_cells_nodup,
    if_pos ((mem_board_cells (r, c)).mpr h)]
  omega

theorem update_board_general (board : board_t) (curmove : move_t) (capture : Int) :
    update_board board curmove capture =
      if capture ≠ 0 then
        set_cell
          (set_cell
            (set_cell board (convert_to_index curmove.targetrow)
              (convert_to_index curmove.targetcol)
              (target_value
                (board (convert_to_index curmove.sourcerow) (convert_to_index curmove.sourcecol))
                curmove.targetrow))
            (convert_to_index curmove.sourcerow) (convert_to_index curmove.sourcecol) CELL_EMPTY)
          (Int.tdiv (convert_to_index curmove.sourcerow + convert_to_index curmove.targetrow) 2)
          (Int.tdiv (convert_to_index curmove.sourcecol + convert_to_index curmove.targetcol) 2)
          CELL_EMPTY
      else
        set_cell
          (set_cell board (convert_to_index curmove.targetrow)
            (convert_to_index curmove.targetcol)
            (target_value
              (board (convert_to_index curmove.sourcerow) (convert_to_index curmove.sourcecol))
              curmove.targetrow))
          (convert_to_index curmove.sourcerow) (convert_to_index curmove.sourcecol) CELL_EMPTY := by
  unfold update_board target_value
  simp only
  split_ifs <;> rfl

/-- The effect of `update_board` on a sum over the cells, for a move between two distinct
cells of the board whose midpoint, when the capture flag is set, is a third cell of the
board. -/
theorem cells_sum_update_board (g : Int → Int) (board : board_t) (curmove : move_t)
    (capture : Int)
    (hs : on_board (convert_to_index curmove.sourcerow) (convert_to_index curmove.sourcecol))
    (ht : on_board (convert_to_index curmove.targetrow) (convert_to_index curmove.targetcol))
    (hne : ¬ (convert_to_index curmove.sourcerow = convert_to_index curmove.targetrow ∧
      convert_to_index curmove.sourcecol = convert_to_index curmove.targetcol))
    (hmid : capture ≠ 0 →
      on_board
        (Int.tdiv (convert_to_index curmove.sourcerow + convert_to_index curmove.targetrow) 2)
        (Int.tdiv (convert_to_index curmove.sourcecol + convert_to_index curmove.targetcol) 2) ∧
      ¬ (Int.tdiv (convert_to_index curmove.sourcerow + convert_to_index curmove.targetrow) 2
          = convert_to_index curmove.sourcerow ∧
        Int.tdiv (convert_to_index curmove.sourcecol + convert_to_index curmove.targetcol) 2
          = convert_to_index curmove.sourcecol) ∧
      ¬ (Int.tdiv (convert_to_index curmove.sourcerow + convert_to_index curmove.targetrow) 2
          = convert_to_index curmove.targetrow ∧
        Int.tdiv (convert_to_index curmove.sourcecol + convert_to_index curmove.targetcol) 2
          = convert_to_index curmove.targetcol)) :
    cells_sum g (update_board board curmove capture) =
      cells_sum g board
        - g (board (convert_to_index curmove.targetrow) (convert_to_index curmove.targetcol))
        + g (target_value
            (board (convert_to_index curmove.sourcerow) (convert_to_index curmove.sourcecol))
            curmove.targetrow)
        - g (board (convert_to_index curmove.sourcerow) (convert_to_index curmove.sourcecol))
        + g CELL_EMPTY
        + (if capture ≠ 0 then
            g CELL_EMPTY -
              g (board
                (Int.tdiv
                  (convert_to_index curmove.sourcerow + convert_to_index curmove.targetrow) 2)
                (Int.tdiv
                  (convert_to_index curmove.sourcecol + convert_to_index curmove.targetcol) 2))
          else 0) := by
  rw [update_board_general]
  by_cases hcap : capture ≠ 0
  · obtain ⟨hm, hms, hmt⟩ := hmid hcap
    rw [if_pos hcap, if_pos hcap, cells_sum_set_cell g _ _ _ _ hm,
      cells_sum_set_cell g _ _ _ _ hs, cells_sum_set_cell g _ _ _ _ ht,
      set_cell_other _ _ _ _ _ _ hms, set_cell_other _ _ _ _ _ _ hmt,
      set_cell_other _ _ _ _ _ _ hne]
    omega
  · rw [if_neg hcap, if_neg hcap, cells_sum_set_cell g _ _ _ _ hs,
      cells_sum_set_cell g _ _ _ _ ht, set_cell_other _ _ _ _ _ _ hne]
    omega

theorem calculate_cost_eq_cells_sum (board : board_t) :
    calculate_cost board = cells_sum cell_value board :=
  calculate_cost_eq_sum board

theorem countP_eq_sum (P : Int → Prop) [DecidablePred P] (board : board_t)
    (l : List (Int × Int)) :
    ((l.countP (fun cell => decide (P (board cell.1 cell.2))) : Nat) : Int) =
      (l.map (fun cell => if P (board cell.1 cell.2) then (1 : Int) else 0)).sum := by
  induction l with
  | nil => simp
  | cons x xs ih =>
    rw [List.countP_cons, List.map_cons, List.sum_cons, ← ih]
    simp only [decide_eq_true_eq]
    push_cast
    split <;> omega

theorem crowned_value (p piece tr : Int) (hown : own_piece p piece) :
    cell_value (crowned piece tr) - cell_value piece =
      mover_sign p * (if crowned piece tr = piece then 0 else 2) := by
  unfold own_piece at hown
  unfold crowned cell_value mover_sign
  simp only [CELL_BPIECE, CELL_WPIECE, CELL_BTOWER, CELL_WTOWER, COST_TOWER] at hown ⊢
  by_cases hodd : p % 2 = 1
  · rw [if_pos hodd] at hown
    rcases hown with h | h
    · subst h
      by_cases h0 : tr = 0
      · subst h0; simp [hodd]
      · simp [hodd, h0]
    · subst h
      simp [hodd]
  · rw [if_neg hodd] at hown
    rcases hown with h | h
    · subst h
      by_cases h7 : tr = 7
      · subst h7; simp [hodd]
      · simp [hodd, h7]
    · subst h
      simp [hodd]

theorem opposing_value (p c : Int) (hopp : opposing_piece p c) :
    -cell_value c = mover_sign p * piece_worth c ∧ (piece_worth c = 1 ∨ piece_worth c = 3) := by
  unfold opposing_piece at hopp
  unfold cell_value mover_sign piece_worth
  simp only [CELL_BPIECE, CELL_WPIECE, CELL_BTOWER, CELL_WTOWER, COST_TOWER, COST_PIECE] at hopp ⊢
  by_cases hodd : p % 2 = 1
  · rw [if_pos hodd] at hopp
    rcases hopp with h | h <;> subst h <;> simp [hodd]
  · rw [if_neg hodd] at hopp
    rcases hopp with h | h <;> subst h <;> simp [hodd]

theorem capture_flag_move_from (i j addi addj k p : Int)
    (hd : (addi = 1 ∨ addi = -1) ∧ (addj = 1 ∨ addj = -1)) (hk : k = 1 ∨ k = 2) :
    capture_flag (move_from i j addi addj k p) = if k = 2 then CAPTURE_OCCURS else NO_CAPTURE := by
  unfold capture_flag move_from c_abs
  simp only [CAPTURE_DIST, CAPTURE_OCCURS, NO_CAPTURE]
  rcases hk with rfl | rfl <;> rcases hd with ⟨rfl | rfl, rfl | rfl⟩ <;> simp

/-! ## Lemmas on the acceptance of generated moves -/

theorem tries_direction_not_opponent (p piece addi : Int) (h : tries_direction p piece addi) :
    piece ≠ CELL_EMPTY ∧
    ¬ ((Int.tmod p CHECK_ODDEVEN = WHITE_MOVE ∧ (piece = CELL_BTOWER ∨ piece = CELL_BPIECE)) ∨
      (Int.tmod p CHECK_ODDEVEN = BLACK_MOVE ∧ (piece = CELL_WTOWER ∨ piece = CELL_WPIECE))) := by
  unfold tries_direction at h
  simp only [BLACK_MOVE, WHITE_MOVE, CELL_BPIECE, CELL_WPIECE, CELL_BTOWER, CELL_WTOWER,
    CELL_EMPTY, BLACK_DIRECTION, WHITE_DIRECTION] at h ⊢
  rcases h with ⟨hb, ⟨h, _⟩ | h⟩ | ⟨hb, ⟨h, _⟩ | h⟩ <;> subst h <;> simp [hb]

theorem legal_input_move_from (board : board_t) (p i j addi addj k capture : Int)
    (hi : 0 ≤ i ∧ i < 8) (hj : 0 ≤ j ∧ j < 8)
    (hd : (addi = 1 ∨ addi = -1) ∧ (addj = 1 ∨ addj = -1))
    (ht : tries_direction p (board i j) addi)
    (hk : k = 1 ∨ (k = 2 ∧ capture_opposition board (move_from i j addi addj 2 p) ≠ 0))
    (hon : on_board (i + k * addi) (j + k * addj))
    (hempty : board (i + k * addi) (j + k * addj) = CELL_EMPTY) :
    legal_input board (move_from i j addi addj k p) capture =
      ⟨1, capture_flag (move_from i j addi addj k p), []⟩ := by
  obtain ⟨hne, hopp⟩ := tries_direction_not_opponent p (board i j) addi ht
  have hflag := capture_flag_move_from i j addi addj k p hd (by rcases hk with h | h; exact Or.inl h; exact Or.inr h.1)
  rw [hflag]
  unfold on_board at hon
  simp only [BOARD_SIZE] at hon
  have hvm : valid_move board (move_from i j addi addj k p) capture =
      ⟨1, if k = 2 then CAPTURE_OCCURS else NO_CAPTURE, []⟩ := by
    unfold valid_move
    simp only [move_from]
    simp only [convert_to_index_row i hi.1 hi.2, convert_to_index_col j hj.1 hj.2,
      convert_to_index_row (i + k * addi) hon.1 hon.2.1,
      convert_to_index_col (j + k * addj) hon.2.2.1 hon.2.2.2]
    unfold c_abs
    simp only [CAPTURE_DIST, MOVE_DIST]
    rcases hk with rfl | ⟨rfl, hcap⟩
    · rcases hd with ⟨rfl | rfl, rfl | rfl⟩ <;> simp
    · have hcap2 : capture_opposition board
          ⟨j + CHAR_A, i + CHAR_1, j + 2 * addj + CHAR_A, i + 2 * addi + CHAR_1, p⟩ ≠ 0 := hcap
      rw [if_neg hcap2]
      rcases hd with ⟨rfl | rfl, rfl | rfl⟩ <;> simp
  unfold legal_input
  rw [hvm]
  simp only [move_from]
  simp only [convert_to_index_row i hi.1 hi.2, convert_to_index_col j hj.1 hj.2,
    convert_to_index_row (i + k * addi) hon.1 hon.2.1,
    convert_to_index_col (j + k * addj) hon.2.2.1 hon.2.2.2]
  rw [if_neg (by simp only [SENTINEL]; omega), if_neg (by simp only [SENTINEL]; omega),
    if_neg hne, if_neg (by simp [hempty]), if_neg hopp, if_neg (by simp)]

/-- Every option of the generator is accepted by `legal_input`, with the capture flag of
`create_move` and no message. -/
theorem legal_input_of_mem (board : board_t) (p capture : Int) (opt : decision_node_t)
    (hopt : opt ∈ possible_moves board p) :
    legal_input board opt.move capture = ⟨1, capture_flag opt.move, []⟩ := by
  obtain ⟨i, j, addi, addj, hi, hj, hd, ht, hmem⟩ := (mem_possible_moves board p opt).mp hopt
  rcases (mem_test_direction board p i j addi addj opt).mp hmem with
    ⟨hon, hempty, rfl⟩ | ⟨_, hon, hempty, hcap, rfl⟩
  · rw [create_move_move]
    exact legal_input_move_from board p i j addi addj 1 capture hi hj hd ht (Or.inl rfl)
      (by simpa using hon) (by simpa using hempty)
  · rw [create_move_move]
    exact legal_input_move_from board p i j addi addj 2 capture hi hj hd ht (Or.inr ⟨rfl, hcap⟩)
      hon hempty

/-- The move `find_move` writes for a root with an option is the move of one of the
root's children. -/
theorem find_move_best_mem (root : decision_node_t) (best_move : move_t)
    (hopt : root.options ≠ NO_OPTIONS) :
    (find_move root best_move).2 ∈ root.next_move.map decision_node_t.move := by
  obtain ⟨hnext, hcost, hsel⟩ := find_move_root root best_move hopt
  have hne : root.next_move.map (fun c => recur_fill_costs c (INITIAL_DEPTH + 1)) ≠ [] := by
    intro h
    apply hopt
    unfold decision_node_t.options
    rw [List.map_eq_nil_iff.mp h]
    rfl
  have hbounds : ∀ x ∈ root.next_move.map (fun c => recur_fill_costs c (INITIAL_DEPTH + 1)),
      INT_MIN ≤ x.minimax_cost ∧ x.minimax_cost ≤ INT_MAX := by
    intro x hx
    obtain ⟨c, _, rfl⟩ := List.mem_map.mp hx
    exact recur_fill_costs_bounds c _
  have hmem : (find_move root best_move).1.minimax_cost ∈
      ((find_move root best_move).1.next_move).map decision_node_t.minimax_cost := by
    rw [hcost, hnext]
    unfold propagated
    split
    · exact (foldl_propagate_max_is_maximum _ hne (fun x hx => (hbounds x hx).1)).1
    · exact (foldl_propagate_min_is_minimum _ hne (fun x hx => (hbounds x hx).2)).1
  obtain ⟨c0, hc0, hc0cost⟩ := List.mem_map.mp hmem
  cases hfind : (find_move root best_move).1.next_move.find?
      (fun child => child.minimax_cost == (find_move root best_move).1.minimax_cost) with
  | none =>
    rw [List.find?_eq_none] at hfind
    exact absurd (by simpa using hc0cost) (hfind c0 hc0)
  | some child =>
    have hbest : (find_move root best_move).2 = child.move := by
      rw [hsel]
      unfold select_move
      rw [hfind]
    have hchild := List.mem_of_find?_eq_some hfind
    rw [hnext] at hchild
    obtain ⟨c, hc, rfl⟩ := List.mem_map.mp hchild
    rw [hbest, recur_fill_costs_move]
    exact List.mem_map.mpr ⟨c, hc, rfl⟩

theorem possible_moves_movenum (board : board_t) (p : Int) (opt : decision_node_t)
    (hopt : opt ∈ possible_moves board p) : opt.move.movenum = p := by
  obtain ⟨i, j, addi, addj, _, _, _, _, hmem⟩ := (mem_possible_moves board p opt).mp hopt
  rcases move_of_mem_test_direction board p i j addi addj opt hmem with h | h <;> rw [h] <;> rfl

/-- The round of the program on a board with an option: the move chosen by `find_move`,
with the move number of the round, is the move of an option of the board; `legal_input`
accepts it and the round returns 1 with the board of that option. -/
theorem play_round_option (board : board_t) (p : Int) (root_init : decision_node_t)
    (best_init : move_t) (hopt : (possible_moves board p).length ≠ 0) :
    ∃ opt ∈ possible_moves board p,
      round_best_move board p root_init best_init = opt.move ∧
      play_round board p 0 root_init best_init =
        ⟨1, opt.board, [message.MOVE MOVE_COMPUTED opt.move (calculate_cost opt.board)]⟩ := by
  have hnext : (recursive_addlayers
      (decision_node_t.mk (copy_board board) root_init.minimax_cost root_init.move
        root_init.next_move) p INITIAL_DEPTH).next_move =
      (possible_moves board p).map
        (fun child => recursive_addlayers child (wrap_int (p + 1)) (INITIAL_DEPTH + 1)) :=
    recursive_addlayers_next_move _ p INITIAL_DEPTH (by decide)
  have hopt1 : (recursive_addlayers
      (decision_node_t.mk (copy_board board) root_init.minimax_cost root_init.move
        root_init.next_move) p INITIAL_DEPTH).options ≠ NO_OPTIONS := by
    unfold decision_node_t.options
    rw [hnext, List.length_map]
    simp only [NO_OPTIONS]
    omega
  have hbest := find_move_best_mem _ best_init hopt1
  obtain ⟨hfnext, _, _⟩ := find_move_root _ best_init hopt1
  rw [hnext, List.map_map] at hbest
  obtain ⟨opt, hmem, hmove⟩ := List.mem_map.mp hbest
  have hgo : game_over (find_move (recursive_addlayers
      (decision_node_t.mk (copy_board board) root_init.minimax_cost root_init.move
        root_init.next_move) p INITIAL_DEPTH) best_init).1 = 0 := by
    unfold game_over
    rw [if_neg]
    unfold decision_node_t.options
    rw [hfnext, hnext, List.length_map, List.length_map]
    simp only [NO_OPTIONS]
    omega
  have hcoords := recursive_addlayers_coords opt (wrap_int (p + 1)) (INITIAL_DEPTH + 1)
  have hnum := possible_moves_movenum board p opt hmem
  have hmv : (⟨(find_move (recursive_addlayers
        (decision_node_t.mk (copy_board board) root_init.minimax_cost root_init.move
          root_init.next_move) p INITIAL_DEPTH) best_init).2.sourcecol,
      (find_move (recursive_addlayers
        (decision_node_t.mk (copy_board board) root_init.minimax_cost root_init.move
          root_init.next_move) p INITIAL_DEPTH) best_init).2.sourcerow,
      (find_move (recursive_addlayers
        (decision_node_t.mk (copy_board board) root_init.minimax_cost root_init.move
          root_init.next_move) p INITIAL_DEPTH) best_init).2.targetcol,
      (find_move (recursive_addlayers
        (decision_node_t.mk (copy_board board) root_init.minimax_cost root_init.move
          root_init.next_move) p INITIAL_DEPTH) best_init).2.targetrow, p⟩ : move_t) =
      opt.move := by
    rw [← hmove]
    simp only [Function.comp_apply]
    rw [hcoords.1, hcoords.2.1, hcoords.2.2.1, hcoords.2.2.2, ← hnum]
  refine ⟨opt, hmem, hmv, ?_⟩
  have hlegal := legal_input_of_mem board p NO_CAPTURE opt hmem
  simp only [play_round, hmv, hgo, hlegal]
  rw [if_neg (by decide), if_neg (by decide), if_neg (by decide), if_neg (by decide),
    ← possible_moves_board board p opt hmem]
  rfl

/-- The capture flag of an option is 1 exactly for the two-step moves. -/
theorem capture_flag_of_mem (board : board_t) (p : Int) (opt : decision_node_t)
    (hopt : opt ∈ possible_moves board p) :
    (capture_flag opt.move = CAPTURE_OCCURS ∧
      diagonal_distance 2 (convert_to_index opt.move.sourcerow)
        (convert_to_index opt.move.sourcecol) (convert_to_index opt.move.targetrow)
        (convert_to_index opt.move.targetcol)) ∨
    (capture_flag opt.move = NO_CAPTURE ∧
      diagonal_distance 1 (convert_to_index opt.move.sourcerow)
        (convert_to_index opt.move.sourcecol) (convert_to_index opt.move.targetrow)
        (convert_to_index opt.move.targetcol)) := by
  obtain ⟨i, j, addi, addj, hi, hj, hd, _, hmem⟩ := (mem_possible_moves board p opt).mp hopt
  rcases (mem_test_direction board p i j addi addj opt).mp hmem with
    ⟨hon, _, rfl⟩ | ⟨_, hon, _, _, rfl⟩
  · right
    unfold on_board at hon
    simp only [BOARD_SIZE] at hon
    rw [create_move_move, capture_flag_move_from i j addi addj 1 p hd (Or.inl rfl)]
    simp only [move_from, one_mul, convert_to_index_row i hi.1 hi.2,
      convert_to_index_col j hj.1 hj.2, convert_to_index_row (i + addi) hon.1 hon.2.1,
      convert_to_index_col (j + addj) hon.2.2.1 hon.2.2.2]
    refine ⟨by decide, ?_⟩
    unfold diagonal_distance
    omega
  · left
    unfold on_board at hon
    simp only [BOARD_SIZE] at hon
    rw [create_move_move, capture_flag_move_from i j addi addj 2 p hd (Or.inr rfl)]
    simp only [move_from, convert_to_index_row i hi.1 hi.2,
      convert_to_index_col j hj.1 hj.2, convert_to_index_row (i + 2 * addi) hon.1 hon.2.1,
      convert_to_index_col (j + 2 * addj) hon.2.2.1 hon.2.2.2]
    refine ⟨by decide, ?_⟩
    unfold diagonal_distance
    omega

/-! ## Lemmas on the material change of a move -/

theorem material_gain_move_from (board : board_t) (p i j addi addj k : Int)
    (hi : 0 ≤ i ∧ i < 8) (hj : 0 ≤ j ∧ j < 8)
    (hd : (addi = 1 ∨ addi = -1) ∧ (addj = 1 ∨ addj = -1)) (hk : k = 1 ∨ k = 2)
    (hon : on_board (i + k * addi) (j + k * addj)) :
    material_gain board (move_from i j addi addj k p) =
      (if crowned (board i j) (i + k * addi) = board i j then 0 else 2) +
        (if k = 2 then piece_worth (board (i + addi) (j + addj)) else 0) := by
  unfold on_board at hon
  simp only [BOARD_SIZE] at hon
  unfold material_gain
  rw [capture_flag_move_from i j addi addj k p hd hk]
  simp only [move_from, convert_to_index_row i hi.1 hi.2, convert_to_index_col j hj.1 hj.2,
    convert_to_index_row (i + k * addi) hon.1 hon.2.1,
    convert_to_index_col (j + k * addj) hon.2.2.1 hon.2.2.2]
  rcases hk with rfl | rfl
  · simp
  · have h1 : (i + (i + 2 * addi)) / 2 = i + addi := by omega
    have h2 : (j + (j + 2 * addj)) / 2 = j + addj := by omega
    rw [h1, h2]
    simp

theorem calculate_cost_move_from (board : board_t) (p i j addi addj k : Int)
    (hi : 0 ≤ i ∧ i < 8) (hj : 0 ≤ j ∧ j < 8)
    (hd : (addi = 1 ∨ addi = -1) ∧ (addj = 1 ∨ addj = -1)) (hk : k = 1 ∨ k = 2)
    (hon : on_board (i + k * addi) (j + k * addj))
    (hempty : board (i + k * addi) (j + k * addj) = CELL_EMPTY) :
    calculate_cost (update_board board (move_from i j addi addj k p)
        (capture_flag (move_from i j addi addj k p))) =
      calculate_cost board +
        (cell_value (crowned (board i j) (i + k * addi)) - cell_value (board i j)) +
        (if k = 2 then -cell_value (board (i + addi) (j + addj)) else 0) := by
  have hs : on_board i j := by unfold on_board; simp only [BOARD_SIZE]; omega
  have hon2 := hon
  unfold on_board at hon2
  simp only [BOARD_SIZE] at hon2
  have hne : ¬ (i = i + k * addi ∧ j = j + k * addj) := by
    rcases hk with rfl | rfl <;> omega
  have hE : cell_value CELL_EMPTY = 0 := by decide
  rw [capture_flag_move_from i j addi addj k p hd hk]
  unfold move_from
  rw [update_board_eq board i j (i + k * addi) (j + k * addj) p _ hs hon,
    calculate_cost_eq_cells_sum, calculate_cost_eq_cells_sum]
  rcases hk with rfl | rfl
  · rw [if_neg (by decide), if_neg (by decide), cells_sum_set_cell _ _ _ _ _ hs,
      cells_sum_set_cell _ _ _ _ _ hon, set_cell_other _ _ _ _ _ _ hne, hempty, hE]
    omega
  · have h1 : (i + (i + 2 * addi)) / 2 = i + addi := by omega
    have h2 : (j + (j + 2 * addj)) / 2 = j + addj := by omega
    have hmid : on_board (i + addi) (j + addj) := by
      unfold on_board; simp only [BOARD_SIZE]; omega
    have hms : ¬ (i + addi = i ∧ j + addj = j) := by omega
    have hmt : ¬ (i + addi = i + 2 * addi ∧ j + addj = j + 2 * addj) := by omega
    rw [if_pos (by decide), if_pos (by decide), h1, h2,
      cells_sum_set_cell _ _ _ _ _ hmid,
      cells_sum_set_cell _ _ _ _ _ hs, cells_sum_set_cell _ _ _ _ _ hon,
      set_cell_other _ _ _ _ _ _ hms, set_cell_other _ _ _ _ _ _ hmt,
      set_cell_other _ _ _ _ _ _ hne, hempty, hE]
    omega

/-- The change of `calculate_cost` from a board to the board of one of its options. -/
theorem calculate_cost_option (board : board_t) (p : Int) (hwf : well_formed board)
    (hp : 0 ≤ p) (opt : decision_node_t) (hopt : opt ∈ possible_moves board p) :
    calculate_cost opt.board - calculate_cost board =
        mover_sign p * material_gain board opt.move ∧
      0 ≤ material_gain board opt.move ∧
      (capture_flag opt.move = CAPTURE_OCCURS →
        opposing_piece p
          (board ((convert_to_index opt.move.sourcerow + convert_to_index opt.move.targetrow) / 2)
            ((convert_to_index opt.move.sourcecol + convert_to_index opt.move.targetcol) / 2))) := by
  obtain ⟨i, j, addi, addj, hi, hj, hd, ht, hmem⟩ := (mem_possible_moves board p opt).mp hopt
  have hown := tries_direction_own_piece p (board i j) addi hp ht
  rcases (mem_test_direction board p i j addi addj opt).mp hmem with
    ⟨hon, hempty, rfl⟩ | ⟨hnot, hon, hempty, hcap, rfl⟩
  · have hon1 : on_board (i + 1 * addi) (j + 1 * addj) := by simpa using hon
    have hempty1 : board (i + 1 * addi) (j + 1 * addj) = CELL_EMPTY := by simpa using hempty
    have hcost := calculate_cost_move_from board p i j addi addj 1 hi hj hd (Or.inl rfl)
      hon1 hempty1
    have hgain := material_gain_move_from board p i j addi addj 1 hi hj hd (Or.inl rfl) hon1
    have hflag := capture_flag_move_from i j addi addj 1 p hd (Or.inl rfl)
    have hval := crowned_value p (board i j) (i + 1 * addi) hown
    have h12 : ¬ ((1 : Int) = 2) := by decide
    rw [if_neg h12] at hcost hgain hflag
    rw [create_move_move, hgain, hflag]
    refine ⟨?_, ?_, ?_⟩
    · show calculate_cost (update_board board (move_from i j addi addj 1 p)
          (capture_flag (move_from i j addi addj 1 p))) - calculate_cost board = _
      rw [hcost]
      simp only [add_zero]
      rw [← hval]
      omega
    · split <;> simp
    · intro h
      simp at h
  · have hon' := hon
    unfold on_board at hon'
    simp only [BOARD_SIZE] at hon'
    have hadj : on_board (i + addi) (j + addj) := by
      unfold on_board; simp only [BOARD_SIZE]; omega
    have hadj' : (0 ≤ i + addi ∧ i + addi < 8) ∧ (0 ≤ j + addj ∧ j + addj < 8) := by omega
    have hne : board (i + addi) (j + addj) ≠ CELL_EMPTY := fun h => hnot ⟨hadj, h⟩
    have hcell : board (i + addi) (j + addj) = CELL_BPIECE ∨
        board (i + addi) (j + addj) = CELL_WPIECE ∨
        board (i + addi) (j + addj) = CELL_BTOWER ∨
        board (i + addi) (j + addj) = CELL_WTOWER := by
      rcases well_formed_cell board hwf _ _ hadj'.1 hadj'.2 with h | h
      · exact absurd h hne
      · exact h
    have hopp := (capture_opposition_iff_opposing board p i j addi addj hp hi hj hon hcell).mp hcap
    obtain ⟨hworth, hrange⟩ := opposing_value p _ hopp
    have hcost := calculate_cost_move_from board p i j addi addj 2 hi hj hd (Or.inr rfl)
      hon hempty
    have hgain := material_gain_move_from board p i j addi addj 2 hi hj hd (Or.inr rfl) hon
    have hval := crowned_value p (board i j) (i + 2 * addi) hown
    have h22 : (2 : Int) = 2 := rfl
    rw [if_pos h22] at hcost hgain
    rw [create_move_move, hgain]
    refine ⟨?_, ?_, ?_⟩
    · show calculate_cost (update_board board (move_from i j addi addj 2 p)
          (capture_flag (move_from i j addi addj 2 p))) - calculate_cost board = _
      rw [hcost, hworth, mul_add, ← hval]
      omega
    · split <;> omega
    · intro _
      simp only [move_from, convert_to_index_row i hi.1 hi.2, convert_to_index_col j hj.1 hj.2,
        convert_to_index_row (i + 2 * addi) hon'.1 hon'.2.1,
        convert_to_index_col (j + 2 * addj) hon'.2.2.1 hon'.2.2.2]
      have h1 : (i + (i + 2 * addi)) / 2 = i + addi := by omega
      have h2 : (j + (j + 2 * addj)) / 2 = j + addj := by omega
      rw [h1, h2]
      exact hopp

/-! ## Lemmas on the piece counts -/

theorem convert_to_index_range (x : Int) :
    convert_to_index x = SENTINEL ∨ (0 ≤ convert_to_index x ∧ convert_to_index x < 8) := by
  unfold convert_to_index
  simp only [CHAR_A, CHAR_H, CHAR_1, CHAR_8, SENTINEL]
  split_ifs <;> omega

/-- What `legal_input` has checked when it accepts a move. -/
theorem legal_input_accepted (board : board_t) (mv : move_t) (capture : Int)
    (h : (legal_input board mv capture).ret ≠ 0) :
    on_board (convert_to_index mv.sourcerow) (convert_to_index mv.sourcecol) ∧
    on_board (convert_to_index mv.targetrow) (convert_to_index mv.targetcol) ∧
    board (convert_to_index mv.sourcerow) (convert_to_index mv.sourcecol) ≠ CELL_EMPTY ∧
    board (convert_to_index mv.targetrow) (convert_to_index mv.targetcol) = CELL_EMPTY ∧
    ¬ ((Int.tmod mv.movenum CHECK_ODDEVEN = WHITE_MOVE ∧
        (board (convert_to_index mv.sourcerow) (convert_to_index mv.sourcecol) = CELL_BTOWER ∨
          board (convert_to_index mv.sourcerow) (convert_to_index mv.sourcecol) = CELL_BPIECE)) ∨
      (Int.tmod mv.movenum CHECK_ODDEVEN = BLACK_MOVE ∧
        (board (convert_to_index mv.sourcerow) (convert_to_index mv.sourcecol) = CELL_WTOWER ∨
          board (convert_to_index mv.sourcerow) (convert_to_index mv.sourcecol) = CELL_WPIECE))) ∧
    ((c_abs (convert_to_index mv.sourcerow - convert_to_index mv.targetrow) = CAPTURE_DIST ∧
        c_abs (convert_to_index mv.sourcecol - convert_to_index mv.targetcol) = CAPTURE_DIST ∧
        capture_opposition board mv ≠ 0 ∧
        (legal_input board mv capture).capture = CAPTURE_OCCURS) ∨
      (c_abs (convert_to_index mv.sourcerow - convert_to_index mv.targetrow) = MOVE_DIST ∧
        c_abs (convert_to_index mv.sourcecol - convert_to_index mv.targetcol) = MOVE_DIST ∧
        (legal_input board mv capture).capture = NO_CAPTURE)) := by
  unfold legal_input at h ⊢
  simp only at h ⊢
  by_cases h1 : convert_to_index mv.sourcerow = SENTINEL ∨ convert_to_index mv.sourcecol = SENTINEL
  · rw [if_pos h1] at h
    exact absurd rfl h
  rw [if_neg h1] at h ⊢
  by_cases h2 : convert_to_index mv.targetrow = SENTINEL ∨ convert_to_index mv.targetcol = SENTINEL
  · rw [if_pos h2] at h
    exact absurd rfl h
  rw [if_neg h2] at h ⊢
  by_cases h3 : board (convert_to_index mv.sourcerow) (convert_to_index mv.sourcecol) = CELL_EMPTY
  · rw [if_pos h3] at h
    exact absurd rfl h
  rw [if_neg h3] at h ⊢
  by_cases h4 : board (convert_to_index mv.targetrow) (convert_to_index mv.targetcol) ≠ CELL_EMPTY
  · rw [if_pos h4] at h
    exact absurd rfl h
  rw [if_neg h4] at h ⊢
  by_cases h5 : (Int.tmod mv.movenum CHECK_ODDEVEN = WHITE_MOVE ∧
        (board (convert_to_index mv.sourcerow) (convert_to_index mv.sourcecol) = CELL_BTOWER ∨
          board (convert_to_index mv.sourcerow) (convert_to_index mv.sourcecol) = CELL_BPIECE)) ∨
      (Int.tmod mv.movenum CHECK_ODDEVEN = BLACK_MOVE ∧
        (board (convert_to_index mv.sourcerow) (convert_to_index mv.sourcecol) = CELL_WTOWER ∨
          board (convert_to_index mv.sourcerow) (convert_to_index mv.sourcecol) = CELL_WPIECE))
  · rw [if_pos h5] at h
    exact absurd rfl h
  rw [if_neg h5] at h ⊢
  have hrange : ∀ x, convert_to_index x ≠ SENTINEL →
      0 ≤ convert_to_index x ∧ convert_to_index x < 8 := by
    intro x hx
    rcases convert_to_index_range x with h | h
    · exact absurd h hx
    · exact h
  have hsr := hrange mv.sourcerow (fun hx => h1 (Or.inl hx))
  have hsc := hrange mv.sourcecol (fun hx => h1 (Or.inr hx))
  have htr := hrange mv.targetrow (fun hx => h2 (Or.inl hx))
  have htc := hrange mv.targetcol (fun hx => h2 (Or.inr hx))
  refine ⟨by unfold on_board; simp only [BOARD_SIZE]; omega,
    by unfold on_board; simp only [BOARD_SIZE]; omega, h3, not_not.mp h4, h5, ?_⟩
  by_cases h6 : (valid_move board mv capture).ret = 0
  · rw [if_pos h6] at h
    exact absurd h6 h
  rw [if_neg h6]
  simp only
  unfold valid_move at h6 ⊢
  simp only at h6 ⊢
  by_cases h7 : c_abs (convert_to_index mv.sourcerow - convert_to_index mv.targetrow)
        = CAPTURE_DIST ∧
      c_abs (convert_to_index mv.sourcecol - convert_to_index mv.targetcol) = CAPTURE_DIST
  · rw [if_pos h7] at h6 ⊢
    by_cases h8 : capture_opposition board mv = 0
    · rw [if_pos h8] at h6
      exact absurd rfl h6
    · rw [if_neg h8]
      exact Or.inl ⟨h7.1, h7.2, h8, rfl⟩
  · rw [if_neg h7] at h6 ⊢
    by_cases h9 : c_abs (convert_to_index mv.sourcerow - convert_to_index mv.targetrow)
          = MOVE_DIST ∧
        c_abs (convert_to_index mv.sourcecol - convert_to_index mv.targetcol) = MOVE_DIST
    · rw [if_pos h9]
      exact Or.inr ⟨h9.1, h9.2, rfl⟩
    · rw [if_neg h9] at h6
      exact absurd rfl h6

theorem own_piece_cases (p c : Int) (h : own_piece p c) :
    c = CELL_BPIECE ∨ c = CELL_WPIECE ∨ c = CELL_BTOWER ∨ c = CELL_WTOWER := by
  unfold own_piece at h
  split at h <;> rcases h with h | h <;> simp [h]

theorem own_not_opposing (p c : Int) (h : own_piece p c) : ¬ opposing_piece p c := by
  unfold own_piece at h
  unfold opposing_piece
  simp only [CELL_BPIECE, CELL_WPIECE, CELL_BTOWER, CELL_WTOWER] at h ⊢
  split at h <;> rename_i hodd <;> rcases h with h | h <;> subst h <;> simp [hodd]

theorem empty_not_piece (p : Int) :
    ¬ own_piece p CELL_EMPTY ∧ ¬ opposing_piece p CELL_EMPTY := by
  unfold own_piece opposing_piece
  simp only [CELL_BPIECE, CELL_WPIECE, CELL_BTOWER, CELL_WTOWER, CELL_EMPTY]
  constructor <;> split <;> simp

theorem target_value_own (p piece targetrow : Int) (h : own_piece p piece) :
    own_piece p (target_value piece targetrow) := by
  unfold own_piece at h ⊢
  unfold target_value promote_piece
  simp only [CELL_BPIECE, CELL_WPIECE, CELL_BTOWER, CELL_WTOWER, CHAR_1, CHAR_8] at h ⊢
  by_cases hodd : p % 2 = 1
  · rw [if_pos hodd] at h ⊢
    rcases h with h | h <;> subst h
    · by_cases hr : targetrow = 49 <;> simp [hr]
    · simp
  · rw [if_neg hodd] at h ⊢
    rcases h with h | h <;> subst h
    · by_cases hr : targetrow = 56 <;> simp [hr]
    · simp

/-- The piece `legal_input` lets move at a move number `≥ 0` on a well-formed board is
one of the side to move. -/
theorem accepted_source_own (p piece : Int) (hp : 0 ≤ p)
    (hcell : piece = CELL_EMPTY ∨ piece = CELL_BPIECE ∨ piece = CELL_WPIECE ∨
      piece = CELL_BTOWER ∨ piece = CELL_WTOWER)
    (hne : piece ≠ CELL_EMPTY)
    (hopp : ¬ ((Int.tmod p CHECK_ODDEVEN = WHITE_MOVE ∧
        (piece = CELL_BTOWER ∨ piece = CELL_BPIECE)) ∨
      (Int.tmod p CHECK_ODDEVEN = BLACK_MOVE ∧
        (piece = CELL_WTOWER ∨ piece = CELL_WPIECE)))) :
    own_piece p piece := by
  rw [tmod_two_of_nonneg p hp] at hopp
  unfold own_piece
  simp only [CELL_BPIECE, CELL_WPIECE, CELL_BTOWER, CELL_WTOWER, CELL_EMPTY, WHITE_MOVE,
    BLACK_MOVE] at hcell hne hopp ⊢
  by_cases hodd : p % 2 = 1
  · rw [if_pos hodd]
    rcases hcell with h | h | h | h | h <;> subst h <;> simp [hodd] at hne hopp ⊢
  · have heven : p % 2 = 0 := by omega
    rw [if_neg hodd]
    rcases hcell with h | h | h | h | h <;> subst h <;> simp [heven] at hne hopp ⊢

/-- The cell `capture_opposition` lets a move jump at a move number `≥ 0` holds no piece
of the side to move. -/
theorem capture_opposition_not_own (board : board_t) (mv : move_t) (hp : 0 ≤ mv.movenum)
    (h : capture_opposition board mv ≠ 0) :
    ¬ own_piece mv.movenum
      (board (Int.tdiv (convert_to_index mv.sourcerow + convert_to_index mv.targetrow) 2)
        (Int.tdiv (convert_to_index mv.sourcecol + convert_to_index mv.targetcol) 2)) := by
  unfold capture_opposition at h
  simp only at h
  rw [tmod_two_of_nonneg mv.movenum hp] at h
  unfold own_piece
  simp only [BLACK_MOVE, WHITE_MOVE] at h
  intro hown
  apply h
  by_cases hodd : mv.movenum % 2 = 1
  · rw [if_pos hodd] at hown
    rw [if_pos ⟨hodd, hown.symm⟩]
  · have heven : mv.movenum % 2 = 0 := by omega
    rw [if_neg hodd] at hown
    rw [if_neg (fun hc => hodd hc.1), if_pos ⟨heven, hown.symm⟩]

theorem count_own_eq_cells_sum (board : board_t) (p : Int) :
    (count_own board p : Int) = cells_sum (fun c => if own_piece p c then 1 else 0) board :=
  countP_eq_sum (own_piece p) board board_cells

theorem count_opposing_eq_cells_sum (board : board_t) (p : Int) :
    (count_opposing board p : Int) =
      cells_sum (fun c => if opposing_piece p c then 1 else 0) board :=
  countP_eq_sum (opposing_piece p) board board_cells

theorem well_formed_set_cell (board : board_t) (r c v : Int) (hwf : well_formed board)
    (hv : v = CELL_EMPTY ∨ v = CELL_BPIECE ∨ v = CELL_WPIECE ∨ v = CELL_BTOWER ∨
      v = CELL_WTOWER) : well_formed (set_cell board r c v) := by
  intro x hx y hy
  unfold set_cell
  split
  · exact hv
  · exact hwf x hx y hy

/-- The effect on the board and on the piece counts of a move that `legal_input` accepts
at a move number `≥ 0` on a well-formed board. -/
theorem update_board_accepted (board : board_t) (mv : move_t) (capture : Int)
    (hwf : well_formed board) (hp : 0 ≤ mv.movenum)
    (hacc : (legal_input board mv capture).ret ≠ 0) :
    well_formed (update_board board mv (legal_input board mv capture).capture) ∧
    count_own (update_board board mv (legal_input board mv capture).capture) mv.movenum =
      count_own board mv.movenum ∧
    count_opposing (update_board board mv (legal_input board mv capture).capture) mv.movenum ≤
      count_opposing board mv.movenum ∧
    count_opposing board mv.movenum ≤
      count_opposing (update_board board mv (legal_input board mv capture).capture)
        mv.movenum + 1 := by
  obtain ⟨hs, ht, hne, hempty, hopp, hkind⟩ := legal_input_accepted board mv capture hacc
  have hs2 := hs
  have ht2 := ht
  unfold on_board at hs2 ht2
  simp only [BOARD_SIZE] at hs2 ht2
  have hown : own_piece mv.movenum
      (board (convert_to_index mv.sourcerow) (convert_to_index mv.sourcecol)) :=
    accepted_source_own mv.movenum _ hp
      (well_formed_cell board hwf _ _ ⟨hs2.1, hs2.2.1⟩ ⟨hs2.2.2.1, hs2.2.2.2⟩) hne hopp
  have htv := target_value_own mv.movenum _ mv.targetrow hown
  have hdiff : ¬ (convert_to_index mv.sourcerow = convert_to_index mv.targetrow ∧
      convert_to_index mv.sourcecol = convert_to_index mv.targetcol) := by
    intro hc
    rcases hkind with ⟨h, _⟩ | ⟨h, _⟩ <;> rw [hc.1] at h <;> simp [c_abs] at h
  have hmid : (legal_input board mv capture).capture ≠ 0 →
      on_board
        (Int.tdiv (convert_to_index mv.sourcerow + convert_to_index mv.targetrow) 2)
        (Int.tdiv (convert_to_index mv.sourcecol + convert_to_index mv.targetcol) 2) ∧
      ¬ (Int.tdiv (convert_to_index mv.sourcerow + convert_to_index mv.targetrow) 2
          = convert_to_index mv.sourcerow ∧
        Int.tdiv (convert_to_index mv.sourcecol + convert_to_index mv.targetcol) 2
          = convert_to_index mv.sourcecol) ∧
      ¬ (Int.tdiv (convert_to_index mv.sourcerow + convert_to_index mv.targetrow) 2
          = convert_to_index mv.targetrow ∧
        Int.tdiv (convert_to_index mv.sourcecol + convert_to_index mv.targetcol) 2
          = convert_to_index mv.targetcol) := by
    intro hcap
    rcases hkind with ⟨h1, h2, _, _⟩ | ⟨_, _, h⟩
    · rw [Int.tdiv_eq_ediv (by omega) (by decide), Int.tdiv_eq_ediv (by omega) (by decide)]
      unfold c_abs at h1 h2
      simp only [CAPTURE_DIST] at h1 h2
      unfold on_board
      simp only [BOARD_SIZE]
      split at h1 <;> split at h2 <;> omega
    · rw [h] at hcap
      exact absurd rfl hcap
  have hmidown : (legal_input board mv capture).capture ≠ 0 →
      ¬ own_piece mv.movenum
        (board (Int.tdiv (convert_to_index mv.sourcerow + convert_to_index mv.targetrow) 2)
          (Int.tdiv (convert_to_index mv.sourcecol + convert_to_index mv.targetcol) 2)) := by
    intro hcap
    rcases hkind with ⟨_, _, h, _⟩ | ⟨_, _, h⟩
    · exact capture_opposition_not_own board mv hp h
    · rw [h] at hcap
      exact absurd rfl hcap
  have hE := empty_not_piece mv.movenum
  have hno := own_not_opposing mv.movenum _ hown
  have hno2 := own_not_opposing mv.movenum _ htv
  refine ⟨?_, ?_, ?_⟩
  · rw [update_board_general]
    have htvc := own_piece_cases _ _ htv
    split
    · exact well_formed_set_cell _ _ _ _
        (well_formed_set_cell _ _ _ _ (well_formed_set_cell _ _ _ _ hwf (Or.inr htvc))
          (Or.inl rfl)) (Or.inl rfl)
    · exact well_formed_set_cell _ _ _ _ (well_formed_set_cell _ _ _ _ hwf (Or.inr htvc))
        (Or.inl rfl)
  · have hsum := cells_sum_update_board (fun c => if own_piece mv.movenum c then (1 : Int) else 0)
      board mv (legal_input board mv capture).capture hs ht hdiff hmid
    simp only at hsum
    rw [hempty, if_neg hE.1, if_pos htv, if_pos hown] at hsum
    have hzero : (if (legal_input board mv capture).capture ≠ 0 then
        (0 : Int) - (if own_piece mv.movenum
          (board (Int.tdiv (convert_to_index mv.sourcerow + convert_to_index mv.targetrow) 2)
            (Int.tdiv (convert_to_index mv.sourcecol + convert_to_index mv.targetcol) 2))
          then 1 else 0) else 0) = 0 := by
      by_cases hcap : (legal_input board mv capture).capture ≠ 0
      · rw [if_pos hcap, if_neg (hmidown hcap)]
        rfl
      · rw [if_neg hcap]
    rw [hzero, ← count_own_eq_cells_sum, ← count_own_eq_cells_sum] at hsum
    omega
  · have hsum := cells_sum_update_board
      (fun c => if opposing_piece mv.movenum c then (1 : Int) else 0)
      board mv (legal_input board mv capture).capture hs ht hdiff hmid
    simp only at hsum
    rw [hempty, if_neg hE.2, if_neg hno2, if_neg hno, ← count_opposing_eq_cells_sum,
      ← count_opposing_eq_cells_sum] at hsum
    constructor
    · split at hsum
      · split at hsum <;> omega
      · omega
    · split at hsum
      · split at hsum <;> omega
      · omega

theorem count_own_congr (board : board_t) (p q : Int) (h : p % 2 = q % 2) :
    count_own board p = count_own board q := by
  unfold count_own
  apply List.countP_congr
  intro cell _
  simp only [decide_eq_true_eq]
  unfold own_piece
  simp only [h]

theorem count_opposing_eq (board : board_t) (p : Int) :
    count_opposing board p = count_own board (p + 1) := by
  unfold count_opposing count_own
  apply List.countP_congr
  intro cell _
  simp only [decide_eq_true_eq]
  unfold opposing_piece own_piece
  by_cases hodd : p % 2 = 1
  · have h1 : ¬ (p + 1) % 2 = 1 := by omega
    simp only [if_pos hodd, if_neg h1]
  · have h1 : (p + 1) % 2 = 1 := by omega
    simp only [if_neg hodd, if_pos h1]

theorem countP_cells_congr (b1 b2 : board_t) (P : Int → Prop) [DecidablePred P]
    (h : ∀ i j, on_board i j → b1 i j = b2 i j) :
    board_cells.countP (fun cell => decide (P (b1 cell.1 cell.2))) =
      board_cells.countP (fun cell => decide (P (b2 cell.1 cell.2))) := by
  apply List.countP_congr
  intro cell hcell
  rw [h cell.1 cell.2 ((mem_board_cells cell).mp hcell)]

set_option maxRecDepth 100000 in
theorem fill_board_empty_counts :
    well_formed (fill_board empty_board) ∧ count_own (fill_board empty_board) 1 = 12 ∧
      count_own (fill_board empty_board) 2 = 12 := by
  decide

/-- The starting board is well-formed and holds 12 pieces of each side, whatever the
array held before `fill_board`. -/
theorem fill_board_counts (board0 : board_t) :
    well_formed (fill_board board0) ∧ count_own (fill_board board0) 1 = 12 ∧
      count_own (fill_board board0) 2 = 12 := by
  obtain ⟨hwf, hb, hw⟩ := fill_board_empty_counts
  refine ⟨?_, ?_, ?_⟩
  · intro i hi j hj
    have hon : on_board i j := by
      have hi2 := (mem_board_range i).mp hi
      have hj2 := (mem_board_range j).mp hj
      unfold on_board
      simp only [BOARD_SIZE]
      omega
    rw [fill_board_cells board0 i j hon]
    exact hwf i hi j hj
  · rw [← hb]
    exact countP_cells_congr _ _ (own_piece 1) (fun i j h => fill_board_cells board0 i j h)
  · rw [← hw]
    exact countP_cells_congr _ _ (own_piece 2) (fun i j h => fill_board_cells board0 i j h)

/-- Every reachable board is well-formed and holds at most 12 pieces of each side. -/
theorem reachable_counts (board0 b : board_t) (h : reachable board0 b) :
    well_formed b ∧ count_own b 1 ≤ 12 ∧ count_own b 2 ≤ 12 := by
  have hstep : ∀ (board : board_t) (mv : move_t) (capture : Int),
      (well_formed board ∧ count_own board 1 ≤ 12 ∧ count_own board 2 ≤ 12) →
      0 ≤ mv.movenum → (legal_input board mv capture).ret ≠ 0 →
      well_formed (update_board board mv (legal_input board mv capture).capture) ∧
        count_own (update_board board mv (legal_input board mv capture).capture) 1 ≤ 12 ∧
        count_own (update_board board mv (legal_input board mv capture).capture) 2 ≤ 12 := by
    intro board mv capture ⟨hwf, hb, hw⟩ hp hacc
    obtain ⟨hwf2, hown, hopp, _⟩ := update_board_accepted board mv capture hwf hp hacc
    rw [count_opposing_eq, count_opposing_eq] at hopp
    refine ⟨hwf2, ?_, ?_⟩
    · by_cases hodd : mv.movenum % 2 = 1
      · rw [count_own_congr _ 1 mv.movenum (by omega), hown,
          count_own_congr _ mv.movenum 1 (by omega)]
        exact hb
      · rw [count_own_congr _ 1 (mv.movenum + 1) (by omega)]
        rw [count_own_congr board (mv.movenum + 1) 1 (by omega)] at hopp
        omega
    · by_cases hodd : mv.movenum % 2 = 1
      · rw [count_own_congr _ 2 (mv.movenum + 1) (by omega)]
        rw [count_own_congr board (mv.movenum + 1) 2 (by omega)] at hopp
        omega
      · rw [count_own_congr _ 2 mv.movenum (by omega), hown,
          count_own_congr _ mv.movenum 2 (by omega)]
        exact hw
  induction h with
  | start => exact ⟨(fill_board_counts board0).1, le_of_eq (fill_board_counts board0).2.1,
      le_of_eq (fill_board_counts board0).2.2⟩
  | accepted board mv capture _ hp hacc ih => exact hstep board mv capture ih hp hacc
  | generated board p opt _ hp hopt ih =>
    have hlegal := legal_input_of_mem board p NO_CAPTURE opt hopt
    have hnum := possible_moves_movenum board p opt hopt
    have hboard := possible_moves_board board p opt hopt
    have := hstep board opt.move NO_CAPTURE ih (by rw [hnum]; exact hp)
      (by rw [hlegal]; simp)
    rw [hlegal] at this
    rw [hboard]
    exact this

/-! ## Lemmas on the cost of the root in `int` arithmetic -/

/-- The cost `find_move` leaves on the root of the tree built for a board with an option
is `tree_cost` of the board, whatever the ply number. -/
theorem find_move_tree_cost (root : decision_node_t) (best_move : move_t) (p : Int)
    (hmove : (possible_moves root.board p).length ≠ 0) :
    (find_move (recursive_addlayers root p INITIAL_DEPTH) best_move).1.minimax_cost =
      tree_cost root.board p 3 := by
  have hnext := recursive_addlayers_next_move root p INITIAL_DEPTH (by decide)
  have hopt : (recursive_addlayers root p INITIAL_DEPTH).options ≠ NO_OPTIONS := by
    unfold decision_node_t.options
    rw [hnext, List.length_map]
    simp only [NO_OPTIONS]
    omega
  have hgo : game_over (recursive_addlayers root p INITIAL_DEPTH) = 0 := by
    unfold game_over
    rw [if_neg hopt]
  unfold find_move
  rw [if_neg (by rw [hgo]; simp)]
  show (propagate_cost (recur_fill_costs _ INITIAL_DEPTH)).minimax_cost = _
  rw [recur_fill_costs_propagated _ _ hopt]
  exact recur_fill_costs_tree_cost 2 (le_refl _) root p

/-- The children of the root of the tree carry the root's ply number plus 1, reduced to
the range of `int`. -/
theorem recursive_addlayers_child_movenum (root : decision_node_t) (p : Int)
    (child : decision_node_t)
    (hchild : child ∈ (recursive_addlayers root p INITIAL_DEPTH).next_move) :
    child.move.movenum = wrap_int (p + 1) := by
  rw [recursive_addlayers_next_move root p INITIAL_DEPTH (by decide)] at hchild
  obtain ⟨opt, _, rfl⟩ := List.mem_map.mp hchild
  exact recursive_addlayers_movenum opt _ _

/-! ## The claims -/

/-- C1, amended: for every board and every ply `p` with `0 ≤ p` and `p + 4 ≤ INT_MAX` at
which `calculate_options` finds at least one option, the cost `find_move` leaves on the
root of the tree built by `recursive_addlayers root p 0` is the minimax value
`V board p 3` of the specification. The plies `p .. p + 4` of the nodes of the tree are
computed in `int`; the bound keeps them from wrapping around. The board need not be well
formed. -/
theorem find_move_root_cost (root : decision_node_t) (best_move : move_t) (p : Int)
    (hp : 0 ≤ p) (hhi : p + 4 ≤ INT_MAX) (hmove : (possible_moves root.board p).length ≠ 0) :
    (find_move (recursive_addlayers root p INITIAL_DEPTH) best_move).1.minimax_cost =
      V root.board p 3 := by
  rw [find_move_tree_cost root best_move p hmove]
  exact tree_cost_eq_V 3 root.board p hp (by push_cast; omega)

set_option maxRecDepth 100000 in
/-- Witness of C1: a black piece on A3 and a white piece on H1 at ply 1; black steps to
B2, white steps to G2, black is crowned on the third ply, and the root is scored 2. -/
theorem find_move_root_cost_witness :
    (0 : Int) ≤ 1 ∧ (1 : Int) + 4 ≤ INT_MAX ∧
      (possible_moves (blank_node board_b_A3_w_H1 0).board 1).length ≠ 0 ∧
      (find_move (recursive_addlayers (blank_node board_b_A3_w_H1 0) 1 INITIAL_DEPTH)
        ⟨0, 0, 0, 0, 0⟩).1.minimax_cost = V board_b_A3_w_H1 1 3 ∧
      V board_b_A3_w_H1 1 3 = 2 :=
  ⟨by decide, by decide, by decide,
    find_move_root_cost (blank_node board_b_A3_w_H1 0) ⟨0, 0, 0, 0, 0⟩ 1 (by decide)
      (by decide) (by decide),
    by decide⟩

set_option maxRecDepth 100000 in
/-- Counterexample to C1 as stated for every ply `p ≥ 0`: at `p = INT_MAX` the ply of the
children wraps around to `INT_MIN` and the ply of the grandchildren is `INT_MIN + 1`,
whose remainder by 2 is -1, so white moves twice in a row. With a black piece on A3 and
a white piece on H1 the root is scored 0, while `V board INT_MAX 3` is 2, black being
crowned on the third ply. -/
theorem root_cost_ply_overflow :
    well_formed board_b_A3_w_H1 ∧ (0 : Int) ≤ INT_MAX ∧
      (possible_moves (blank_node board_b_A3_w_H1 0).board INT_MAX).length ≠ 0 ∧
      (∀ best_move : move_t,
        (find_move (recursive_addlayers (blank_node board_b_A3_w_H1 0) INT_MAX INITIAL_DEPTH)
          best_move).1.minimax_cost = 0) ∧
      V board_b_A3_w_H1 INT_MAX 3 = 2 := by
  refine ⟨by decide, by decide, by decide, ?_, by decide⟩
  intro best_move
  rw [find_move_tree_cost (blank_node board_b_A3_w_H1 0) best_move INT_MAX (by decide)]
  decide

/-- C2: evaluation at the failing input. Black is to move (ply 1) on a board that holds
one white piece only, so the node has no option; `game_over` returns `INT_MAX` and
`recur_fill_costs` stores it, the best score for black, although black has lost. With
white stuck (ply 2, one black piece only) the stored score is `INT_MIN`. -/
theorem game_over_sentinel_inverted :
    (calculate_options (blank_node board_w_at_B2 1)).options = 0 ∧
      game_over (calculate_options (blank_node board_w_at_B2 1)) = INT_MAX ∧
      (recur_fill_costs (calculate_options (blank_node board_w_at_B2 1)) 1).minimax_cost
        = INT_MAX ∧
      (calculate_options (blank_node board_b_at_B2 2)).options = 0 ∧
      game_over (calculate_options (blank_node board_b_at_B2 2)) = INT_MIN ∧
      (recur_fill_costs (calculate_options (blank_node board_b_at_B2 2)) 1).minimax_cost
        = INT_MIN := by
  decide

/-- C3: evaluation at the failing inputs. (1) Black is to move at ply 1 on a board with
one white piece only and has no move: `play_round` prints the line for a black win,
whatever `check_gover` and the fresh memory hold. (2) White is to move at ply 2 on a
board with one black piece only and has no move: with `check_gover` set nothing is
printed. (3) White is to move at ply 2 with its only piece on A8, which has no move:
with `check_gover` clear and the bytes of A8-B7 in the fresh `best_move`, the round
returns 1, a move having been played. -/
theorem play_round_stuck_reports :
    (∀ (check_gover : Int) (root_init : decision_node_t) (best_init : move_t),
      (possible_moves board_w_at_B2 1).length = 0 ∧
      (play_round board_w_at_B2 1 check_gover root_init best_init).out =
        [message.BLACK_WIN]) ∧
    (∀ (root_init : decision_node_t) (best_init : move_t),
      (possible_moves board_b_at_B2 2).length = 0 ∧
      (play_round board_b_at_B2 2 CHECK_OVER root_init best_init).out = []) ∧
    (∀ (root_init : decision_node_t),
      (possible_moves board_w_at_A8 2).length = 0 ∧
      (play_round board_w_at_A8 2 0 root_init ⟨CHAR_A, CHAR_8, CHAR_A + 1, CHAR_1 + 6, 0⟩).ret
        = 1) := by
  refine ⟨?_, ?_, ?_⟩
  · intro check_gover root_init best_init
    exact ⟨by decide, ((play_round_stuck board_w_at_B2 1 check_gover root_init best_init
      (by decide) (by decide)).1 (by decide)).1⟩
  · intro root_init best_init
    exact ⟨by decide, ((play_round_stuck board_b_at_B2 2 CHECK_OVER root_init best_init
      (by decide) (by decide)).2.1 (by decide) (by decide)).1⟩
  · intro root_init
    refine ⟨by decide, ?_⟩
    rw [(play_round_stuck board_w_at_A8 2 0 root_init _ (by decide) (by decide)).2.2
      (by decide) rfl]
    decide

/-- C4: on a well-formed board and at a ply `p ≥ 0`, every option `calculate_options`
records has its source on the board and holding a piece or tower of the side to move,
its target on the board and empty, and is either one diagonal step or two diagonal
steps over a cell that holds a piece or tower of the opposing side; so no option jumps
an empty cell. -/
theorem calculate_options_sound (node : decision_node_t) (hwf : well_formed node.board)
    (hply : 0 ≤ node.move.movenum) :
    ∀ opt ∈ (calculate_options node).next_move,
      sound_move node.board node.move.movenum opt.move ∧
      (diagonal_distance 2 (convert_to_index opt.move.sourcerow)
          (convert_to_index opt.move.sourcecol) (convert_to_index opt.move.targetrow)
          (convert_to_index opt.move.targetcol) →
        node.board
          ((convert_to_index opt.move.sourcerow + convert_to_index opt.move.targetrow) / 2)
          ((convert_to_index opt.move.sourcecol + convert_to_index opt.move.targetcol) / 2)
          ≠ CELL_EMPTY) := by
  intro opt hopt
  have hsound := sound_move_of_mem node.board node.move.movenum hwf hply opt hopt
  refine ⟨hsound, ?_⟩
  intro htwo
  obtain ⟨_, _, _, _, hkind⟩ := hsound
  rcases hkind with hone | ⟨_, hopp⟩
  · unfold diagonal_distance at hone htwo
    omega
  · exact (opposing_piece_cell _ _ hopp).1

/-- Witness of C4: black to move with a piece on C3 and a white piece on B2; the two
options recorded are sound. -/
theorem calculate_options_sound_witness :
    well_formed (blank_node board_b_C3_w_B2 1).board ∧
      0 ≤ (blank_node board_b_C3_w_B2 1).move.movenum ∧
      (calculate_options (blank_node board_b_C3_w_B2 1)).next_move.length = 2 ∧
      ∀ opt ∈ (calculate_options (blank_node board_b_C3_w_B2 1)).next_move,
        sound_move board_b_C3_w_B2 1 opt.move :=
  ⟨by decide, by decide, by decide,
    fun opt hopt =>
      (calculate_options_sound (blank_node board_b_C3_w_B2 1) (by decide) (by decide)
        opt hopt).1⟩

/-- C5: on a well-formed board and at a ply `p ≥ 0`, the moves `calculate_options`
records are exactly the legal moves of the side to move (one simple step per allowed
direction whose adjacent cell is on the board and empty, one capture per allowed
direction whose adjacent cell holds an opposing piece or tower and whose next cell is
on the board and empty), each recorded once; `options` is their number, and it is 0
exactly when the side to move has no legal move. -/
theorem calculate_options_complete (node : decision_node_t) (hwf : well_formed node.board)
    (hply : 0 ≤ node.move.movenum) :
    (∀ mv, mv ∈ (calculate_options node).next_move.map decision_node_t.move ↔
      legal_move node.board node.move.movenum mv) ∧
    ((calculate_options node).next_move.map decision_node_t.move).Nodup ∧
    (calculate_options node).options =
      (((calculate_options node).next_move.map decision_node_t.move).length : Int) ∧
    ((calculate_options node).options = 0 ↔
      ¬ ∃ mv, legal_move node.board node.move.movenum mv) := by
  have hiff := mem_possible_moves_iff_legal node.board node.move.movenum hwf hply
  refine ⟨hiff, possible_moves_nodup node.board node.move.movenum, ?_, ?_⟩
  · unfold decision_node_t.options
    rw [List.length_map]
  · show ((possible_moves node.board node.move.movenum).length : Int) = 0 ↔ _
    constructor
    · intro hzero
      rintro ⟨mv, hmv⟩
      have hmem := (hiff mv).mpr hmv
      have hnil : possible_moves node.board node.move.movenum = [] :=
        List.length_eq_zero.mp (by omega)
      rw [hnil] at hmem
      simp at hmem
    · intro hnone
      cases hpm : possible_moves node.board node.move.movenum with
      | nil => rfl
      | cons x xs =>
        exfalso
        apply hnone
        refine ⟨x.move, (hiff x.move).mp ?_⟩
        rw [hpm]
        simp

/-- Witness of C5: black to move with a piece on C3 and a white piece on B2; the step
C3-D2 and the capture C3-A1 are recorded, in this order, and nothing else. -/
theorem calculate_options_complete_witness :
    well_formed (blank_node board_b_C3_w_B2 1).board ∧
      0 ≤ (blank_node board_b_C3_w_B2 1).move.movenum ∧
      (calculate_options (blank_node board_b_C3_w_B2 1)).next_move.map decision_node_t.move =
        [move_from 2 2 (-1) 1 1 1, move_from 2 2 (-1) (-1) 2 1] ∧
      (legal_move board_b_C3_w_B2 1 (move_from 2 2 (-1) (-1) 2 1) ↔
        move_from 2 2 (-1) (-1) 2 1 ∈
          (calculate_options (blank_node board_b_C3_w_B2 1)).next_move.map
            decision_node_t.move) :=
  ⟨by decide, by decide, by decide,
    ((calculate_options_complete (blank_node board_b_C3_w_B2 1) (by decide) (by decide)).1
      (move_from 2 2 (-1) (-1) 2 1)).symm⟩

/-- C6: for every root with at least one option, `find_move` writes to `best_move` the
move of the first child, in the order of the options, whose cost equals the root's
propagated cost: the children split as `before ++ child :: after` with no child of
that cost in `before`. Such a child exists, the children carry the moves enumerated
for the root in the same order, so the chosen move is one of them; and at a ply `≥ 0`
the root's cost is the greatest (odd ply) or least (even ply) of the children's. -/
theorem find_move_first_best (root : decision_node_t) (best_move : move_t)
    (hopt : root.options ≠ NO_OPTIONS) :
    ∃ (before : List decision_node_t) (child : decision_node_t) (after : List decision_node_t),
      (find_move root best_move).1.next_move = before ++ child :: after ∧
      (∀ c ∈ before, c.minimax_cost ≠ (find_move root best_move).1.minimax_cost) ∧
      child.minimax_cost = (find_move root best_move).1.minimax_cost ∧
      (find_move root best_move).2 = child.move ∧
      (find_move root best_move).1.next_move.map decision_node_t.move =
        root.next_move.map decision_node_t.move ∧
      (find_move root best_move).2 ∈ root.next_move.map decision_node_t.move ∧
      (0 ≤ root.move.movenum →
        (root.move.movenum % 2 = 1 →
          is_maximum (find_move root best_move).1.minimax_cost
            ((find_move root best_move).1.next_move.map decision_node_t.minimax_cost)) ∧
        (root.move.movenum % 2 = 0 →
          is_minimum (find_move root best_move).1.minimax_cost
            ((find_move root best_move).1.next_move.map decision_node_t.minimax_cost))) := by
  obtain ⟨hnext, hcost, hsel⟩ := find_move_root root best_move hopt
  have hne : root.next_move.map (fun c => recur_fill_costs c (INITIAL_DEPTH + 1)) ≠ [] := by
    intro h
    apply hopt
    unfold decision_node_t.options
    rw [List.map_eq_nil_iff.mp h]
    rfl
  have hbounds : ∀ x ∈ root.next_move.map (fun c => recur_fill_costs c (INITIAL_DEPTH + 1)),
      INT_MIN ≤ x.minimax_cost ∧ x.minimax_cost ≤ INT_MAX := by
    intro x hx
    obtain ⟨c, _, rfl⟩ := List.mem_map.mp hx
    exact recur_fill_costs_bounds c _
  have hmem : (find_move root best_move).1.minimax_cost ∈
      ((find_move root best_move).1.next_move).map decision_node_t.minimax_cost := by
    rw [hcost, hnext]
    unfold propagated
    split
    · exact (foldl_propagate_max_is_maximum _ hne (fun x hx => (hbounds x hx).1)).1
    · exact (foldl_propagate_min_is_minimum _ hne (fun x hx => (hbounds x hx).2)).1
  have hmoves : (find_move root best_move).1.next_move.map decision_node_t.move =
      root.next_move.map decision_node_t.move := by
    rw [hnext, List.map_map]
    exact List.map_congr_left (fun c _ => recur_fill_costs_move c _)
  have hextreme : 0 ≤ root.move.movenum →
      (root.move.movenum % 2 = 1 →
        is_maximum (find_move root best_move).1.minimax_cost
          ((find_move root best_move).1.next_move.map decision_node_t.minimax_cost)) ∧
      (root.move.movenum % 2 = 0 →
        is_minimum (find_move root best_move).1.minimax_cost
          ((find_move root best_move).1.next_move.map decision_node_t.minimax_cost)) := by
    intro hply
    rw [hcost, hnext]
    unfold propagated
    rw [tmod_two_of_nonneg _ hply]
    constructor
    · intro hodd
      rw [if_pos hodd]
      exact foldl_propagate_max_is_maximum _ hne (fun x hx => (hbounds x hx).1)
    · intro heven
      rw [if_neg (by simp only [BLACK_MOVE]; omega)]
      exact foldl_propagate_min_is_minimum _ hne (fun x hx => (hbounds x hx).2)
  obtain ⟨c0, hc0, hc0cost⟩ := List.mem_map.mp hmem
  cases hfind : (find_move root best_move).1.next_move.find?
      (fun child => child.minimax_cost == (find_move root best_move).1.minimax_cost) with
  | none =>
    rw [List.find?_eq_none] at hfind
    exact absurd (by simpa using hc0cost) (hfind c0 hc0)
  | some child =>
    have hbest : (find_move root best_move).2 = child.move := by
      rw [hsel]
      unfold select_move
      rw [hfind]
    obtain ⟨hp, before, after, hsplit, hbefore⟩ := List.find?_eq_some.mp hfind
    refine ⟨before, child, after, hsplit, ?_, by simpa using hp, hbest, hmoves, ?_, hextreme⟩
    · intro c hc
      simpa using hbefore c hc
    · rw [hbest, ← hmoves, hsplit]
      simp

/-- Witness of C6: a root with two options; the move chosen is one of the two. -/
theorem find_move_first_best_witness :
    example_root.options ≠ NO_OPTIONS ∧
      (find_move example_root ⟨0, 0, 0, 0, 0⟩).2 ∈
        example_root.next_move.map decision_node_t.move := by
  refine ⟨by decide, ?_⟩
  obtain ⟨_, _, _, _, _, _, _, _, hmem, _⟩ :=
    find_move_first_best example_root ⟨0, 0, 0, 0, 0⟩ (by decide)
  exact hmem

/-- C7: for every node with at least one child and a ply number `≥ 0`, over children
whose costs are `int` values `propagate_cost` sets the node's cost to the greatest of
the children's costs when the ply number is odd and to the least when it is even; in
particular when every child carries `calculate_cost` of its board, the node's cost is
the greatest (odd) or least (even) of the children's evaluator scores. -/
theorem propagate_cost_minimax (root : decision_node_t) (hopt : root.options ≠ NO_OPTIONS)
    (hply : 0 ≤ root.move.movenum) :
    ((∀ c ∈ root.next_move, INT_MIN ≤ c.minimax_cost ∧ c.minimax_cost ≤ INT_MAX) →
      (root.move.movenum % 2 = 1 →
        is_maximum (propagate_cost root).minimax_cost
          (root.next_move.map decision_node_t.minimax_cost)) ∧
      (root.move.movenum % 2 = 0 →
        is_minimum (propagate_cost root).minimax_cost
          (root.next_move.map decision_node_t.minimax_cost))) ∧
    ((∀ c ∈ root.next_move, c.minimax_cost = calculate_cost c.board) →
      (root.move.movenum % 2 = 1 →
        is_maximum (propagate_cost root).minimax_cost
          (root.next_move.map (fun c => calculate_cost c.board))) ∧
      (root.move.movenum % 2 = 0 →
        is_minimum (propagate_cost root).minimax_cost
          (root.next_move.map (fun c => calculate_cost c.board)))) := by
  have hchild : root.next_move ≠ [] := by
    intro h
    apply hopt
    unfold decision_node_t.options
    rw [h]
    rfl
  have hgen : (∀ c ∈ root.next_move, INT_MIN ≤ c.minimax_cost ∧ c.minimax_cost ≤ INT_MAX) →
      (root.move.movenum % 2 = 1 →
        is_maximum (propagate_cost root).minimax_cost
          (root.next_move.map decision_node_t.minimax_cost)) ∧
      (root.move.movenum % 2 = 0 →
        is_minimum (propagate_cost root).minimax_cost
          (root.next_move.map decision_node_t.minimax_cost)) := by
    intro hrange
    rw [propagate_cost_cost_eq, tmod_two_of_nonneg _ hply]
    constructor
    · intro hodd
      rw [if_pos hodd]
      exact foldl_propagate_max_is_maximum _ hchild (fun c hc => (hrange c hc).1)
    · intro heven
      rw [if_neg (by simp only [BLACK_MOVE]; omega)]
      exact foldl_propagate_min_is_minimum _ hchild (fun c hc => (hrange c hc).2)
  refine ⟨hgen, ?_⟩
  intro hleaf
  have hmap : root.next_move.map (fun c => calculate_cost c.board) =
      root.next_move.map decision_node_t.minimax_cost :=
    List.map_congr_left (fun c hc => (hleaf c hc).symm)
  rw [hmap]
  apply hgen
  intro c hc
  rw [hleaf c hc]
  have := calculate_cost_bounds c.board
  constructor <;> simp only [INT_MIN, INT_MAX] <;> omega

/-- Witness of C7: a black-to-move root whose children cost 5 and 7 receives 7. -/
theorem propagate_cost_minimax_witness :
    example_root.options ≠ NO_OPTIONS ∧ 0 ≤ example_root.move.movenum ∧
      (propagate_cost example_root).minimax_cost = 7 ∧
      is_maximum (propagate_cost example_root).minimax_cost
        (example_root.next_move.map decision_node_t.minimax_cost) :=
  ⟨by decide, by decide, by decide,
    ((propagate_cost_minimax example_root (by decide) (by decide)).1 (by decide)).1
      (by decide)⟩

set_option maxRecDepth 100000 in
/-- C8: evaluation at the failing input. On the starting board at ply 1 the typed move
A6-C4 takes the black piece on A6 two diagonal steps over the empty cell B5 onto the
empty cell C4; `legal_input` accepts it and sets the capture flag. -/
theorem legal_input_accepts_jump_over_empty :
    well_formed (fill_board empty_board) ∧
      fill_board empty_board 5 0 = CELL_BPIECE ∧
      fill_board empty_board 4 1 = CELL_EMPTY ∧
      fill_board empty_board 3 2 = CELL_EMPTY ∧
      legal_input (fill_board empty_board)
        ⟨CHAR_A, CHAR_1 + 5, CHAR_A + 2, CHAR_1 + 3, 1⟩ NO_CAPTURE = ⟨1, CAPTURE_OCCURS, []⟩ := by
  decide

/-- C9: evaluation at the failing input. At ply 1 the typed move B2-C3 takes the plain
black piece on B2 from row index 1 to the larger row index 2, away from white's back
row; `legal_input` accepts it, while the move generator does not record it. -/
theorem legal_input_accepts_backward_step :
    well_formed board_b_at_B2 ∧
      board_b_at_B2 1 1 = CELL_BPIECE ∧
      legal_input board_b_at_B2 ⟨CHAR_A + 1, CHAR_1 + 1, CHAR_A + 2, CHAR_1 + 2, 1⟩ NO_CAPTURE
        = ⟨1, NO_CAPTURE, []⟩ ∧
      (possible_moves board_b_at_B2 1).map decision_node_t.move =
        [move_from 1 1 (-1) 1 1 1, move_from 1 1 (-1) (-1) 1 1] := by
  decide

/-- C10 (amended): for every board, every move whose source `(sr, sc)` and target
`(tr, tc)` are distinct cells of the board, written with column letter and row digit,
and every capture flag, after `update_board`: the target holds the piece of the source,
crowned on the far row, provided the capture flag is clear or the midpoint cell
`((sr + tr) / 2, (sc + tc) / 2)` is not the target itself; the source is empty; with
the capture flag set the midpoint cell is empty; every other cell of the board is
unchanged. -/
theorem update_board_effect (board : board_t) (sr sc tr tc movenum capture : Int)
    (hs : on_board sr sc) (ht : on_board tr tc) (hdistinct : ¬ (sr = tr ∧ sc = tc)) :
    ((capture = 0 ∨ ¬ ((sr + tr) / 2 = tr ∧ (sc + tc) / 2 = tc)) →
      update_board board ⟨sc + CHAR_A, sr + CHAR_1, tc + CHAR_A, tr + CHAR_1, movenum⟩ capture
        tr tc = crowned (board sr sc) tr) ∧
    update_board board ⟨sc + CHAR_A, sr + CHAR_1, tc + CHAR_A, tr + CHAR_1, movenum⟩ capture
      sr sc = CELL_EMPTY ∧
    (capture ≠ 0 →
      update_board board ⟨sc + CHAR_A, sr + CHAR_1, tc + CHAR_A, tr + CHAR_1, movenum⟩ capture
        ((sr + tr) / 2) ((sc + tc) / 2) = CELL_EMPTY) ∧
    (∀ i j, on_board i j → ¬ (i = sr ∧ j = sc) → ¬ (i = tr ∧ j = tc) →
      ¬ (capture ≠ 0 ∧ i = (sr + tr) / 2 ∧ j = (sc + tc) / 2) →
      update_board board ⟨sc + CHAR_A, sr + CHAR_1, tc + CHAR_A, tr + CHAR_1, movenum⟩ capture
        i j = board i j) := by
  rw [update_board_eq board sr sc tr tc movenum capture hs ht]
  have hts : ¬ (tr = sr ∧ tc = sc) := fun h => hdistinct ⟨h.1.symm, h.2.symm⟩
  by_cases hcap : capture ≠ 0
  · rw [if_pos hcap]
    refine ⟨?_, ?_, ?_, ?_⟩
    · rintro (h0 | hmid)
      · exact absurd h0 hcap
      · rw [set_cell_other _ _ _ _ _ _ (fun h => hmid ⟨h.1.symm, h.2.symm⟩),
          set_cell_other _ _ _ _ _ _ hts, set_cell_same]
    · by_cases hm : sr = (sr + tr) / 2 ∧ sc = (sc + tc) / 2
      · unfold set_cell
        rw [if_pos hm]
      · rw [set_cell_other _ _ _ _ _ _ hm, set_cell_same]
    · intro _
      exact set_cell_same _ _ _ _
    · intro i j _ hns hnt hnm
      rw [set_cell_other _ _ _ _ _ _ (fun h => hnm ⟨hcap, h⟩), set_cell_other _ _ _ _ _ _ hns,
        set_cell_other _ _ _ _ _ _ hnt]
  · rw [if_neg hcap]
    refine ⟨?_, ?_, ?_, ?_⟩
    · intro _
      rw [set_cell_other _ _ _ _ _ _ hts, set_cell_same]
    · exact set_cell_same _ _ _ _
    · intro h
      exact absurd h hcap
    · intro i j _ hns hnt _
      rw [set_cell_other _ _ _ _ _ _ hns, set_cell_other _ _ _ _ _ _ hnt]

/-- Witness of C10: the capture C3-A1 over B2 crowns the black piece on A1 and empties
B2. -/
theorem update_board_effect_witness :
    on_board 2 2 ∧ on_board 0 0 ∧ ¬ ((2 : Int) = 0 ∧ (2 : Int) = 0) ∧
      update_board board_b_C3_w_B2 ⟨2 + CHAR_A, 2 + CHAR_1, 0 + CHAR_A, 0 + CHAR_1, 1⟩
        CAPTURE_OCCURS 0 0 = CELL_BTOWER ∧
      update_board board_b_C3_w_B2 ⟨2 + CHAR_A, 2 + CHAR_1, 0 + CHAR_A, 0 + CHAR_1, 1⟩
        CAPTURE_OCCURS 1 1 = CELL_EMPTY :=
  ⟨by decide, by decide, by decide,
    (update_board_effect board_b_C3_w_B2 2 2 0 0 1 CAPTURE_OCCURS (by decide) (by decide)
      (by decide)).1 (Or.inr (by decide)),
    (update_board_effect board_b_C3_w_B2 2 2 0 0 1 CAPTURE_OCCURS (by decide) (by decide)
      (by decide)).2.2.1 (by decide)⟩

/-- Counterexample to C10 as stated: B2 and A1 are distinct cells of the board and B2
holds a black piece; with the capture flag set, `update_board` for B2-A1 leaves A1
empty, because the midpoint `((1 + 0) / 2, (1 + 0) / 2)` is A1 itself. -/
theorem update_board_capture_flag_counterexample :
    on_board 1 1 ∧ on_board 0 0 ∧ ¬ ((1 : Int) = 0 ∧ (1 : Int) = 0) ∧
      board_b_at_B2 1 1 = CELL_BPIECE ∧ crowned (board_b_at_B2 1 1) 0 = CELL_BTOWER ∧
      update_board board_b_at_B2 ⟨1 + CHAR_A, 1 + CHAR_1, 0 + CHAR_A, 0 + CHAR_1, 1⟩
        CAPTURE_OCCURS 0 0 = CELL_EMPTY ∧
      update_board board_b_at_B2 ⟨1 + CHAR_A, 1 + CHAR_1, 0 + CHAR_A, 0 + CHAR_1, 1⟩
        CAPTURE_OCCURS 0 0 ≠ crowned (board_b_at_B2 1 1) 0 := by
  decide

/-- C11: for every board, `calculate_cost` is the number of `b` cells minus the number
of `w` cells, plus 3 times the number of `B` cells minus the number of `W` cells,
counted over the 64 cells; a cell with any other content adds 0. -/
theorem calculate_cost_eq_counts (board : board_t) :
    calculate_cost board =
      (count_cells board CELL_BPIECE - count_cells board CELL_WPIECE) +
        3 * (count_cells board CELL_BTOWER - count_cells board CELL_WTOWER) := by
  rw [calculate_cost_eq_sum, sum_cell_value_eq_counts]
  rfl

/-- C12: `recursive_addlayers` is a total function, its recursion being well founded on
`TREE_DEPTH + 1 - tree_depth`, so the call at depth 0 returns a tree; in that tree
every node at depth 4 has `options = 0` and no children, whatever moves its board
allows, and there is no node at depth 5 or more. -/
theorem recursive_addlayers_depth_bound (root : decision_node_t) (move : Int) :
    (∀ n ∈ nodes_at 4 (recursive_addlayers root move INITIAL_DEPTH),
      n.options = NO_OPTIONS ∧ n.next_move = []) ∧
    (∀ d : Nat, nodes_at (d + 5) (recursive_addlayers root move INITIAL_DEPTH) = []) := by
  have hfour : ∀ n ∈ nodes_at 4 (recursive_addlayers root move INITIAL_DEPTH),
      n.next_move = [] := by
    intro n hn
    obtain ⟨x, q, rfl, _⟩ := nodes_at_recursive_addlayers 4 root move INITIAL_DEPTH n hn
    exact recursive_addlayers_next_move_deep x _ _ (by decide)
  refine ⟨?_, ?_⟩
  · intro n hn
    have h := hfour n hn
    refine ⟨?_, h⟩
    unfold decision_node_t.options
    rw [h]
    rfl
  · intro d
    induction d with
    | zero =>
      rw [Nat.zero_add, nodes_at_succ_children]
      apply List.flatMap_eq_nil_iff.mpr
      exact hfour
    | succ d ih =>
      have h : d + 1 + 5 = (d + 5) + 1 := by omega
      rw [h, nodes_at_succ_children, ih]
      rfl

/-- Witness of C12: after A8-B7, H1-G2, B7-C6, G2-H3 the node at depth 4 has a board on
which black has two moves, and yet no options. -/
theorem recursive_addlayers_depth_bound_witness :
    recursive_addlayers far_apart_4 5 4 ∈
        nodes_at 4 (recursive_addlayers (blank_node board_far_apart 0) 1 INITIAL_DEPTH) ∧
      (possible_moves (recursive_addlayers far_apart_4 5 4).board 5).length = 2 ∧
      (recursive_addlayers far_apart_4 5 4).options = NO_OPTIONS := by
  refine ⟨far_apart_depth_four, ?_, ?_⟩
  · rw [recursive_addlayers_board]
    decide
  · exact ((recursive_addlayers_depth_bound (blank_node board_far_apart 0) 1).1 _
      far_apart_depth_four).1

/-- C13: on the starting board that `fill_board` writes, whatever the array held before,
`calculate_options` at ply 1 records exactly the 7 options A6-B5, C6-D5, C6-B5, E6-F5,
E6-D5, G6-H5, G6-F5 in this order, none a capture; at every even ply `2 * k` it records
exactly 7 options, B3-C4, B3-A4, D3-E4, D3-C4, F3-G4, F3-E4, H3-G4, none a capture. -/
theorem calculate_options_start (board0 : board_t) :
    ((calculate_options (blank_node (fill_board board0) 1)).options = 7 ∧
      (calculate_options (blank_node (fill_board board0) 1)).next_move.map decision_node_t.move =
        start_moves_black 1 ∧
      ∀ opt ∈ (calculate_options (blank_node (fill_board board0) 1)).next_move,
        capture_flag opt.move = NO_CAPTURE) ∧
    ∀ k : Nat,
      (calculate_options (blank_node (fill_board board0) (2 * (k : Int)))).options = 7 ∧
      (calculate_options (blank_node (fill_board board0) (2 * (k : Int)))).next_move.map
        decision_node_t.move = start_moves_white (2 * (k : Int)) ∧
      ∀ opt ∈ (calculate_options (blank_node (fill_board board0) (2 * (k : Int)))).next_move,
        capture_flag opt.move = NO_CAPTURE := by
  constructor
  · have hmoves := possible_moves_start_odd board0
    rw [calculate_options_blank_options, calculate_options_blank_next_move, hmoves]
    refine ⟨rfl, rfl, ?_⟩
    intro opt hopt
    apply capture_flag_start_black 1
    rw [← hmoves]
    exact List.mem_map_of_mem _ hopt
  · intro k
    have hmoves := possible_moves_start_even board0 k
    rw [calculate_options_blank_options, calculate_options_blank_next_move, hmoves]
    refine ⟨rfl, rfl, ?_⟩
    intro opt hopt
    apply capture_flag_start_white (2 * (k : Int))
    rw [← hmoves]
    exact List.mem_map_of_mem _ hopt

/-- C14: for every board `calculate_cost` lies between -192 and 192, hence strictly
between `INT_MIN` and `INT_MAX`, the only non-zero values of `game_over`, which
therefore dominate it; and the running value of `cost` after any number of cells of
the scan stays between -192 and 192, within the range of a 32-bit `int`. -/
theorem calculate_cost_within_sentinels (board : board_t) :
    (-192 ≤ calculate_cost board ∧ calculate_cost board ≤ 192) ∧
    (INT_MIN < calculate_cost board ∧ calculate_cost board < INT_MAX) ∧
    (∀ node : decision_node_t,
      (game_over node = INT_MAX ∧ calculate_cost board < game_over node) ∨
      (game_over node = INT_MIN ∧ game_over node < calculate_cost board) ∨
      game_over node = 0) ∧
    (∀ n : Nat, (-192 ≤ partial_cost board n ∧ partial_cost board n ≤ 192) ∧
      INT_MIN ≤ partial_cost board n ∧ partial_cost board n ≤ INT_MAX) ∧
    partial_cost board 64 = calculate_cost board := by
  have hb := calculate_cost_bounds board
  refine ⟨hb, ?_, ?_, ?_, partial_cost_all board⟩
  · simp only [INT_MIN, INT_MAX]
    omega
  · intro node
    rcases game_over_values node with h | h | h
    · left; rw [h]; simp only [INT_MAX]; exact ⟨trivial, by omega⟩
    · right; left; rw [h]; simp only [INT_MIN]; exact ⟨trivial, by omega⟩
    · right; right; exact h
  · intro n
    have hp := partial_cost_bounds board n
    refine ⟨hp, ?_⟩
    simp only [INT_MIN, INT_MAX]
    omega

/-- C15: for every board, exchanging `b` with `w` and `B` with `W` in every cell negates
`calculate_cost`; and two boards with the same content in each of the 64 cells have
the same cost. -/
theorem calculate_cost_antisymmetric (board : board_t) :
    calculate_cost (swap_sides board) = -calculate_cost board ∧
    ∀ board2 : board_t, (∀ i j, on_board i j → board i j = board2 i j) →
      calculate_cost board = calculate_cost board2 := by
  constructor
  · rw [calculate_cost_eq_sum, calculate_cost_eq_sum, ← sum_map_neg]
    congr 1
    apply List.map_congr_left
    intro cell _
    exact cell_value_swap_cell _
  · intro board2 hsame
    rw [calculate_cost_eq_sum, calculate_cost_eq_sum]
    congr 1
    apply List.map_congr_left
    intro cell hcell
    rw [hsame cell.1 cell.2 ((mem_board_cells cell).mp hcell)]

/-- Witness of C15: a board with a black piece on C3 and a white piece on B2 and the
board obtained by writing the content of A1 again have the same cost. -/
theorem calculate_cost_antisymmetric_witness :
    (∀ i j, on_board i j →
      board_b_C3_w_B2 i j = set_cell board_b_C3_w_B2 0 0 CELL_EMPTY i j) ∧
    calculate_cost board_b_C3_w_B2 = calculate_cost (set_cell board_b_C3_w_B2 0 0 CELL_EMPTY) ∧
    calculate_cost (swap_sides board_b_at_B2) = -1 := by
  have hsame : ∀ i j, on_board i j →
      board_b_C3_w_B2 i j = set_cell board_b_C3_w_B2 0 0 CELL_EMPTY i j := by
    intro i j _
    unfold set_cell
    split
    · rename_i h
      rw [h.1, h.2]
      decide
    · rfl
  exact ⟨hsame, (calculate_cost_antisymmetric board_b_C3_w_B2).2 _ hsame, by decide⟩

/-- C16: evaluation at the failing input. For the typed move I2-H1 the column character
`I` is off the board (`convert_to_index` gives the sentinel -1); `legal_input` rejects
the move, but the first cell it indexes is `board[1][-1]`, read by the initialiser of
`sourcepiece` before the sentinel is tested. -/
theorem legal_input_reads_before_check :
    convert_to_index CHAR_I = SENTINEL ∧
    legal_input board_b_at_B2 ⟨CHAR_I, CHAR_1 + 1, CHAR_A + 7, CHAR_1, 1⟩ NO_CAPTURE =
      ⟨0, NO_CAPTURE, [message.ERROR_SOURCE_OUTSIDE]⟩ ∧
    legal_input_reads board_b_at_B2 ⟨CHAR_I, CHAR_1 + 1, CHAR_A + 7, CHAR_1, 1⟩ =
      [(1, -1), (0, 7)] ∧
    ¬ on_board 1 (-1) := by
  decide

/-- C17: evaluation at the failing input. A black tower alone on D4 at ply 1 has its four
neighbours on the board and empty; `calculate_options` lists its steps in the order
NE (D4-E3), SE (D4-E5), NW (D4-C3), SW (D4-C5), which is neither NE, NW, SW, SE nor the
clockwise NE, SE, SW, NW. -/
theorem tower_direction_order :
    well_formed board_B_at_D4 ∧
    (possible_moves board_B_at_D4 1).map decision_node_t.move =
      [move_from 3 3 (-1) 1 1 1, move_from 3 3 1 1 1 1,
        move_from 3 3 (-1) (-1) 1 1, move_from 3 3 1 (-1) 1 1] ∧
    (possible_moves board_B_at_D4 1).map decision_node_t.move ≠
      [move_from 3 3 (-1) 1 1 1, move_from 3 3 (-1) (-1) 1 1,
        move_from 3 3 1 (-1) 1 1, move_from 3 3 1 1 1 1] ∧
    (possible_moves board_B_at_D4 1).map decision_node_t.move ≠
      [move_from 3 3 (-1) 1 1 1, move_from 3 3 1 1 1 1,
        move_from 3 3 1 (-1) 1 1, move_from 3 3 (-1) (-1) 1 1] := by
  decide

/-- C18: for every board and ply, the options `calculate_options` records are in row-major
order of their source cells: an option that precedes another has a source cell that is
lexicographically less than or equal to the other's; and the options of one source cell
are contiguous, every option between two options of the same source cell having that
source cell too. -/
theorem calculate_options_row_major (node : decision_node_t) :
    (calculate_options node).next_move.Pairwise
      (fun a b => row_major_le (source_cell a.move) (source_cell b.move)) ∧
    ∀ (before : List decision_node_t) (a : decision_node_t) (between : List decision_node_t)
      (b : decision_node_t) (after : List decision_node_t),
      (calculate_options node).next_move = before ++ a :: (between ++ b :: after) →
      source_cell a.move = source_cell b.move →
      ∀ c ∈ between, source_cell c.move = source_cell a.move := by
  have hpw := possible_moves_row_major node.board node.move.movenum
  refine ⟨hpw, ?_⟩
  intro before a between b after hsplit hsame c hc
  have hpw' : (before ++ a :: (between ++ b :: after)).Pairwise
      (fun a b => row_major_le (source_cell a.move) (source_cell b.move)) := by
    rw [← hsplit]
    exact hpw
  have htail := (List.pairwise_append.mp hpw').2.1
  rw [List.pairwise_cons] at htail
  have hac := htail.1 c (List.mem_append_left _ hc)
  have hcb := (List.pairwise_append.mp htail.2).2.2 c hc b (List.mem_cons_self _ _)
  rw [← hsame] at hcb
  exact row_major_le_antisymm _ _ hcb hac

/-- Witness of C18: the four options of a black tower alone on D4; the two in the middle
have the source cell of the first and the last. -/
theorem calculate_options_row_major_witness :
    (calculate_options (blank_node board_B_at_D4 1)).next_move =
        [] ++ create_move board_B_at_D4 (move_from 3 3 (-1) 1 1 1) ::
          ([create_move board_B_at_D4 (move_from 3 3 1 1 1 1),
              create_move board_B_at_D4 (move_from 3 3 (-1) (-1) 1 1)] ++
            create_move board_B_at_D4 (move_from 3 3 1 (-1) 1 1) :: []) ∧
      source_cell (create_move board_B_at_D4 (move_from 3 3 (-1) 1 1 1)).move =
        source_cell (create_move board_B_at_D4 (move_from 3 3 1 (-1) 1 1)).move ∧
      ∀ c ∈ [create_move board_B_at_D4 (move_from 3 3 1 1 1 1),
          create_move board_B_at_D4 (move_from 3 3 (-1) (-1) 1 1)],
        source_cell c.move = source_cell (create_move board_B_at_D4 (move_from 3 3 (-1) 1 1 1)).move :=
  ⟨rfl, by decide,
    (calculate_options_row_major (blank_node board_B_at_D4 1)).2 [] _ _ _ [] rfl (by decide)⟩

/-- C19, amended: the board of the root of the tree is the board it was given, and for
every node `n` at a depth `k ≤ 3` of the tree built at a ply number `move` with
`INT_MIN ≤ move` and `move + 4 ≤ INT_MAX`: its ply number is the root's plus `k`, and its
children correspond one to one, in order, to the options `calculate_options` builds
from the board and ply number of `n`; the board of the child is the board of `n` with
the move applied by `update_board`, the capture flag being set exactly for a two-step
move, it is the board the option was created with, and the child's ply number is that
of `n` plus 1; when the ply number of `n` is not negative, black is to move at the child
exactly when black is not to move at `n`. -/
theorem recursive_addlayers_children (root : decision_node_t) (move : Int) (k : Nat)
    (hk : k ≤ 3) (hlo : INT_MIN ≤ move) (hhi : move + 4 ≤ INT_MAX) :
    (recursive_addlayers root move INITIAL_DEPTH).board = root.board ∧
    ∀ n ∈ nodes_at k (recursive_addlayers root move INITIAL_DEPTH),
      n.move.movenum = move + k ∧
      List.Forall₂
        (fun child opt =>
          child.board = update_board n.board opt.move (capture_flag opt.move) ∧
          child.board = opt.board ∧
          child.move.movenum = n.move.movenum + 1 ∧
          child.move.sourcecol = opt.move.sourcecol ∧
          child.move.sourcerow = opt.move.sourcerow ∧
          child.move.targetcol = opt.move.targetcol ∧
          child.move.targetrow = opt.move.targetrow ∧
          (0 ≤ n.move.movenum →
            (Int.tmod child.move.movenum CHECK_ODDEVEN = BLACK_MOVE ↔
              ¬ Int.tmod n.move.movenum CHECK_ODDEVEN = BLACK_MOVE)))
        n.next_move (possible_moves n.board n.move.movenum) := by
  refine ⟨recursive_addlayers_board root move INITIAL_DEPTH, ?_⟩
  intro n hn
  obtain ⟨x, q, rfl, hq⟩ := nodes_at_recursive_addlayers k root move INITIAL_DEPTH n hn
  have hqk : q = move + k := hq hlo (by omega)
  subst hqk
  have hdepth : INITIAL_DEPTH + (k : Int) ≤ TREE_DEPTH := by
    simp only [INITIAL_DEPTH, TREE_DEPTH]
    omega
  have hwrap : wrap_int (move + k + 1) = move + k + 1 :=
    wrap_int_eq _ (by simp only [INT_MIN] at hlo ⊢; omega) (by omega)
  rw [recursive_addlayers_movenum, recursive_addlayers_board,
    recursive_addlayers_next_move x _ _ hdepth, List.forall₂_map_left_iff, List.forall₂_same]
  refine ⟨rfl, ?_⟩
  intro opt hopt
  obtain ⟨h1, h2, h3, h4⟩ :=
    recursive_addlayers_coords opt (move + k + 1) (INITIAL_DEPTH + k + 1)
  rw [hwrap, recursive_addlayers_board, recursive_addlayers_movenum]
  refine ⟨possible_moves_board x.board _ opt hopt, rfl, rfl, h1, h2, h3, h4, ?_⟩
  intro hnn
  rw [tmod_two_of_nonneg _ hnn, tmod_two_of_nonneg _ (by omega)]
  simp only [BLACK_MOVE]
  omega

/-- Witness of C19: the child of the root reached by A8-B7 is a node at depth 1, with
ply number 2. -/
theorem recursive_addlayers_children_witness :
    (1 : Nat) ≤ 3 ∧ INT_MIN ≤ (1 : Int) ∧ (1 : Int) + 4 ≤ INT_MAX ∧
      recursive_addlayers far_apart_1 2 1 ∈
        nodes_at 1 (recursive_addlayers (blank_node board_far_apart 0) 1 INITIAL_DEPTH) ∧
      (recursive_addlayers far_apart_1 2 1).move.movenum = 1 + (1 : Nat) := by
  have hmem : recursive_addlayers far_apart_1 2 1 ∈
      nodes_at 1 (recursive_addlayers (blank_node board_far_apart 0) 1 INITIAL_DEPTH) := by
    apply mem_nodes_at_succ_of_option 0 (blank_node board_far_apart 0) far_apart_1 _ 1 2 0
      far_apart_1_mem (by decide) (by decide)
    rw [nodes_at_zero]
    exact List.mem_singleton.mpr rfl
  exact ⟨by decide, by decide, by decide, hmem,
    ((recursive_addlayers_children (blank_node board_far_apart 0) 1 1 (by decide) (by decide)
      (by decide)).2 _ hmem).1⟩

/-- Counterexample to C19 as stated for every ply number: in the tree built at the ply
number `INT_MAX` for the board with a black piece on A8 and a white piece on H1, the
root has a child, every child of the root has the ply number `INT_MIN` and not the
root's plus 1, and the child reached by A8-B7 has a child of its own, reached by H1-G2,
with ply number `INT_MIN + 1`: black is to move at neither of the two, so the side to
move does not alternate. -/
theorem child_ply_overflow :
    (recursive_addlayers (blank_node board_far_apart 0) INT_MAX INITIAL_DEPTH).move.movenum
      = INT_MAX ∧
    (recursive_addlayers (blank_node board_far_apart 0) INT_MAX INITIAL_DEPTH).options
      ≠ NO_OPTIONS ∧
    (∀ child ∈ (recursive_addlayers (blank_node board_far_apart 0) INT_MAX
        INITIAL_DEPTH).next_move,
      child.move.movenum = INT_MIN ∧
      child.move.movenum ≠
        (recursive_addlayers (blank_node board_far_apart 0) INT_MAX
          INITIAL_DEPTH).move.movenum + 1) ∧
    (∃ child ∈ (recursive_addlayers (blank_node board_far_apart 0) INT_MAX
        INITIAL_DEPTH).next_move,
      ∃ grandchild ∈ child.next_move,
        grandchild.move.movenum = INT_MIN + 1 ∧
        ¬ Int.tmod child.move.movenum CHECK_ODDEVEN = BLACK_MOVE ∧
        ¬ Int.tmod grandchild.move.movenum CHECK_ODDEVEN = BLACK_MOVE) := by
  have hroot := recursive_addlayers_movenum (blank_node board_far_apart 0) INT_MAX INITIAL_DEPTH
  have hnext := recursive_addlayers_next_move (blank_node board_far_apart 0) INT_MAX
    INITIAL_DEPTH (by decide)
  have hone : create_move board_far_apart (move_from 7 0 (-1) 1 1 INT_MAX) ∈
      possible_moves (blank_node board_far_apart 0).board INT_MAX :=
    step_option_mem board_far_apart INT_MAX 7 0 (-1) 1 (by decide) (by decide) (by decide)
      (by decide) (by decide) (by decide)
  have htwo : create_move (create_move board_far_apart (move_from 7 0 (-1) 1 1 INT_MAX)).board
      (move_from 0 7 1 (-1) 1 INT_MIN) ∈
      possible_moves (create_move board_far_apart (move_from 7 0 (-1) 1 1 INT_MAX)).board
        INT_MIN :=
    step_option_mem _ INT_MIN 0 7 1 (-1) (by decide) (by decide) (by decide) (by decide)
      (by decide) (by decide)
  refine ⟨hroot, ?_, ?_, ?_⟩
  · unfold decision_node_t.options
    rw [hnext, List.length_map]
    decide
  · intro child hchild
    rw [recursive_addlayers_child_movenum _ _ child hchild, hroot]
    decide
  · refine ⟨recursive_addlayers
        (create_move board_far_apart (move_from 7 0 (-1) 1 1 INT_MAX)) INT_MIN
        (INITIAL_DEPTH + 1), ?_,
      recursive_addlayers
        (create_move (create_move board_far_apart (move_from 7 0 (-1) 1 1 INT_MAX)).board
          (move_from 0 7 1 (-1) 1 INT_MIN)) (INT_MIN + 1) (INITIAL_DEPTH + 1 + 1), ?_, ?_⟩
    · rw [hnext]
      exact List.mem_map.mpr ⟨_, hone, rfl⟩
    · rw [recursive_addlayers_next_move _ INT_MIN (INITIAL_DEPTH + 1) (by decide)]
      exact List.mem_map.mpr ⟨_, htwo, rfl⟩
    · rw [recursive_addlayers_movenum, recursive_addlayers_movenum]
      decide

/-- C20: at a ply `≥ 0`, `test_direction` adds at most one option per direction, and
`calculate_options` records at most 2 options per plain piece and 4 per tower of the
side to move, hence at most `4 * n` options for `n` cells holding a piece or tower of
that side; when `n ≤ 12` there are at most 48 = `TEAM_PIECES * MAX_POS_MOVES` options
and every option is written at an index below 48. The board need not be well formed. -/
theorem calculate_options_bound (node : decision_node_t) (hply : 0 ≤ node.move.movenum) :
    (∀ acc test, (test_direction node.board acc node.move.movenum test).length ≤ acc.length + 1) ∧
    (calculate_options node).options ≤
      2 * (count_own_plain node.board node.move.movenum : Int) +
        4 * (count_own_tower node.board node.move.movenum : Int) ∧
    (calculate_options node).options ≤ 4 * (count_own node.board node.move.movenum : Int) ∧
    (count_own node.board node.move.movenum ≤ 12 →
      (calculate_options node).options ≤ TEAM_PIECES * MAX_POS_MOVES ∧
      ∀ k : Nat, k < (calculate_options node).next_move.length → (k : Int) < 48) := by
  have hlen : (calculate_options node).options ≤
      2 * (count_own_plain node.board node.move.movenum : Int) +
        4 * (count_own_tower node.board node.move.movenum : Int) := by
    show ((possible_moves node.board node.move.movenum).length : Int) ≤ _
    rw [possible_moves_eq_cells]
    exact flatMap_length_le_counts node.board node.move.movenum hply board_cells
  have hsplit : count_own node.board node.move.movenum =
      count_own_plain node.board node.move.movenum +
        count_own_tower node.board node.move.movenum :=
    countP_own_split node.board node.move.movenum board_cells
  have hopt : (calculate_options node).options =
      ((calculate_options node).next_move.length : Int) := rfl
  refine ⟨fun acc test => test_direction_length_acc _ acc _ test, hlen, ?_, ?_⟩
  · rw [hsplit]
    push_cast
    omega
  · intro hn
    simp only [TEAM_PIECES, MAX_POS_MOVES]
    constructor
    · omega
    · intro k hk
      omega

/-- Witness of C20: black to move with one piece on C3; at most 48 options. -/
theorem calculate_options_bound_witness :
    0 ≤ (blank_node board_b_C3_w_B2 1).move.movenum ∧
      count_own (blank_node board_b_C3_w_B2 1).board (blank_node board_b_C3_w_B2 1).move.movenum
        ≤ 12 ∧
      (calculate_options (blank_node board_b_C3_w_B2 1)).options ≤ TEAM_PIECES * MAX_POS_MOVES :=
  ⟨by decide, by decide,
    ((calculate_options_bound (blank_node board_b_C3_w_B2 1) (by decide)).2.2.2
      (by decide)).1⟩

/-! ## Bounds of the cells the generator touches -/

/-- C21: for every board and every ply, every cell that `calculate_options` indexes while
generating options has row and column index in 0..7: the cell of the scan, the adjacent
cell and the landing cell tested in `test_direction` (each read only after the four
bounds tests before it), the capture midpoint read by `capture_opposition`, the 64 cells
of `copy_board`, and the source, target and midpoint cells `update_board` touches on the
copy of the child. -/
theorem calculate_options_cells_on_board (board : board_t) (movenum : Int) :
    ∀ cell ∈ calculate_options_cells board movenum, on_board cell.1 cell.2 := by
  intro cell hcell
  unfold calculate_options_cells at hcell
  simp only [List.mem_flatMap] at hcell
  obtain ⟨i, hi, j, hj, h⟩ := hcell
  have hi' := (mem_board_range i).mp hi
  have hj' := (mem_board_range j).mp hj
  rcases List.mem_cons.mp h with h | h
  · rw [h]
    unfold on_board
    simp only [BOARD_SIZE]
    omega
  · split at h
    · split at h
      · exact add_options_cells_on_board board movenum i j hi' hj' cell h
      · simp at h
    · split at h
      · exact add_options_cells_on_board board movenum i j hi' hj' cell h
      · simp at h

/-- Witness of C21: with a black piece on C3 and a white piece on B2, the cells touched
at ply 1 include the landing cell A1 of the capture, which is on the board. -/
theorem calculate_options_cells_on_board_witness :
    (0, 0) ∈ calculate_options_cells board_b_C3_w_B2 1 ∧ on_board 0 0 :=
  ⟨by decide, calculate_options_cells_on_board board_b_C3_w_B2 1 (0, 0) (by decide)⟩

/-! ## Notation of typed moves -/

/-- C22, refuted by the code: `convert_to_index` accepts a digit as a column character
and a letter as a row character. On the board with a single black piece on B2, the move
typed as `2B-1A` at move number 1 has column characters `2` and `1` outside `A`..`H` and
row characters `B` and `A` outside `1`..`8`, yet `legal_input` accepts it with no error
message. `update_board` then moves the piece to the corner cell of row index 0 and leaves
it a plain piece, because `promote_piece` compares the row character with `1`; the same
move typed as `B2-A1` crowns it. -/
theorem legal_input_accepts_swapped_notation :
    well_formed board_b_at_B2 ∧
    ¬ (CHAR_A ≤ CHAR_1 + 1 ∧ CHAR_1 + 1 ≤ CHAR_H) ∧
    ¬ (CHAR_1 ≤ CHAR_A + 1 ∧ CHAR_A + 1 ≤ CHAR_8) ∧
    legal_input board_b_at_B2 ⟨CHAR_1 + 1, CHAR_A + 1, CHAR_1, CHAR_A, 1⟩ NO_CAPTURE =
      ⟨1, NO_CAPTURE, []⟩ ∧
    update_board board_b_at_B2 ⟨CHAR_1 + 1, CHAR_A + 1, CHAR_1, CHAR_A, 1⟩ NO_CAPTURE 0 0 =
      CELL_BPIECE ∧
    update_board board_b_at_B2 ⟨CHAR_A + 1, CHAR_1 + 1, CHAR_A, CHAR_1, 1⟩ NO_CAPTURE 0 0 =
      CELL_BTOWER := by
  decide

/-! ## Generated moves against the move validation -/

/-- C23: every move `calculate_options` records for a node carries the node's move number
and is accepted by `legal_input` on the node's board, with return value 1 and no message,
whatever the capture flag held before; the capture flag `legal_input` sets is the one
`create_move` built the child with, which is 1 exactly for the two-step moves and 0
exactly for the one-step moves. Hence, when the board has an option, the move `play_round`
takes from `find_move` is the move of an option, the legality check on it returns 1 and
the round returns 1 with the board of that option. This holds for every board and every
move number; the board need not be well formed. -/
theorem calculate_options_accepted (node : decision_node_t) :
    (∀ opt ∈ (calculate_options node).next_move, ∀ capture : Int,
      opt.move.movenum = node.move.movenum ∧
      (legal_input node.board opt.move capture).ret = 1 ∧
      (legal_input node.board opt.move capture).out = [] ∧
      (legal_input node.board opt.move capture).capture = capture_flag opt.move ∧
      opt.board =
        update_board node.board opt.move (legal_input node.board opt.move capture).capture ∧
      ((legal_input node.board opt.move capture).capture = CAPTURE_OCCURS ↔
        diagonal_distance 2 (convert_to_index opt.move.sourcerow)
          (convert_to_index opt.move.sourcecol) (convert_to_index opt.move.targetrow)
          (convert_to_index opt.move.targetcol)) ∧
      ((legal_input node.board opt.move capture).capture = NO_CAPTURE ↔
        diagonal_distance 1 (convert_to_index opt.move.sourcerow)
          (convert_to_index opt.move.sourcecol) (convert_to_index opt.move.targetrow)
          (convert_to_index opt.move.targetcol))) ∧
    (∀ (root_init : decision_node_t) (best_init : move_t),
      (calculate_options node).options ≠ NO_OPTIONS →
      ∃ opt ∈ (calculate_options node).next_move,
        round_best_move node.board node.move.movenum root_init best_init = opt.move ∧
        (legal_input node.board
          (round_best_move node.board node.move.movenum root_init best_init) NO_CAPTURE).ret
          = 1 ∧
        play_round node.board node.move.movenum 0 root_init best_init =
          ⟨1, opt.board,
            [message.MOVE MOVE_COMPUTED opt.move (calculate_cost opt.board)]⟩) := by
  constructor
  · intro opt hopt capture
    have hmem : opt ∈ possible_moves node.board node.move.movenum := hopt
    have hlegal := legal_input_of_mem node.board node.move.movenum capture opt hmem
    rw [hlegal]
    refine ⟨possible_moves_movenum _ _ opt hmem, rfl, rfl, rfl,
      possible_moves_board _ _ opt hmem, ?_, ?_⟩
    · show capture_flag opt.move = CAPTURE_OCCURS ↔ _
      rcases capture_flag_of_mem _ _ opt hmem with ⟨hflag, hdist⟩ | ⟨hflag, hdist⟩
      · exact ⟨fun _ => hdist, fun _ => hflag⟩
      · rw [hflag]
        unfold diagonal_distance at hdist ⊢
        constructor
        · intro h
          exact absurd h (by decide)
        · intro h
          omega
    · show capture_flag opt.move = NO_CAPTURE ↔ _
      rcases capture_flag_of_mem _ _ opt hmem with ⟨hflag, hdist⟩ | ⟨hflag, hdist⟩
      · rw [hflag]
        unfold diagonal_distance at hdist ⊢
        constructor
        · intro h
          exact absurd h (by decide)
        · intro h
          omega
      · exact ⟨fun _ => hdist, fun _ => hflag⟩
  · intro root_init best_init hopt
    have hlen : (possible_moves node.board node.move.movenum).length ≠ 0 := by
      intro h
      apply hopt
      show ((possible_moves node.board node.move.movenum).length : Int) = 0
      rw [h]
      rfl
    obtain ⟨opt, hmem, hbest, hround⟩ :=
      play_round_option node.board node.move.movenum root_init best_init hlen
    refine ⟨opt, hmem, hbest, ?_, hround⟩
    rw [hbest, legal_input_of_mem node.board node.move.movenum NO_CAPTURE opt hmem]

/-- Witness of C23: black to move with a piece on C3 and a white piece on B2; the board
has an option, so the computed round returns 1. -/
theorem calculate_options_accepted_witness :
    (calculate_options (blank_node board_b_C3_w_B2 1)).options ≠ NO_OPTIONS ∧
      (play_round board_b_C3_w_B2 1 0 example_root ⟨0, 0, 0, 0, 0⟩).ret = 1 := by
  refine ⟨by decide, ?_⟩
  obtain ⟨opt, _, _, _, hround⟩ :=
    (calculate_options_accepted (blank_node board_b_C3_w_B2 1)).2 example_root ⟨0, 0, 0, 0, 0⟩
      (by decide)
  have h : play_round board_b_C3_w_B2 1 0 example_root ⟨0, 0, 0, 0, 0⟩ = _ := hround
  rw [h]

/-! ## Material along a generated move -/

/-- C24: on a well-formed board and at a ply `p ≥ 0`, for every child `calculate_options`
builds, `calculate_cost` of the child minus `calculate_cost` of the board is the sign of
the mover (1 at an odd ply, -1 at an even ply) times the material gained: 2 when the moved
piece is crowned, plus, for a capture, the value 1 or 3 of the piece on the midpoint,
which belongs to the opposing side. So the cost does not decrease at an odd ply and does
not increase at an even ply; a step without promotion leaves it unchanged and a step
with promotion changes it by 2 in absolute value. -/
theorem calculate_options_material (node : decision_node_t) (hwf : well_formed node.board)
    (hply : 0 ≤ node.move.movenum) :
    ∀ opt ∈ (calculate_options node).next_move,
      calculate_cost opt.board - calculate_cost node.board =
        mover_sign node.move.movenum * material_gain node.board opt.move ∧
      (capture_flag opt.move = CAPTURE_OCCURS →
        opposing_piece node.move.movenum
          (node.board
            ((convert_to_index opt.move.sourcerow + convert_to_index opt.move.targetrow) / 2)
            ((convert_to_index opt.move.sourcecol + convert_to_index opt.move.targetcol) / 2)) ∧
        (piece_worth
            (node.board
              ((convert_to_index opt.move.sourcerow + convert_to_index opt.move.targetrow) / 2)
              ((convert_to_index opt.move.sourcecol + convert_to_index opt.move.targetcol) / 2))
            = 1 ∨
          piece_worth
            (node.board
              ((convert_to_index opt.move.sourcerow + convert_to_index opt.move.targetrow) / 2)
              ((convert_to_index opt.move.sourcecol + convert_to_index opt.move.targetcol) / 2))
            = 3)) ∧
      (node.move.movenum % 2 = 1 → calculate_cost node.board ≤ calculate_cost opt.board) ∧
      (node.move.movenum % 2 = 0 → calculate_cost opt.board ≤ calculate_cost node.board) ∧
      (capture_flag opt.move = NO_CAPTURE →
        crowned (node.board (convert_to_index opt.move.sourcerow)
            (convert_to_index opt.move.sourcecol)) (convert_to_index opt.move.targetrow) =
          node.board (convert_to_index opt.move.sourcerow)
            (convert_to_index opt.move.sourcecol) →
        calculate_cost opt.board = calculate_cost node.board) ∧
      (capture_flag opt.move = NO_CAPTURE →
        crowned (node.board (convert_to_index opt.move.sourcerow)
            (convert_to_index opt.move.sourcecol)) (convert_to_index opt.move.targetrow) ≠
          node.board (convert_to_index opt.move.sourcerow)
            (convert_to_index opt.move.sourcecol) →
        c_abs (calculate_cost opt.board - calculate_cost node.board) = 2) := by
  intro opt hopt
  obtain ⟨hdiff, hgain, hopp⟩ :=
    calculate_cost_option node.board node.move.movenum hwf hply opt hopt
  refine ⟨hdiff, ?_, ?_, ?_, ?_, ?_⟩
  · intro hcap
    exact ⟨hopp hcap, (opposing_value _ _ (hopp hcap)).2⟩
  · intro hodd
    unfold mover_sign at hdiff
    rw [if_pos hodd] at hdiff
    omega
  · intro heven
    unfold mover_sign at hdiff
    rw [if_neg (by omega)] at hdiff
    omega
  · intro hflag hsame
    unfold material_gain at hdiff
    rw [if_pos hsame, hflag, if_neg (by decide)] at hdiff
    omega
  · intro hflag hcrown
    unfold material_gain at hdiff
    rw [if_neg hcrown, hflag, if_neg (by decide)] at hdiff
    rw [hdiff]
    unfold mover_sign c_abs
    split <;> decide

/-- Witness of C24: black to move with a piece on C3 and a white piece on B2; neither of
the two children has a lower cost than the board. -/
theorem calculate_options_material_witness :
    well_formed (blank_node board_b_C3_w_B2 1).board ∧
      0 ≤ (blank_node board_b_C3_w_B2 1).move.movenum ∧
      (calculate_options (blank_node board_b_C3_w_B2 1)).next_move.length = 2 ∧
      ∀ opt ∈ (calculate_options (blank_node board_b_C3_w_B2 1)).next_move,
        calculate_cost board_b_C3_w_B2 ≤ calculate_cost opt.board :=
  ⟨by decide, by decide, by decide,
    fun opt hopt =>
      (calculate_options_material (blank_node board_b_C3_w_B2 1) (by decide) (by decide)
        opt hopt).2.2.1 (by decide)⟩

/-! ## Piece counts along a game -/

/-- C25: on a well-formed board, a move that `legal_input` accepts at a move number `≥ 0`,
applied by `update_board` with the capture flag `legal_input` set, leaves the board
well-formed, leaves the number of cells holding a piece or tower of the mover unchanged
and lowers the number of cells holding a piece or tower of the opponent by at most one.
Hence every board reachable from the starting board of `fill_board` by accepted or
generated moves is well-formed and holds at most 12 pieces or towers of each side. -/
theorem piece_counts_never_grow :
    (∀ (board : board_t) (mv : move_t) (capture : Int), well_formed board →
      0 ≤ mv.movenum → (legal_input board mv capture).ret ≠ 0 →
      well_formed (update_board board mv (legal_input board mv capture).capture) ∧
      count_own (update_board board mv (legal_input board mv capture).capture) mv.movenum =
        count_own board mv.movenum ∧
      count_opposing (update_board board mv (legal_input board mv capture).capture)
          mv.movenum ≤ count_opposing board mv.movenum ∧
      count_opposing board mv.movenum ≤
        count_opposing (update_board board mv (legal_input board mv capture).capture)
          mv.movenum + 1) ∧
    (∀ board0 : board_t,
      count_own (fill_board board0) 1 = 12 ∧ count_own (fill_board board0) 2 = 12) ∧
    (∀ board0 b : board_t, reachable board0 b →
      well_formed b ∧ count_own b 1 ≤ 12 ∧ count_own b 2 ≤ 12) :=
  ⟨fun board mv capture hwf hp hacc => update_board_accepted board mv capture hwf hp hacc,
    fun board0 => (fill_board_counts board0).2,
    fun board0 b h => reachable_counts board0 b h⟩

/-- Witness of C25: black captures the white piece on B2 from C3; the move is accepted,
black still has one piece and white has none left. -/
theorem piece_counts_never_grow_witness :
    well_formed board_b_C3_w_B2 ∧
      (legal_input board_b_C3_w_B2 (move_from 2 2 (-1) (-1) 2 1) NO_CAPTURE).ret ≠ 0 ∧
      count_own board_b_C3_w_B2 1 = 1 ∧ count_opposing board_b_C3_w_B2 1 = 1 ∧
      count_own (update_board board_b_C3_w_B2 (move_from 2 2 (-1) (-1) 2 1)
        (legal_input board_b_C3_w_B2 (move_from 2 2 (-1) (-1) 2 1) NO_CAPTURE).capture) 1 =
        count_own board_b_C3_w_B2 1 :=
  ⟨by decide, by decide, by decide, by decide,
    (piece_counts_never_grow.1 board_b_C3_w_B2 (move_from 2 2 (-1) (-1) 2 1) NO_CAPTURE
      (by decide) (by decide) (by decide)).2.1⟩

end CheckersBot
